import Mathlib

/-!
Uniswap-V3 pool address derivation and sqrtPriceX96 price conversion.

A shallow embedding of `src/step6/main.go` (`computePoolAddress`,
`sqrtPriceX96ToFloat`, `floatToSqrtPriceX96`, `sendUniswapSwap` and the price and swap
steps of `main`) together with the properties of its specification.

Conventions of the embedding:
* a Go `byte` is a `Fin 256`, a `[]byte` a `List Byte`;
* `types.Address` (`[20]byte`) and `types.Hash` (`[32]byte`) are byte lists
  carrying their length;
* a Go function that may panic returns `Except String _`, the error being the panic;
* `crypto.Keccak256` is a parameter `keccak : List Byte → Hash`; `Keccak256` is the
  Keccak-256 function itself, for the statements about concrete addresses;
* the call data of a transaction is the argument tuple the ABI encoder accepted, and
  `client.SendTransaction` is a parameter `client : SwapTx → Except String Hash`;
* a Go `float64` is an `F64`: NaN, a signed infinity, a signed zero, or a finite
  non-zero value denoted by the rational it represents exactly; every operation
  rounds the exact rational result once, to nearest with ties to even (`roundQ`);
* `math.Pow` is the portable `pow` of Go's `math` package; `math.Exp` and `math.Log`,
  which it reaches only for a non-integral exponent, are parameters `Exp`, `Log`;
* a `*big.Float` is a `BigFloat` with its precision, a `*big.Int` an `Int`.
-/

namespace EthWarsaw

/-! ## Bytes, addresses and hashes (`go-eth/types`) -/

/-- Go `byte`: an unsigned 8-bit value. -/
abbrev Byte := Fin 256

/-- Go-eth `types.Address`, a `[20]byte` array. -/
structure Address where
  bytes : List Byte
  len : bytes.length = 20
deriving DecidableEq

/-- Go-eth `types.Hash`, a `[32]byte` array. -/
structure Hash where
  bytes : List Byte
  len : bytes.length = 32
deriving DecidableEq

/-- Go-eth `types.HashPad`: how `HashFromBytes` treats a short input. -/
inductive HashPad where
  | PadNone
  | PadLeft
  | PadRight
deriving DecidableEq

/-- Go `bytes.Compare`: lexicographic comparison of two byte slices by unsigned
byte value; `0` if equal, `-1` if `a < b`, `+1` if `a > b`. -/
def bytesCompare : List Byte → List Byte → Int
  | [], [] => 0
  | [], _ :: _ => -1
  | _ :: _, [] => 1
  | x :: xs, y :: ys =>
    if x < y then -1 else if y < x then 1 else bytesCompare xs ys

/-- The unsigned integer a byte string denotes in big-endian order. -/
def beNat (bs : List Byte) : Nat :=
  bs.foldl (fun acc b => acc * 256 + b.val) 0

/-- Worker of `bigBytes`: peels base-256 digits off `n`, least significant first,
consing them onto `acc`. -/
def bigBytesAux : Nat → Nat → List Byte → List Byte
  | 0, _, acc => acc
  | fuel + 1, n, acc =>
    if n = 0 then acc
    else bigBytesAux fuel (n / 256) (⟨n % 256, Nat.mod_lt _ (by decide)⟩ :: acc)

/-- Go `(*big.Int).Bytes`: the absolute value as a big-endian byte slice without
leading zero bytes (empty for `0`). -/
def bigBytes (i : Int) : List Byte :=
  bigBytesAux i.natAbs i.natAbs []

/-- Go-eth `types.MustHashFromBytes`: a 32-byte hash from at most 32 bytes; `PadNone`
requires exactly 32 bytes, `PadLeft` copies the input to the end of a zeroed array,
`PadRight` to its start. Any other length panics. -/
def MustHashFromBytes (b : List Byte) (pad : HashPad) : Except String Hash :=
  match pad with
  | .PadNone =>
    if h : b.length = 32 then .ok ⟨b, h⟩
    else .error "invalid hash length"
  | .PadLeft =>
    if h : b.length ≤ 32 then
      .ok ⟨List.replicate (32 - b.length) 0 ++ b, by
        rw [List.length_append, List.length_replicate]; omega⟩
    else .error "invalid hash length"
  | .PadRight =>
    if h : b.length ≤ 32 then
      .ok ⟨b ++ List.replicate (32 - b.length) 0, by
        rw [List.length_append, List.length_replicate]; omega⟩
    else .error "invalid hash length"

/-- Go-eth `types.MustHashFromBigInt`: the integer's big-endian bytes, left-padded
to 32 bytes; panics when they do not fit. -/
def MustHashFromBigInt (i : Int) : Except String Hash :=
  MustHashFromBytes (bigBytes i) .PadLeft

/-- Go-eth `types.MustAddressFromBytes`: an address from exactly 20 bytes, panics
otherwise. -/
def MustAddressFromBytes (b : List Byte) : Except String Address :=
  if h : b.length = 20 then .ok ⟨b, h⟩
  else .error "invalid address length"

/-! ## Constants of `main.go` -/

/-- Token constant `WETH` = 0xb4fbf271143f4fbf7b91a5ded31805e42b2208d6. -/
def WETH : Address :=
  ⟨[0xb4, 0xfb, 0xf2, 0x71, 0x14, 0x3f, 0x4f, 0xbf, 0x7b, 0x91,
    0xa5, 0xde, 0xd3, 0x18, 0x05, 0xe4, 0x2b, 0x22, 0x08, 0xd6], rfl⟩

/-- Token constant `USDC` = 0x07865c6e87b9f70255377e024ace6630c1eaa37f. -/
def USDC : Address :=
  ⟨[0x07, 0x86, 0x5c, 0x6e, 0x87, 0xb9, 0xf7, 0x02, 0x55, 0x37,
    0x7e, 0x02, 0x4a, 0xce, 0x66, 0x30, 0xc1, 0xea, 0xa3, 0x7f], rfl⟩

/-- Constant `uniswapFactory` = 0x1F98431c8aD98523631AE4a59f267346ea31F984. -/
def uniswapFactory : Address :=
  ⟨[0x1f, 0x98, 0x43, 0x1c, 0x8a, 0xd9, 0x85, 0x23, 0x63, 0x1a,
    0xe4, 0xa5, 0x9f, 0x26, 0x73, 0x46, 0xea, 0x31, 0xf9, 0x84], rfl⟩

/-- Constant `uniswapPoolInitHash` =
0xe34f199b19b2b4f47f68442619d555527d244f78a3297ea89325f843f87b8b54. -/
def uniswapPoolInitHash : Hash :=
  ⟨[0xe3, 0x4f, 0x19, 0x9b, 0x19, 0xb2, 0xb4, 0xf4, 0x7f, 0x68, 0x44, 0x26,
    0x19, 0xd5, 0x55, 0x52, 0x7d, 0x24, 0x4f, 0x78, 0xa3, 0x29, 0x7e, 0xa8,
    0x93, 0x25, 0xf8, 0x43, 0xf8, 0x7b, 0x8b, 0x54], rfl⟩

/-! ## `computePoolAddress` -/

/-- Source `computePoolAddress` (main.go 332-347). `fee` is the `uint32` argument;
`int64(fee)` keeps its value. The result is `(inverted, pool)`. -/
def computePoolAddress (keccak : List Byte → Hash) (token0 token1 : Address)
    (fee : Nat) : Except String (Bool × Address) :=
  let swapped : Address × Address × Bool :=
    if bytesCompare token0.bytes token1.bytes > 0 then (token1, token0, true)
    else (token0, token1, false)
  let token0 := swapped.1
  let token1 := swapped.2.1
  let inverted := swapped.2.2
  do
    let h0 ← MustHashFromBytes token0.bytes .PadLeft
    let h1 ← MustHashFromBytes token1.bytes .PadLeft
    let hf ← MustHashFromBigInt (Int.ofNat fee)
    let salt := keccak (h0.bytes ++ h1.bytes ++ hf.bytes)
    let b : List Byte :=
      [0xff] ++ uniswapFactory.bytes ++ salt.bytes ++ uniswapPoolInitHash.bytes
    let pool ← MustAddressFromBytes ((keccak b).bytes.drop 12)
    pure (inverted, pool)

/-! ## Specification-side vocabulary -/

/-- Left-padding of an address to a 32-byte word: 12 zero bytes, then its 20 bytes. -/
def pad32 (a : Address) : List Byte :=
  List.replicate 12 0 ++ a.bytes

/-- The last 20 bytes of a 32-byte hash, as an address. -/
def last20 (h : Hash) : Address :=
  ⟨h.bytes.drop 12, by rw [List.length_drop, h.len]⟩

/-- A toy stand-in for the hash function, used only to instantiate `keccak` at
concrete inputs: the first 32 bytes of the input, zero-padded on the right. -/
def toyHash (bs : List Byte) : Hash :=
  ⟨bs.take 32 ++ List.replicate (32 - (bs.take 32).length) 0, by
    rw [List.length_append, List.length_replicate]
    have := List.length_take_le 32 bs
    omega⟩

/-! ## Binary64 arithmetic (Go `float64`, package `math`) -/

/-- IEEE-754 binary64 value (Go `float64`). A finite non-zero value is denoted by the
rational number it represents exactly. -/
inductive F64 where
  | nan
  | inf (neg : Bool)
  | zero (neg : Bool)
  | num (q : ℚ)
deriving DecidableEq

/-- Worker of `bitLen`. -/
def bitLenAux : Nat → Nat → Nat
  | 0, _ => 0
  | fuel + 1, n => if n = 0 then 0 else bitLenAux fuel (n / 2) + 1

/-- One step of `bitLen`: strips `k` low bits from `st.1`, counting them in `st.2`,
when at least one bit remains above them. -/
def bitLenStep (st : Nat × Nat) (k : Nat) : Nat × Nat :=
  if 2 ^ k ≤ st.1 then (st.1 / 2 ^ k, st.2 + k) else st

/-- Number of binary digits of `n` (Go `bits.Len`): `0` for `0`, else `⌊log2 n⌋ + 1`.
Bits are stripped in blocks of decreasing size before the bit-by-bit count. -/
def bitLen (n : Nat) : Nat :=
  let st := [2048, 1024, 512, 256, 128, 64, 32, 16, 8, 4, 2, 1].foldl bitLenStep (n, 0)
  st.2 + bitLenAux st.1 st.1

/-- The rational `2 ^ k` for an integer `k`. -/
def pow2 (k : Int) : ℚ :=
  if 0 ≤ k then ((2 ^ k.toNat : Nat) : ℚ) else 1 / ((2 ^ (-k).toNat : Nat) : ℚ)

/-- For `q > 0`: the integer `⌊log2 q⌋`. -/
def ilog2 (q : ℚ) : Int :=
  let l : Int := (bitLen q.num.natAbs : Int) - (bitLen q.den : Int)
  if pow2 l ≤ q then l else l - 1

/-- Rounding of a rational to the nearest integer, ties to the even one. -/
def roundHalfEven (q : ℚ) : Int :=
  let f := q.num / (q.den : Int)
  let r := q.num % (q.den : Int)
  if 2 * r < (q.den : Int) then f
  else if (q.den : Int) < 2 * r then f + 1
  else if f % 2 = 0 then f else f + 1

/-- Rounding of `q > 0` to `p` significant bits, ties to even, where the exponent of
the last place is not allowed below `emin`. -/
def roundBits (p : Nat) (emin : Int) (q : ℚ) : ℚ :=
  let e := max (ilog2 q - ((p : Int) - 1)) emin
  (roundHalfEven (q * pow2 (-e)) : ℚ) * pow2 e

/-- IEEE-754 round-to-nearest-even of the exact non-zero result `q` to binary64:
53 significant bits, last place at least `2^-1074`, overflow to infinity at `2^1024`;
a result that underflows to zero keeps the sign of `q`. -/
def roundQ (q : ℚ) : F64 :=
  if q = 0 then .zero false
  else
    let r := roundBits 53 (-1074) |q|
    if pow2 1024 ≤ r then .inf (decide (q < 0))
    else if r = 0 then .zero (decide (q < 0))
    else .num (if q < 0 then -r else r)

/-- The exact value of a finite float; `0` for the others. -/
def F64.toRat : F64 → ℚ
  | .num q => q
  | _ => 0

/-- Go `math.Signbit`. -/
def Signbit : F64 → Bool
  | .nan => false
  | .inf s => s
  | .zero s => s
  | .num q => decide (q < 0)

/-- Go `math.IsNaN`. -/
def IsNaN : F64 → Bool
  | .nan => true
  | _ => false

/-- Go conversion `float64(n)` of an unsigned integer. -/
def F64.ofNat (n : Nat) : F64 := roundQ (n : ℚ)

/-- Go `x == y` on `float64`. -/
def feq : F64 → F64 → Bool
  | .nan, _ => false
  | _, .nan => false
  | .inf a, .inf b => a == b
  | .inf _, _ => false
  | _, .inf _ => false
  | a, b => decide (a.toRat = b.toRat)

/-- Go `x < y` on `float64`. -/
def flt : F64 → F64 → Bool
  | .nan, _ => false
  | _, .nan => false
  | .inf a, .inf b => a && !b
  | .inf a, _ => a
  | _, .inf b => !b
  | a, b => decide (a.toRat < b.toRat)

/-- Go unary `-x` on `float64`. -/
def fneg : F64 → F64
  | .nan => .nan
  | .inf s => .inf (!s)
  | .zero s => .zero (!s)
  | .num q => .num (-q)

/-- Go `math.Abs`. -/
def Abs : F64 → F64
  | .nan => .nan
  | .inf _ => .inf false
  | .zero _ => .zero false
  | .num q => .num |q|

/-- Go `x * y` on `float64`. -/
def fmul (x y : F64) : F64 :=
  match x, y with
  | .nan, _ => .nan
  | _, .nan => .nan
  | .inf _, .zero _ => .nan
  | .zero _, .inf _ => .nan
  | .inf a, .inf b => .inf (xor a b)
  | .inf a, .num q => .inf (xor a (decide (q < 0)))
  | .num q, .inf b => .inf (xor (decide (q < 0)) b)
  | .zero a, .zero b => .zero (xor a b)
  | .zero a, .num q => .zero (xor a (decide (q < 0)))
  | .num q, .zero b => .zero (xor (decide (q < 0)) b)
  | .num a, .num b => roundQ (a * b)

/-- Go `x / y` on `float64`; a division by zero is not a run-time error for floats. -/
def fdiv (x y : F64) : F64 :=
  match x, y with
  | .nan, _ => .nan
  | _, .nan => .nan
  | .inf _, .inf _ => .nan
  | .zero _, .zero _ => .nan
  | .inf a, .zero b => .inf (xor a b)
  | .inf a, .num q => .inf (xor a (decide (q < 0)))
  | .num q, .inf b => .zero (xor (decide (q < 0)) b)
  | .zero a, .inf b => .zero (xor a b)
  | .zero a, .num q => .zero (xor a (decide (q < 0)))
  | .num q, .zero b => .inf (xor (decide (q < 0)) b)
  | .num a, .num b => roundQ (a / b)

/-- Go `x + y` on `float64`. -/
def fadd (x y : F64) : F64 :=
  match x, y with
  | .nan, _ => .nan
  | _, .nan => .nan
  | .inf a, .inf b => if a = b then .inf a else .nan
  | .inf a, _ => .inf a
  | _, .inf b => .inf b
  | .zero a, .zero b => .zero (a && b)
  | .zero _, .num q => .num q
  | .num q, .zero _ => .num q
  | .num a, .num b => roundQ (a + b)

/-- Go `x - y` on `float64`. -/
def fsub (x y : F64) : F64 := fadd x (fneg y)

/-- Worker of `isqrt`: adds the bits `2^(k-1) .. 2^0` to `r` while the square fits. -/
def isqrtAux (n : Nat) : Nat → Nat → Nat
  | 0, r => r
  | k + 1, r => if (r + 2 ^ k) ^ 2 ≤ n then isqrtAux n k (r + 2 ^ k) else isqrtAux n k r

/-- Integer square root `⌊√n⌋`. -/
def isqrt (n : Nat) : Nat := isqrtAux n (bitLen n / 2 + 1) 0

/-- For `q > 0`: the correctly rounded binary64 square root. `q` is scaled by an even
power of two to at least `2^128`; the integer square root of the scaled value, with
half a unit added when it is inexact, rounds as the real square root does. -/
def sqrtPos (q : ℚ) : F64 :=
  let h : Int := (ilog2 q - 128) / 2
  let μ := q * pow2 (-(2 * h))
  let n := (μ.num / (μ.den : Int)).toNat
  let s := isqrt n
  if s * s = n ∧ μ.den = 1 then roundQ ((s : ℚ) * pow2 h)
  else roundQ (((2 * s + 1 : Nat) : ℚ) / 2 * pow2 h)

/-- Go `math.Sqrt`: `Sqrt(+Inf) = +Inf`, `Sqrt(±0) = ±0`, `Sqrt(x < 0) = NaN`,
`Sqrt(NaN) = NaN`. -/
def Sqrt : F64 → F64
  | .nan => .nan
  | .inf s => if s then .nan else .inf false
  | .zero s => .zero s
  | .num q => if q < 0 then .nan else sqrtPos q

/-- Go `math.Frexp`: `f = frac × 2^exp` with `|frac|` in `[1/2, 1)`; `(f, 0)` for
zero, infinity and NaN. -/
def Frexp : F64 → F64 × Int
  | .num q => (.num (q * pow2 (-(ilog2 |q| + 1))), ilog2 |q| + 1)
  | f => (f, 0)

/-- Go `math.Ldexp`: `frac × 2^exp`, correctly rounded when denormal, overflowing to
infinity. -/
def Ldexp (frac : F64) (exp : Int) : F64 :=
  match frac with
  | .num q => roundQ (q * pow2 exp)
  | f => f

/-- Go `math.Modf` on a non-negative argument: integer and fractional part. -/
def Modf : F64 → F64 × F64
  | .num q =>
    let i := q.num / (q.den : Int)
    ((if i = 0 then .zero false else .num (i : ℚ)),
     (if q - (i : ℚ) = 0 then .zero false else .num (q - (i : ℚ))))
  | .inf s => (.inf s, .nan)
  | f => (f, f)

/-- The `float64` constants `1` and `0.5`. -/
def F64.one : F64 := .num 1

/-- The `float64` constant `0.5`. -/
def F64.half : F64 := .num (1 / 2)

/-- Go `isOddInt` of package `math`. -/
def isOddInt (x : F64) : Bool :=
  if !(flt (Abs x) (.num (2 ^ 53))) && !(IsNaN x) then false
  else
    match x with
    | .num q => decide (q.den = 1 ∧ q.num % 2 = 1)
    | _ => false

/-- The loop of Go `math.pow` multiplying `a1 × 2^ae` by `(x1 × 2^xe)^i`, by repeated
squaring on the bits of `i`. -/
def powLoop : Nat → Nat → F64 → Int → F64 → Int → F64 × Int
  | 0, _, _, _, a1, ae => (a1, ae)
  | fuel + 1, i, x1, xe, a1, ae =>
    if i = 0 then (a1, ae)
    else if xe < -4096 ∨ 4096 < xe then (a1, ae + xe)
    else
      let a1n := if i % 2 = 1 then fmul a1 x1 else a1
      let aen := if i % 2 = 1 then ae + xe else ae
      let x2 := fmul x1 x1
      let xe2 := xe * 2
      if flt x2 F64.half then powLoop fuel (i / 2) (fadd x2 x2) (xe2 - 1) a1n aen
      else powLoop fuel (i / 2) x2 xe2 a1n aen

/-- Go `math.Pow` (the portable implementation `pow` of `math/pow.go`). `Exp` and `Log`
stand for `math.Exp` and `math.Log`, which only a non-integral exponent reaches. -/
def Pow (Exp Log : F64 → F64) (x y : F64) : F64 :=
  if feq y (.zero false) || feq x F64.one then F64.one
  else if feq y F64.one then x
  else if IsNaN x || IsNaN y then .nan
  else if feq x (.zero false) then
    if flt y (.zero false) then
      (if Signbit x && isOddInt y then .inf true else .inf false)
    else
      (if Signbit x && isOddInt y then x else .zero false)
  else
    match y with
    | .inf ys =>
      if feq x (.num (-1)) then F64.one
      else if (flt (Abs x) F64.one) == !ys then .zero false
      else .inf false
    | _ =>
      match x with
      | .inf true =>
        -- Pow(1/x, -y) = Pow(-0, -y)
        if flt (fneg y) (.zero false) then
          (if isOddInt (fneg y) then .inf true else .inf false)
        else
          (if isOddInt (fneg y) then .zero true else .zero false)
      | .inf false => if flt y (.zero false) then .zero false else .inf false
      | _ =>
        if feq y F64.half then Sqrt x
        else if feq y (.num (-1 / 2)) then fdiv F64.one (Sqrt x)
        else
          let yi := (Modf (Abs y)).1
          let yf := (Modf (Abs y)).2
          if !(feq yf (.zero false)) && flt x (.zero false) then .nan
          else if !(flt yi (.num (2 ^ 63))) then
            if feq x (.num (-1)) then F64.one
            else if (flt (Abs x) F64.one) == (flt (.zero false) y) then .zero false
            else .inf false
          else
            let yf2 := if flt F64.half yf then fsub yf F64.one else yf
            let yi2 := if flt F64.half yf then fadd yi F64.one else yi
            let a0 := if !(feq yf (.zero false)) then Exp (fmul yf2 (Log x)) else F64.one
            let fr := Frexp x
            let r := powLoop 64 (yi2.toRat.num / (yi2.toRat.den : Int)).toNat fr.1 fr.2 a0 0
            if flt y (.zero false) then Ldexp (fdiv F64.one r.1) (-r.2)
            else Ldexp r.1 r.2

/-! ## Arbitrary-precision floats (Go `math/big.Float`) -/

/-- Go `big.Float` with rounding mode `ToNearestEven`: a precision in bits and either
an infinity or a finite value of magnitude `mag >= 0`; `neg` is the sign (also of zero). -/
inductive BigFloat where
  | fin (prec : Nat) (neg : Bool) (mag : ℚ)
  | inf (prec : Nat) (neg : Bool)
deriving DecidableEq

/-- Go `(*big.Float).Prec`. -/
def BigFloat.prec : BigFloat → Nat
  | .fin p _ _ => p
  | .inf p _ => p

/-- Rounding of a magnitude to `p` bits, ties to even, with unbounded exponent. -/
def roundPrec (p : Nat) (q : ℚ) : ℚ :=
  if q = 0 then 0 else roundBits p (ilog2 q - ((p : Int) - 1)) q

/-- Go `new(big.Float).SetInt(x)`: the precision becomes the larger of `x.BitLen()`
and 64, so the value is `x` exactly. -/
def BigFloat.SetInt (x : Int) : BigFloat :=
  let p := max (bitLen x.natAbs) 64
  .fin p (decide (x < 0)) (roundPrec p (x.natAbs : ℚ))

/-- Go `new(big.Float).SetFloat64(x)`: precision 53, value `x` exactly; panics with
`ErrNaN` when `x` is a NaN. -/
def BigFloat.SetFloat64 (x : F64) : Except String BigFloat :=
  match x with
  | .nan => .error "big.ErrNaN: Float.SetFloat64(NaN)"
  | .inf s => .ok (.inf 53 s)
  | .zero s => .ok (.fin 53 s 0)
  | .num q => .ok (.fin 53 (decide (q < 0)) |q|)

/-- Go `big.NewFloat(x)`: as `SetFloat64` on a new value. -/
def BigFloat.NewFloat (x : F64) : Except String BigFloat :=
  BigFloat.SetFloat64 x

/-- Go `new(big.Float).SetMantExp(mant, exp)`: `mant × 2^exp` at the precision of
`mant`. -/
def BigFloat.SetMantExp (mant : BigFloat) (exp : Int) : BigFloat :=
  match mant with
  | .fin p s m => .fin p s (roundPrec p (m * pow2 exp))
  | .inf p s => .inf p s

/-- Go `new(big.Float).Quo(x, y)`: the quotient rounded to the larger of the two
precisions; panics with `ErrNaN` for `0/0` and `Inf/Inf`. -/
def BigFloat.Quo (x y : BigFloat) : Except String BigFloat :=
  let p := max x.prec y.prec
  match x, y with
  | .inf _ _, .inf _ _ => .error "big.ErrNaN: division of zero by zero or infinity by infinity"
  | .inf _ a, .fin _ b _ => .ok (.inf p (xor a b))
  | .fin _ a _, .inf _ b => .ok (.fin p (xor a b) 0)
  | .fin _ a m, .fin _ b n =>
    if m = 0 ∧ n = 0 then
      .error "big.ErrNaN: division of zero by zero or infinity by infinity"
    else if n = 0 then .ok (.inf p (xor a b))
    else .ok (.fin p (xor a b) (roundPrec p (m / n)))

/-- Go `new(big.Float).Mul(x, y)`: the product rounded to the larger of the two
precisions; panics with `ErrNaN` for `0 × Inf`. -/
def BigFloat.Mul (x y : BigFloat) : Except String BigFloat :=
  let p := max x.prec y.prec
  match x, y with
  | .inf _ a, .inf _ b => .ok (.inf p (xor a b))
  | .inf _ a, .fin _ b n =>
    if n = 0 then .error "big.ErrNaN: multiplication of zero with infinity"
    else .ok (.inf p (xor a b))
  | .fin _ a m, .inf _ b =>
    if m = 0 then .error "big.ErrNaN: multiplication of zero with infinity"
    else .ok (.inf p (xor a b))
  | .fin _ a m, .fin _ b n => .ok (.fin p (xor a b) (roundPrec p (m * n)))

/-- Go `(*big.Float).Float64`: the nearest `float64` (ties to even), `±Inf` on
overflow, `±0` on underflow. -/
def BigFloat.Float64 : BigFloat → F64
  | .inf _ s => .inf s
  | .fin _ s m => if m = 0 then .zero s else roundQ (if s then -m else m)

/-- Go `(*big.Float).Int(nil)`: the value truncated towards zero, or `nil` (here
`none`) for an infinity. -/
def BigFloat.Int : BigFloat → Option ℤ
  | .inf _ _ => none
  | .fin _ s m => some (if s then -(m.num / (m.den : ℤ)) else m.num / (m.den : ℤ))

/-! ## Price conversion (`main.go` 350-363 and 174-181) -/

/-- Source `sqrtPriceX96ToFloat` (main.go 350-354). `token0Decimals` and
`token1Decimals` are the `uint8` arguments. -/
def sqrtPriceX96ToFloat (Exp Log : F64 → F64) (x : Int)
    (token0Decimals token1Decimals : Nat) : Except String F64 := do
  let one ← BigFloat.NewFloat (.num 1)
  let pow2n := BigFloat.SetMantExp one 96
  let quo ← BigFloat.Quo (BigFloat.SetInt x) pow2n
  let sqrt := quo.Float64
  pure (fmul (fmul sqrt sqrt)
    (Pow Exp Log (.num 10) (fsub (F64.ofNat token0Decimals) (F64.ofNat token1Decimals))))

/-- Source `floatToSqrtPriceX96` (main.go 357-363). The result `none` is a nil
`*big.Int`. -/
def floatToSqrtPriceX96 (Exp Log : F64 → F64) (y : F64)
    (token0Decimals token1Decimals : Nat) : Except String (Option Int) := do
  let adjustedY := fdiv y
    (Pow Exp Log (.num 10) (fsub (F64.ofNat token0Decimals) (F64.ofNat token1Decimals)))
  let sqrtY := Sqrt adjustedY
  let one ← BigFloat.NewFloat (.num 1)
  let pow2n := BigFloat.SetMantExp one 96
  let f ← BigFloat.SetFloat64 sqrtY
  let x ← BigFloat.Mul f pow2n
  pure x.Int

/-- The "Print the current price" step of `main` (main.go 174-181): `decimalsIn` and
`decimalsOut` are `tokens[tokenIn].Decimals` and `tokens[tokenOut].Decimals`. -/
def currentPrice (Exp Log : F64 → F64) (inverted : Bool) (sqrtPriceX96 : Int)
    (decimalsIn decimalsOut : Nat) : Except String F64 :=
  if inverted then do
    let p ← sqrtPriceX96ToFloat Exp Log sqrtPriceX96 decimalsOut decimalsIn
    pure (fdiv (.num 1) p)
  else sqrtPriceX96ToFloat Exp Log sqrtPriceX96 decimalsIn decimalsOut

/-- The part of `main` from the pool address to the current price (main.go 164-181):
`decimals` is the `Decimals` field the token map holds for an address and `slot0` the
`SqrtPriceX96` the pool at an address reports. -/
def mainPrice (keccak : List Byte → Hash) (Exp Log : F64 → F64)
    (tokenIn tokenOut : Address) (decimals : Address → Nat) (slot0 : Address → Int) :
    Except String F64 := do
  let r ← computePoolAddress keccak tokenIn tokenOut 10000
  currentPrice Exp Log r.1 (slot0 r.2) (decimals tokenIn) (decimals tokenOut)

/-- A stand-in for `math.Exp` and `math.Log`, used only to instantiate them at
concrete inputs. -/
def noExpLog : F64 → F64 := fun _ => .nan

/-- The big-endian encoding of `n` in exactly `k` bytes (the low `k` bytes of `n`). -/
def beWord : Nat → Nat → List Byte
  | 0, _ => []
  | k + 1, n => ⟨n / 256 ^ k % 256, Nat.mod_lt _ (by decide)⟩ :: beWord k n

/-- The pool address the specification assigns to an ordered key `(t0, t1, fee)`:
the last 20 bytes of `Hash(0xFF ++ factory ++ Hash(pad32 t0 ++ pad32 t1 ++ fee word)
++ initCodeHash)`. -/
def poolAddressOf (keccak : List Byte → Hash) (t0 t1 : Address) (fee : Nat) : Address :=
  last20 (keccak ([0xff] ++ uniswapFactory.bytes
    ++ (keccak (pad32 t0 ++ pad32 t1 ++ beWord 32 fee)).bytes
    ++ uniswapPoolInitHash.bytes))

/-! ## Auxiliary definitions of the proofs -/

/-- The defining property of a bit length: `b` is the least exponent with `n < 2^b`. -/
def IsBitLen (n b : Nat) : Prop := n < 2 ^ b ∧ ∀ c, n < 2 ^ c → b ≤ c

/-- The float `float64(k)` of an integer `k`, for `|k| < 2^53`. -/
def intF (k : ℤ) : F64 := if k = 0 then .zero false else .num (k : ℚ)

/-- The `float64` that `sqrtPriceX96ToFloat` calls `sqrt`: `x / 2^96` rounded once. -/
def sqrtRatio (x : ℤ) : F64 :=
  if x = 0 then .zero false else roundQ ((x : ℚ) * pow2 (-96))

/-- Go `math.Pow(10, k)` for an integer `k`, with `math.Exp` and `math.Log` left out. -/
def pow10 (k : ℤ) : F64 := Pow noExpLog noExpLog (.num 10) (intF k)

/-- The rational `10 ^ k` for an integer `k`. -/
def ten (k : ℤ) : ℚ :=
  if 0 ≤ k then ((10 ^ k.toNat : ℕ) : ℚ) else 1 / ((10 ^ (-k).toNat : ℕ) : ℚ)

/-- Check of one entry of the table of powers of ten: `math.Pow(10, k)` is a positive
finite float within relative error `2^-50` of `10^k`. -/
def pow10OK (k : ℤ) : Bool :=
  match pow10 k with
  | .num p => decide (ten k * (1 - pow2 (-50)) ≤ p ∧ p ≤ ten k * (1 + pow2 (-50)))
  | _ => false
deriving instance DecidableEq for Except

/-- The value `a` approximates `x ≥ 0` within relative error `c`. -/
def Near (c x a : ℚ) : Prop := x * (1 - c) ≤ a ∧ a ≤ x * (1 + c)

/-- A float that is neither an infinity nor a NaN. -/
def F64.isFinite : F64 → Bool
  | .zero _ => true
  | .num _ => true
  | _ => false

/-! ## Keccak-256 (`crypto.Keccak256` of go-eth, the legacy Keccak of `x/crypto/sha3`) -/

/-- Identity continuation call that evaluates the number `n` before handing it to `k`;
it only fixes the evaluation order. -/
def forceNat {α : Type} (n : Nat) (k : Nat → α) : α :=
  match n with
  | 0 => k 0
  | m + 1 => k (m + 1)

/-- Identity continuation call that evaluates every element of a list before handing
the list to `k`. -/
def forceList {α : Type} : List Nat → (List Nat → α) → α
  | [], k => k []
  | x :: xs, k => forceNat x fun x => forceList xs fun xs => k (x :: xs)

/-- The 24 round constants of Keccak-f[1600]. -/
def keccakRC : List Nat :=
  [0x1, 0x8082, 0x800000000000808a, 0x8000000080008000,
   0x808b, 0x80000001, 0x8000000080008081, 0x8000000000008009,
   0x8a, 0x88, 0x80008009, 0x8000000a,
   0x8000808b, 0x800000000000008b, 0x8000000000008089, 0x8000000000008003,
   0x8000000000008002, 0x8000000000000080, 0x800a, 0x800000008000000a,
   0x8000000080008081, 0x8000000000008080, 0x80000001, 0x8000000080008008]

/-- The rotation offsets of the rho step, one row for each `y` and within a row one
entry for each `x`; lane `(x, y)` is at index `x + 5 * y`. -/
def keccakRotc : List Nat :=
  [0, 1, 62, 28, 27] ++
  [36, 44, 6, 55, 20] ++
  [3, 10, 43, 25, 39] ++
  [41, 45, 15, 21, 8] ++
  [18, 2, 61, 56, 14]

/-- All ones on 64 bits. -/
def mask64 : Nat := 0xFFFFFFFFFFFFFFFF

/-- Rotation of a 64-bit lane to the left by `n < 64` bits. -/
def rotl64 (a n : Nat) : Nat :=
  ((a <<< n) &&& mask64) ||| (a >>> (64 - n))

/-- Lane `i` of a state (a list of 25 lanes of 64 bits). -/
def lane (s : List Nat) (i : Nat) : Nat := s.getD i 0

/-- The indices `0 .. 24` of the lanes. -/
def laneIdx : List Nat :=
  [0, 1, 2, 3, 4, 5, 6, 7, 8, 9, 10, 11, 12, 13, 14, 15, 16, 17, 18, 19, 20, 21, 22, 23, 24]

/-- Step theta: every lane is xored with the parities of two neighbouring columns. -/
def theta (s : List Nat) : List Nat :=
  forceList s fun s =>
  forceList ([0, 1, 2, 3, 4].map fun x =>
    lane s x ^^^ lane s (x + 5) ^^^ lane s (x + 10) ^^^ lane s (x + 15) ^^^ lane s (x + 20))
    fun c =>
  forceList ([0, 1, 2, 3, 4].map fun x =>
    lane c ((x + 4) % 5) ^^^ rotl64 (lane c ((x + 1) % 5)) 1) fun d =>
  laneIdx.map fun i => lane s i ^^^ lane d (i % 5)

/-- Steps rho and pi: lane `(x, y)` is rotated by its offset and moved to
`(y, 2 x + 3 y)`; read from the target `(X, Y)`, the origin is `(X + 3 Y, X)`. -/
def rhoPi (s : List Nat) : List Nat :=
  forceList s fun s =>
  forceList keccakRotc fun r =>
  laneIdx.map fun j =>
    let i := (j % 5 + 3 * (j / 5)) % 5 + 5 * (j % 5)
    rotl64 (lane s i) (lane r i)

/-- Step chi: `a[x, y] = b[x, y] xor (not b[x+1, y] and b[x+2, y])`. -/
def chi (s : List Nat) : List Nat :=
  forceList s fun s =>
  laneIdx.map fun i =>
    lane s i ^^^
      ((lane s ((i % 5 + 1) % 5 + 5 * (i / 5)) ^^^ mask64) &&&
        lane s ((i % 5 + 2) % 5 + 5 * (i / 5)))

/-- Step iota: the round constant is xored into lane `(0, 0)`. -/
def iota (s : List Nat) (rc : Nat) : List Nat :=
  match s with
  | [] => []
  | a :: rest => (a ^^^ rc) :: rest

/-- One round of Keccak-f[1600]. -/
def keccakRound (s : List Nat) (rc : Nat) : List Nat :=
  iota (chi (rhoPi (theta s))) rc

/-- The permutation Keccak-f[1600]: 24 rounds. -/
def keccakF1600 (s : List Nat) : List Nat :=
  keccakRC.foldl keccakRound s

/-- Little-endian value of a byte string. -/
def leNat : List Nat → Nat
  | [] => 0
  | b :: bs => b + 256 * leNat bs

/-- Padding of legacy Keccak at rate 136: the byte 0x01, zero bytes, and the top bit
of the last byte of the block. -/
def keccakPad (m : List Nat) : List Nat :=
  let q := 136 - m.length % 136
  if q = 1 then m ++ [0x81] else m ++ [0x01] ++ List.replicate (q - 2) 0 ++ [0x80]

/-- Absorption of one 136-byte block: its 17 little-endian lanes are xored into the
first 17 lanes of the state, then the state is permuted. -/
def absorbBlock (s : List Nat) (blk : List Nat) : List Nat :=
  forceList s fun s =>
  forceList blk fun blk =>
  keccakF1600 (laneIdx.map fun i =>
    if i < 17 then lane s i ^^^ leNat ((blk.drop (8 * i)).take 8) else lane s i)

/-- Absorption of `n` consecutive blocks of the padded message `p`. -/
def keccakAbsorb : Nat → List Nat → List Nat → List Nat
  | 0, s, _ => s
  | n + 1, s, p => keccakAbsorb n (absorbBlock s (p.take 136)) (p.drop 136)

/-- Library `crypto.Keccak256`: the Keccak-256 hash (rate 136 bytes, capacity 512 bits,
domain byte 0x01, 32 bytes of output) of a byte string. -/
def Keccak256 (data : List Byte) : Hash :=
  forceList (data.map Fin.val) fun m =>
  forceList (keccakPad m) fun p =>
  forceList (keccakAbsorb (p.length / 136) (List.replicate 25 0) p) fun s =>
  ⟨(List.range 32).map fun i =>
      ⟨(lane s (i / 8) >>> (8 * (i % 8))) % 256, Nat.mod_lt _ (by decide)⟩,
    by rw [List.length_map, List.length_range]⟩

/-! ## Test vectors of the pool address -/

/-- The USDC token of Ethereum mainnet, 0xA0b86991c6218b36c1d19D4a2e9Eb0cE3606eB48. -/
def mainnetUSDC : Address :=
  ⟨[0xa0, 0xb8, 0x69, 0x91, 0xc6, 0x21, 0x8b, 0x36, 0xc1, 0xd1,
    0x9d, 0x4a, 0x2e, 0x9e, 0xb0, 0xce, 0x36, 0x06, 0xeb, 0x48], rfl⟩

/-- The WETH token of Ethereum mainnet, 0xC02aaA39b223FE8D0A0e5C4F27eAD9083C756Cc2. -/
def mainnetWETH : Address :=
  ⟨[0xc0, 0x2a, 0xaa, 0x39, 0xb2, 0x23, 0xfe, 0x8d, 0x0a, 0x0e,
    0x5c, 0x4f, 0x27, 0xea, 0xd9, 0x08, 0x3c, 0x75, 0x6c, 0xc2], rfl⟩

/-- The address the known-vector sentence of the specification writes for USDC,
0xA0b86991c6218b36c1d19D4a5e3EB0cE3606eB48; it differs from `mainnetUSDC` in its bytes
13 and 14 (0x5e 0x3e for 0x2e 0x9e). -/
def vectorUSDC : Address :=
  ⟨[0xa0, 0xb8, 0x69, 0x91, 0xc6, 0x21, 0x8b, 0x36, 0xc1, 0xd1,
    0x9d, 0x4a, 0x5e, 0x3e, 0xb0, 0xce, 0x36, 0x06, 0xeb, 0x48], rfl⟩

/-- The deployed mainnet pool USDC/WETH of fee tier 3000,
0x8ad599c3A0ff1De082011EFDDc58f1908eb6e6D8. -/
def poolUSDCWETH3000 : Address :=
  ⟨[0x8a, 0xd5, 0x99, 0xc3, 0xa0, 0xff, 0x1d, 0xe0, 0x82, 0x01,
    0x1e, 0xfd, 0xdc, 0x58, 0xf1, 0x90, 0x8e, 0xb6, 0xe6, 0xd8], rfl⟩

/-- The address `computePoolAddress` derives for `vectorUSDC`, `mainnetWETH` and fee
3000: 0xab7bd3655dff7d2d54612cbb9069fa3176d2d96e. -/
def vectorPool : Address :=
  ⟨[0xab, 0x7b, 0xd3, 0x65, 0x5d, 0xff, 0x7d, 0x2d, 0x54, 0x61,
    0x2c, 0xbb, 0x90, 0x69, 0xfa, 0x31, 0x76, 0xd2, 0xd9, 0x6e], rfl⟩

/-! ## `sendUniswapSwap` -/

/-- Constant `SwapContract` = 0x1aa862951c58aEc5f2745F63575d91BaCCF8fc41. -/
def SwapContract : Address :=
  ⟨[0x1a, 0xa8, 0x62, 0x95, 0x1c, 0x58, 0xae, 0xc5, 0xf2, 0x74,
    0x5f, 0x63, 0x57, 0x5d, 0x91, 0xba, 0xcc, 0xf8, 0xfc, 0x41], rfl⟩

/-- The arguments of the ABI method `uniswapSwap` (main.go 49-57),
`swap(address pool, address recipient, bool zeroForOne, int256 amountSpecified,
uint160 sqrtPriceLimitX96)`, in the order `EncodeArgs` receives them. -/
structure SwapArgs where
  pool : Address
  recipient : Address
  zeroForOne : Bool
  amountSpecified : Int
  sqrtPriceLimitX96 : Int
  deriving DecidableEq

/-- The transaction `sendUniswapSwap` builds: the address in `To` and the arguments
encoded in `Input`. The call data is represented by the argument tuple the ABI encoder
accepted; its bytes are not modelled. -/
structure SwapTx where
  To : Address
  Input : SwapArgs
  deriving DecidableEq

/-- Least value of an `int256`, `-2^255`. -/
def minInt256 : Int :=
  -57896044618658097711785492504343953926634992332820282019728792003956564819968

/-- Greatest value of an `int256`, `2^255 - 1`. -/
def maxInt256 : Int :=
  57896044618658097711785492504343953926634992332820282019728792003956564819967

/-- Greatest value of a `uint160`, `2^160 - 1`. -/
def maxUint160 : Int := 1461501637330902918203684832716283019655932542975

/-- Library `uniswapSwap.EncodeArgs` (go-eth `abi`): the arguments are encoded when
`amountSpecified` fits an `int256` and `sqrtPriceLimitX96` a `uint160`, addresses and
booleans always fit; otherwise the encoder returns an error. -/
def EncodeArgs (pool recipient : Address) (zeroForOne : Bool)
    (amountSpecified sqrtPriceLimitX96 : Int) : Except String SwapArgs :=
  if amountSpecified < minInt256 ∨ maxInt256 < amountSpecified then
    .error "abi: amountSpecified does not fit int256"
  else if sqrtPriceLimitX96 < 0 ∨ maxUint160 < sqrtPriceLimitX96 then
    .error "abi: sqrtPriceLimitX96 does not fit uint160"
  else .ok ⟨pool, recipient, zeroForOne, amountSpecified, sqrtPriceLimitX96⟩

/-- Local `minTickSqrtRatio` of `sendUniswapSwap`: the decimal string "4295128740". -/
def minTickSqrtRatio : Int := 4295128740

/-- Local `maxTickSqrtRatio` of `sendUniswapSwap`: the decimal string
"1461446703485210103287273052203988822378723970341". -/
def maxTickSqrtRatio : Int := 1461446703485210103287273052203988822378723970341

/-- Source `sendUniswapSwap` (main.go 307-327). `client` is `client.SendTransaction`:
the hash of the transaction it is handed, or the error of the RPC client. When
`EncodeArgs` fails its error is returned and nothing is sent (main.go 315-318). -/
def sendUniswapSwap (client : SwapTx → Except String Hash) (inverted : Bool)
    (poolAddr recipientAddr : Address) (amountIn : Int) : Except String Hash :=
  let sqrtPriceLimitX96 := if inverted then maxTickSqrtRatio else minTickSqrtRatio
  match EncodeArgs poolAddr recipientAddr (!inverted) amountIn sqrtPriceLimitX96 with
  | .error err => .error err
  | .ok callData => client ⟨SwapContract, callData⟩

/-- The "Swap tokens" step of `main` after the pool address (main.go 164-165, 183-198):
both branches of `if inverted` send the same swap, and an error of `sendUniswapSwap` is
a panic; `recipient` is `key.Address()` and `balance` is `tokens[tokenIn].Balance`. -/
def mainSwap (keccak : List Byte → Hash) (client : SwapTx → Except String Hash)
    (tokenIn tokenOut recipient : Address) (balance : Int) : Except String Hash := do
  let r ← computePoolAddress keccak tokenIn tokenOut 10000
  if r.1 then sendUniswapSwap client r.1 r.2 recipient balance
  else sendUniswapSwap client r.1 r.2 recipient balance

/-- Uniswap V3 `TickMath.MIN_SQRT_RATIO`, the square-root price at the minimum tick: the
least value a pool's `sqrtPriceX96` can take. -/
def MIN_SQRT_RATIO : Int := 4295128739

/-- Uniswap V3 `TickMath.MAX_SQRT_RATIO`, the square-root price at the maximum tick: a
pool's `sqrtPriceX96` stays below it. -/
def MAX_SQRT_RATIO : Int := 1461446703485210103287273052203988822378723970342

/-- The price-limit requirement of the Uniswap V3 pool's `swap`: selling token0
(`zeroForOne`) moves the price down, so the limit must lie below the current price and
above `MIN_SQRT_RATIO`; otherwise the price moves up and the limit must lie above the
current price and below `MAX_SQRT_RATIO`. -/
def limitAccepted (zeroForOne : Bool) (sqrtPriceLimitX96 sqrtPriceX96 : Int) : Prop :=
  if zeroForOne then sqrtPriceLimitX96 < sqrtPriceX96 ∧ MIN_SQRT_RATIO < sqrtPriceLimitX96
  else sqrtPriceX96 < sqrtPriceLimitX96 ∧ sqrtPriceLimitX96 < MAX_SQRT_RATIO

/-- The range of the square-root price of a Uniswap V3 pool (the requirement of
`TickMath.getTickAtSqrtRatio`): from `MIN_SQRT_RATIO` up to, excluding, `MAX_SQRT_RATIO`. -/
def validSqrtPrice (sqrtPriceX96 : Int) : Prop :=
  MIN_SQRT_RATIO ≤ sqrtPriceX96 ∧ sqrtPriceX96 < MAX_SQRT_RATIO

/-! ## Byte-string lemmas -/

theorem beNat_foldl (bs : List Byte) (acc : Nat) :
    bs.foldl (fun acc b => acc * 256 + b.val) acc = acc * 256 ^ bs.length + beNat bs := by
  induction bs generalizing acc with
  | nil => simp [beNat]
  | cons x xs ih =>
    simp only [List.foldl_cons, List.length_cons, beNat]
    rw [ih, ih (0 * 256 + x.val)]
    ring

theorem beNat_nil : beNat [] = 0 := rfl

theorem beNat_cons (x : Byte) (xs : List Byte) :
    beNat (x :: xs) = x.val * 256 ^ xs.length + beNat xs := by
  show List.foldl (fun acc b => acc * 256 + b.val) 0 (x :: xs) = _
  rw [List.foldl_cons, beNat_foldl]
  simp

theorem beNat_append (xs ys : List Byte) :
    beNat (xs ++ ys) = beNat xs * 256 ^ ys.length + beNat ys := by
  unfold beNat
  rw [List.foldl_append, beNat_foldl]
  rfl

theorem beNat_lt (bs : List Byte) : beNat bs < 256 ^ bs.length := by
  induction bs with
  | nil => simp [beNat]
  | cons x xs ih =>
    rw [beNat_cons, List.length_cons, pow_succ]
    have hx : x.val < 256 := x.isLt
    nlinarith [Nat.pow_pos (n := xs.length) (show 0 < 256 by decide)]

theorem beNat_replicate_zero (k : Nat) : beNat (List.replicate k (0 : Byte)) = 0 := by
  induction k with
  | zero => rfl
  | succ k ih => rw [List.replicate_succ, beNat_cons, ih]; simp

theorem beNat_inj : ∀ (a b : List Byte), a.length = b.length → beNat a = beNat b → a = b
  | [], [], _, _ => rfl
  | [], _ :: _, h, _ => by simp at h
  | _ :: _, [], h, _ => by simp at h
  | x :: xs, y :: ys, h, hv => by
    have hl : xs.length = ys.length := by simpa using h
    rw [beNat_cons, beNat_cons, hl] at hv
    have h1 := beNat_lt xs
    have h2 := beNat_lt ys
    rw [hl] at h1
    have hp : 0 < 256 ^ ys.length := Nat.pow_pos (by decide)
    have hxy : x.val = y.val := by
      rcases Nat.lt_trichotomy x.val y.val with hlt | heq | hgt
      · exfalso
        have : (x.val + 1) * 256 ^ ys.length ≤ y.val * 256 ^ ys.length :=
          Nat.mul_le_mul_right _ hlt
        nlinarith
      · exact heq
      · exfalso
        have : (y.val + 1) * 256 ^ ys.length ≤ x.val * 256 ^ ys.length :=
          Nat.mul_le_mul_right _ hgt
        nlinarith
    have hxs : beNat xs = beNat ys := by
      rw [hxy] at hv
      omega
    rw [Fin.ext hxy, beNat_inj xs ys hl hxs]

theorem bytesCompare_pos_iff : ∀ (a b : List Byte), a.length = b.length →
    (bytesCompare a b > 0 ↔ beNat b < beNat a)
  | [], [], _ => by simp [bytesCompare, beNat]
  | [], _ :: _, h => by simp at h
  | _ :: _, [], h => by simp at h
  | x :: xs, y :: ys, h => by
    have hl : xs.length = ys.length := by simpa using h
    have ih := bytesCompare_pos_iff xs ys hl
    have h1 := beNat_lt xs
    have h2 := beNat_lt ys
    rw [hl] at h1
    have hp : 0 < 256 ^ ys.length := Nat.pow_pos (by decide)
    rw [beNat_cons, beNat_cons, hl]
    unfold bytesCompare
    by_cases hxy : x < y
    · have hv : x.val < y.val := hxy
      have : (x.val + 1) * 256 ^ ys.length ≤ y.val * 256 ^ ys.length :=
        Nat.mul_le_mul_right _ hv
      simp only [hxy, if_true]
      constructor
      · intro hc; omega
      · intro hc; exfalso; nlinarith
    · by_cases hyx : y < x
      · have hv : y.val < x.val := hyx
        have : (y.val + 1) * 256 ^ ys.length ≤ x.val * 256 ^ ys.length :=
          Nat.mul_le_mul_right _ hv
        simp only [hxy, hyx, if_true, if_false]
        constructor
        · intro _; nlinarith
        · intro _; omega
      · have hv : x.val = y.val := by
          have h3 : ¬ x.val < y.val := hxy
          have h4 : ¬ y.val < x.val := hyx
          omega
        simp only [hxy, hyx, if_false]
        rw [ih, hv]
        omega

theorem bytesCompare_pos_iff_lex : ∀ (a b : List Byte),
    (bytesCompare a b > 0 ↔ List.Lex (· < ·) b a)
  | [], [] => by simp [bytesCompare]
  | [], _ :: _ => by simp [bytesCompare]
  | _ :: _, [] => by simp [bytesCompare, List.Lex.nil]
  | x :: xs, y :: ys => by
    have ih := bytesCompare_pos_iff_lex xs ys
    unfold bytesCompare
    by_cases hxy : x < y
    · simp only [hxy, if_true]
      constructor
      · intro hc; omega
      · intro hc
        cases hc with
        | cons h => exact absurd hxy (lt_irrefl _)
        | rel h => exact absurd (lt_trans hxy h) (lt_irrefl _)
    · by_cases hyx : y < x
      · simp only [hxy, hyx, if_true, if_false]
        constructor
        · intro _; exact List.Lex.rel hyx
        · intro _; omega
      · have hv : x = y := le_antisymm (not_lt.mp hyx) (not_lt.mp hxy)
        simp only [hxy, hyx, if_false]
        subst hv
        rw [ih]
        constructor
        · intro hc; exact List.Lex.cons hc
        · intro hc
          cases hc with
          | cons h => exact h
          | rel h => exact absurd h (lt_irrefl _)

theorem bigBytesAux_spec : ∀ (fuel n : Nat) (acc : List Byte), n ≤ fuel →
    beNat (bigBytesAux fuel n acc) = n * 256 ^ acc.length + beNat acc
  | 0, n, acc, h => by
    have : n = 0 := by omega
    subst this
    simp [bigBytesAux]
  | fuel + 1, n, acc, h => by
    unfold bigBytesAux
    by_cases hn : n = 0
    · simp [hn]
    · simp only [hn, if_false]
      have hd : n / 256 ≤ fuel := by
        have : n / 256 < n := Nat.div_lt_self (Nat.pos_of_ne_zero hn) (by decide)
        omega
      rw [bigBytesAux_spec fuel (n / 256) _ hd, beNat_cons, List.length_cons, pow_succ]
      have hdm := Nat.div_add_mod n 256
      simp only
      calc n / 256 * (256 ^ acc.length * 256) + (n % 256 * 256 ^ acc.length + beNat acc)
          = (256 * (n / 256) + n % 256) * 256 ^ acc.length + beNat acc := by ring
        _ = n * 256 ^ acc.length + beNat acc := by rw [hdm]

theorem bigBytesAux_length : ∀ (fuel n : Nat) (acc : List Byte) (k : Nat), n < 256 ^ k →
    (bigBytesAux fuel n acc).length ≤ acc.length + k
  | 0, n, acc, k, _ => by simp [bigBytesAux]
  | fuel + 1, n, acc, k, h => by
    unfold bigBytesAux
    by_cases hn : n = 0
    · simp [hn]
    · simp only [hn, if_false]
      cases k with
      | zero => simp at h; omega
      | succ k =>
        have hd : n / 256 < 256 ^ k := by
          rw [Nat.div_lt_iff_lt_mul (by decide)]
          rw [pow_succ] at h
          exact h
        have := bigBytesAux_length fuel (n / 256) (⟨n % 256, Nat.mod_lt _ (by decide)⟩ :: acc) k hd
        simp only [List.length_cons] at this
        omega

theorem beNat_bigBytes (n : Nat) : beNat (bigBytes (Int.ofNat n)) = n := by
  unfold bigBytes
  rw [bigBytesAux_spec _ _ _ (le_refl _)]
  simp [beNat]

theorem bigBytes_length (n k : Nat) (h : n < 256 ^ k) :
    (bigBytes (Int.ofNat n)).length ≤ k := by
  unfold bigBytes
  have := bigBytesAux_length (Int.ofNat n).natAbs (Int.ofNat n).natAbs [] k (by simpa using h)
  simpa using this

theorem beWord_length : ∀ (k n : Nat), (beWord k n).length = k
  | 0, _ => rfl
  | k + 1, n => by simp [beWord, beWord_length k n]

theorem beNat_beWord : ∀ (k n : Nat), beNat (beWord k n) = n % 256 ^ k
  | 0, n => by simp [beWord, beNat, Nat.mod_one]
  | k + 1, n => by
    rw [beWord, beNat_cons, beWord_length, beNat_beWord k n]
    simp only
    rw [pow_succ, Nat.mod_mul, Nat.mul_comm]
    omega

/-! ## `computePoolAddress`: closed form -/

theorem MustHashFromBytes_address (a : Address) :
    MustHashFromBytes a.bytes .PadLeft
      = .ok ⟨pad32 a, by simp [pad32, a.len]⟩ := by
  have h : a.bytes.length ≤ 32 := by rw [a.len]; decide
  simp only [MustHashFromBytes, h, dite_true]
  congr 2
  simp [pad32, a.len]

theorem feeWord_eq (fee : Nat) (h : fee < 2 ^ 256) :
    List.replicate (32 - (bigBytes (Int.ofNat fee)).length) (0 : Byte) ++ bigBytes (Int.ofNat fee)
      = beWord 32 fee := by
  have hl : (bigBytes (Int.ofNat fee)).length ≤ 32 :=
    bigBytes_length fee 32 (by norm_num; exact h)
  apply beNat_inj
  · rw [List.length_append, List.length_replicate, beWord_length]; omega
  · rw [beNat_append, beNat_replicate_zero, beNat_bigBytes, beNat_beWord, Nat.mod_eq_of_lt]
    · simp
    · norm_num; exact h

theorem MustHashFromBigInt_fee (fee : Nat) (h : fee < 2 ^ 256) :
    MustHashFromBigInt (Int.ofNat fee)
      = .ok ⟨beWord 32 fee, beWord_length 32 fee⟩ := by
  have hl : (bigBytes (Int.ofNat fee)).length ≤ 32 :=
    bigBytes_length fee 32 (by norm_num; exact h)
  simp only [MustHashFromBigInt, MustHashFromBytes, hl, dite_true]
  congr 2
  exact feeWord_eq fee h

theorem MustAddressFromBytes_hash (h : Hash) :
    MustAddressFromBytes (h.bytes.drop 12) = .ok (last20 h) := by
  have hl : (h.bytes.drop 12).length = 20 := by rw [List.length_drop, h.len]
  simp only [MustAddressFromBytes, hl, dite_true]
  rfl

theorem computePoolAddress_eq (keccak : List Byte → Hash) (a b : Address) (fee : Nat)
    (hfee : fee < 2 ^ 256) :
    computePoolAddress keccak a b fee =
      if bytesCompare a.bytes b.bytes > 0 then .ok (true, poolAddressOf keccak b a fee)
      else .ok (false, poolAddressOf keccak a b fee) := by
  unfold computePoolAddress
  by_cases hc : bytesCompare a.bytes b.bytes > 0
  · simp only [hc, if_true, MustHashFromBytes_address, MustHashFromBigInt_fee fee hfee,
      MustAddressFromBytes_hash]
    rfl
  · simp only [hc, if_false, MustHashFromBytes_address, MustHashFromBigInt_fee fee hfee,
      MustAddressFromBytes_hash]
    rfl

theorem Address.bytes_ne {a b : Address} (h : a ≠ b) : a.bytes ≠ b.bytes := by
  intro hb
  apply h
  cases a; cases b
  simp only at hb
  subst hb
  rfl

theorem beNat_address_ne {a b : Address} (h : a ≠ b) : beNat a.bytes ≠ beNat b.bytes := by
  intro hv
  exact Address.bytes_ne h (beNat_inj _ _ (by rw [a.len, b.len]) hv)

theorem uint32_lt_word {fee : Nat} (h : fee < 2 ^ 32) : fee < 2 ^ 256 :=
  lt_trans h (by norm_num)

/-! ## Bit length and binary logarithm -/

theorem bitLenAux_zero (fuel : Nat) : bitLenAux fuel 0 = 0 := by
  cases fuel <;> simp [bitLenAux]

theorem bitLenAux_isBitLen : ∀ (fuel n : Nat), n ≤ fuel → IsBitLen n (bitLenAux fuel n)
  | 0, n, h => by
    have : n = 0 := by omega
    subst this
    exact ⟨by simp [bitLenAux], fun c _ => by simp [bitLenAux]⟩
  | fuel + 1, n, h => by
    unfold bitLenAux
    by_cases hn : n = 0
    · subst hn
      exact ⟨by simp, fun c _ => by simp⟩
    · simp only [hn, if_false]
      have hd : n / 2 ≤ fuel := by omega
      obtain ⟨h1, h2⟩ := bitLenAux_isBitLen fuel (n / 2) hd
      refine ⟨?_, ?_⟩
      · rw [pow_succ]; omega
      · intro c hc
        cases c with
        | zero => simp at hc; omega
        | succ c =>
          have : n / 2 < 2 ^ c := by rw [pow_succ] at hc; omega
          have := h2 c this
          omega

theorem bitLenStep_inv (n : Nat) (st : Nat × Nat) (k : Nat)
    (h : ∀ b, IsBitLen st.1 b → IsBitLen n (st.2 + b)) :
    ∀ b, IsBitLen (bitLenStep st k).1 b → IsBitLen n ((bitLenStep st k).2 + b) := by
  unfold bitLenStep
  by_cases hk : 2 ^ k ≤ st.1
  · simp only [hk, if_true]
    intro b ⟨h1, h2⟩
    have hp : 0 < 2 ^ k := Nat.pow_pos (by decide)
    have := h (k + b) ⟨by
        rw [pow_add]
        exact (Nat.div_lt_iff_lt_mul hp).mp h1 |>.trans_eq (Nat.mul_comm _ _), by
        intro c hc
        have hkc : k < c := by
          by_contra hle
          have : 2 ^ c ≤ 2 ^ k := Nat.pow_le_pow_right (by decide) (by omega)
          omega
        obtain ⟨c', rfl⟩ : ∃ c', c = k + c' := ⟨c - k, by omega⟩
        have : st.1 / 2 ^ k < 2 ^ c' := by
          rw [Nat.div_lt_iff_lt_mul hp, Nat.mul_comm, ← pow_add]
          exact hc
        have := h2 c' this
        omega⟩
    rw [Nat.add_assoc]
    exact this
  · simp only [hk, if_false]
    exact h

theorem bitLen_foldl_inv (n : Nat) (ks : List Nat) : ∀ (st : Nat × Nat),
    (∀ b, IsBitLen st.1 b → IsBitLen n (st.2 + b)) →
    ∀ b, IsBitLen (ks.foldl bitLenStep st).1 b →
      IsBitLen n ((ks.foldl bitLenStep st).2 + b) := by
  induction ks with
  | nil => intro st h; simpa using h
  | cons k ks ih =>
    intro st h
    rw [List.foldl_cons]
    exact ih _ (bitLenStep_inv n st k h)

theorem bitLen_isBitLen (n : Nat) : IsBitLen n (bitLen n) := by
  unfold bitLen
  apply bitLen_foldl_inv n _ (n, 0)
  · intro b hb; simpa using hb
  · exact bitLenAux_isBitLen _ _ (le_refl _)

theorem lt_two_pow_bitLen (n : Nat) : n < 2 ^ bitLen n := (bitLen_isBitLen n).1

theorem bitLen_pos {n : Nat} (h : 0 < n) : 0 < bitLen n := by
  by_contra h0
  have : bitLen n = 0 := by omega
  have h1 := lt_two_pow_bitLen n
  rw [this] at h1
  simp at h1
  omega

theorem two_pow_bitLen_le {n : Nat} (h : 0 < n) : 2 ^ (bitLen n - 1) ≤ n := by
  by_contra hlt
  have h2 := (bitLen_isBitLen n).2 (bitLen n - 1) (by omega)
  have := bitLen_pos h
  omega

theorem bitLen_le_of_lt {n c : Nat} (h : n < 2 ^ c) : bitLen n ≤ c :=
  (bitLen_isBitLen n).2 c h

theorem pow2_eq (k : Int) : pow2 k = (2 : ℚ) ^ k := by
  unfold pow2
  by_cases hk : 0 ≤ k
  · rw [if_pos hk]
    obtain ⟨n, rfl⟩ := Int.eq_ofNat_of_zero_le hk
    simp
  · rw [if_neg hk]
    obtain ⟨n, hn⟩ := Int.eq_ofNat_of_zero_le (show 0 ≤ -k by omega)
    have hk2 : k = -(n : Int) := by omega
    subst hk2
    simp

theorem pow2_pos (k : Int) : 0 < pow2 k := by
  rw [pow2_eq]; positivity

theorem pow2_add (a b : Int) : pow2 (a + b) = pow2 a * pow2 b := by
  rw [pow2_eq, pow2_eq, pow2_eq, zpow_add₀ (by norm_num)]

theorem pow2_neg (a : Int) : pow2 (-a) = (pow2 a)⁻¹ := by
  rw [pow2_eq, pow2_eq, zpow_neg]

theorem pow2_le_pow2 {a b : Int} (h : a ≤ b) : pow2 a ≤ pow2 b := by
  rw [pow2_eq, pow2_eq]
  exact zpow_le_zpow_right₀ (by norm_num) h

theorem pow2_lt_pow2 {a b : Int} (h : a < b) : pow2 a < pow2 b := by
  rw [pow2_eq, pow2_eq]
  exact zpow_lt_zpow_right₀ (by norm_num) h

theorem pow2_mul_neg (a : Int) : pow2 a * pow2 (-a) = 1 := by
  rw [← pow2_add]; simp [pow2]

theorem pow2_succ (a : Int) : pow2 (a + 1) = 2 * pow2 a := by
  rw [pow2_add, mul_comm]; congr 1

theorem pow2_natCast (n : Nat) : pow2 (n : Int) = ((2 ^ n : Nat) : ℚ) := by
  simp [pow2]

theorem ilog2_spec {q : ℚ} (hq : 0 < q) : pow2 (ilog2 q) ≤ q ∧ q < pow2 (ilog2 q + 1) := by
  have hnum : 0 < q.num := Rat.num_pos.mpr hq
  have hn : 0 < q.num.natAbs := Int.natAbs_pos.mpr (ne_of_gt hnum)
  have hd : 0 < q.den := q.den_pos
  have hqd : q * (q.den : ℚ) = (q.num.natAbs : ℚ) := by
    have h1 : ((q.num.natAbs : ℕ) : ℚ) = (q.num : ℚ) := by
      rw [Nat.cast_natAbs, abs_of_pos hnum]
    rw [h1]
    exact Rat.mul_den_eq_num q
  have hn1 := two_pow_bitLen_le hn
  have hn2 := lt_two_pow_bitLen q.num.natAbs
  have hd1 := two_pow_bitLen_le hd
  have hd2 := lt_two_pow_bitLen q.den
  have hbn := bitLen_pos hn
  have hbd := bitLen_pos hd
  have hn1q : pow2 ((bitLen q.num.natAbs : Int) - 1) ≤ (q.num.natAbs : ℚ) := by
    rw [show ((bitLen q.num.natAbs : Int) - 1) = ((bitLen q.num.natAbs - 1 : Nat) : Int) by omega,
      pow2_natCast]
    exact_mod_cast hn1
  have hn2q : (q.num.natAbs : ℚ) < pow2 (bitLen q.num.natAbs : Int) := by
    rw [pow2_natCast]; exact_mod_cast hn2
  have hd1q : pow2 ((bitLen q.den : Int) - 1) ≤ (q.den : ℚ) := by
    rw [show ((bitLen q.den : Int) - 1) = ((bitLen q.den - 1 : Nat) : Int) by omega, pow2_natCast]
    exact_mod_cast hd1
  have hd2q : (q.den : ℚ) < pow2 (bitLen q.den : Int) := by
    rw [pow2_natCast]; exact_mod_cast hd2
  set l : Int := (bitLen q.num.natAbs : Int) - (bitLen q.den : Int) with hl
  -- q < 2^(l+1)
  have hup : q < pow2 (l + 1) := by
    have h1 : q * pow2 ((bitLen q.den : Int) - 1) < pow2 (bitLen q.num.natAbs : Int) :=
      lt_of_le_of_lt (le_trans (mul_le_mul_of_nonneg_left hd1q (le_of_lt hq)) (le_of_eq hqd)) hn2q
    have h2 : pow2 (l + 1) = pow2 (bitLen q.num.natAbs : Int) * pow2 (-((bitLen q.den : Int) - 1)) := by
      rw [← pow2_add, show l + 1 = (bitLen q.num.natAbs : Int) + -((bitLen q.den : Int) - 1) by omega]
    rw [h2]
    have h3 := mul_lt_mul_of_pos_right h1 (pow2_pos (-((bitLen q.den : Int) - 1)))
    rwa [mul_assoc, pow2_mul_neg, mul_one] at h3
  have hlow : pow2 (l - 1) < q := by
    have h1 : pow2 ((bitLen q.num.natAbs : Int) - 1) < q * pow2 (bitLen q.den : Int) :=
      lt_of_le_of_lt (le_trans hn1q (le_of_eq hqd.symm)) (mul_lt_mul_of_pos_left hd2q hq)
    have h2 : pow2 (l - 1) = pow2 ((bitLen q.num.natAbs : Int) - 1) * pow2 (-(bitLen q.den : Int)) := by
      rw [← pow2_add, show l - 1 = (bitLen q.num.natAbs : Int) - 1 + -(bitLen q.den : Int) by omega]
    rw [h2]
    have h3 := mul_lt_mul_of_pos_right h1 (pow2_pos (-(bitLen q.den : Int)))
    rwa [mul_assoc, pow2_mul_neg, mul_one] at h3
  unfold ilog2
  simp only [← hl]
  by_cases hc : pow2 l ≤ q
  · rw [if_pos hc]; exact ⟨hc, hup⟩
  · rw [if_neg hc]
    refine ⟨le_of_lt hlow, ?_⟩
    rw [show l - 1 + 1 = l by omega]
    exact not_le.mp hc

theorem ilog2_unique {q : ℚ} (hq : 0 < q) {k : Int} (h1 : pow2 k ≤ q) (h2 : q < pow2 (k + 1)) :
    ilog2 q = k := by
  obtain ⟨h3, h4⟩ := ilog2_spec hq
  by_contra hne
  rcases lt_or_gt_of_ne hne with hlt | hgt
  · have : pow2 (ilog2 q + 1) ≤ pow2 k := pow2_le_pow2 (by omega)
    linarith
  · have : pow2 (k + 1) ≤ pow2 (ilog2 q) := pow2_le_pow2 (by omega)
    linarith

/-! ## Rounding to nearest even -/

theorem roundHalfEven_err (q : ℚ) : |(roundHalfEven q : ℚ) - q| ≤ 1 / 2 := by
  have hd : (0 : ℤ) < (q.den : ℤ) := by exact_mod_cast q.den_pos
  have hdq : (0 : ℚ) < (q.den : ℚ) := by exact_mod_cast q.den_pos
  have hdiv := Int.ediv_add_emod q.num (q.den : ℤ)
  have hr0 := Int.emod_nonneg q.num (ne_of_gt hd)
  have hr1 := Int.emod_lt_of_pos q.num hd
  have hqn : q * (q.den : ℚ) = (q.num : ℚ) := Rat.mul_den_eq_num q
  have hcast : (q.num : ℚ) = (q.den : ℚ) * ((q.num / (q.den : ℤ) : ℤ) : ℚ)
      + ((q.num % (q.den : ℤ) : ℤ) : ℚ) := by
    have := congrArg (fun z : ℤ => (z : ℚ)) hdiv
    simp only [Int.cast_add, Int.cast_mul, Int.cast_natCast] at this
    exact this.symm
  set f : ℤ := q.num / (q.den : ℤ) with hf
  set r : ℤ := q.num % (q.den : ℤ) with hr
  have hr0q : (0 : ℚ) ≤ (r : ℚ) := by exact_mod_cast hr0
  have hr1q : (r : ℚ) < (q.den : ℚ) := by exact_mod_cast hr1
  have hq : q = (f : ℚ) + (r : ℚ) / (q.den : ℚ) := by
    have : (f : ℚ) + (r : ℚ) / (q.den : ℚ) = (q.num : ℚ) / (q.den : ℚ) := by
      rw [hcast]; field_simp; ring
    rw [this, Rat.num_div_den]
  have key : ∀ z : ℚ, |z * (q.den : ℚ)| ≤ (q.den : ℚ) / 2 → |z| ≤ 1 / 2 := by
    intro z hz
    rw [abs_mul, abs_of_pos hdq] at hz
    by_contra hcon
    have : 1 / 2 < |z| := not_le.mp hcon
    nlinarith
  unfold roundHalfEven
  simp only [← hf, ← hr]
  by_cases h1 : 2 * r < (q.den : ℤ)
  · rw [if_pos h1]
    apply key
    have h1q : 2 * (r : ℚ) < (q.den : ℚ) := by exact_mod_cast h1
    have : ((f : ℚ) - q) * (q.den : ℚ) = -(r : ℚ) := by
      rw [sub_mul, hqn, hcast]; ring
    rw [this, abs_neg, abs_of_nonneg hr0q]
    linarith
  · rw [if_neg h1]
    have h1q : (q.den : ℚ) ≤ 2 * (r : ℚ) := by exact_mod_cast not_lt.mp h1
    have hup : (((f + 1 : ℤ) : ℚ) - q) * (q.den : ℚ) = (q.den : ℚ) - (r : ℚ) := by
      rw [sub_mul, hqn, hcast]; push_cast; ring
    have hlo : ((f : ℚ) - q) * (q.den : ℚ) = -(r : ℚ) := by
      rw [sub_mul, hqn, hcast]; ring
    by_cases h2 : (q.den : ℤ) < 2 * r
    · rw [if_pos h2]
      apply key
      rw [hup, abs_of_nonneg (by linarith)]
      linarith
    · rw [if_neg h2]
      have h2q : 2 * (r : ℚ) ≤ (q.den : ℚ) := by exact_mod_cast not_lt.mp h2
      split
      · apply key
        rw [hlo, abs_neg, abs_of_nonneg hr0q]
        linarith
      · apply key
        rw [hup, abs_of_nonneg (by linarith)]
        linarith

theorem roundHalfEven_intCast (z : ℤ) : roundHalfEven (z : ℚ) = z := by
  simp [roundHalfEven]

theorem roundHalfEven_nonneg {q : ℚ} (hq : 0 ≤ q) : 0 ≤ roundHalfEven q := by
  have hd : (0 : ℤ) < (q.den : ℤ) := by exact_mod_cast q.den_pos
  have hn : 0 ≤ q.num := Rat.num_nonneg.mpr hq
  have hf : 0 ≤ q.num / (q.den : ℤ) := Int.ediv_nonneg hn (le_of_lt hd)
  unfold roundHalfEven
  simp only
  split
  · exact hf
  · split
    · omega
    · split
      · exact hf
      · omega

theorem roundBits_err (p : ℕ) (emin : ℤ) (q : ℚ) :
    |roundBits p emin q - q| ≤ pow2 (max (ilog2 q - ((p : ℤ) - 1)) emin) / 2 := by
  unfold roundBits
  simp only
  set e := max (ilog2 q - ((p : ℤ) - 1)) emin with he
  have h := roundHalfEven_err (q * pow2 (-e))
  have hp := pow2_pos e
  have : (roundHalfEven (q * pow2 (-e)) : ℚ) * pow2 e - q
      = ((roundHalfEven (q * pow2 (-e)) : ℚ) - q * pow2 (-e)) * pow2 e := by
    rw [sub_mul, mul_assoc, mul_comm (pow2 (-e)), pow2_mul_neg, mul_one]
  rw [this, abs_mul, abs_of_pos hp]
  calc |(roundHalfEven (q * pow2 (-e)) : ℚ) - q * pow2 (-e)| * pow2 e
      ≤ 1 / 2 * pow2 e := mul_le_mul_of_nonneg_right h (le_of_lt hp)
    _ = pow2 e / 2 := by ring

theorem roundBits_nonneg (p : ℕ) (emin : ℤ) {q : ℚ} (hq : 0 ≤ q) : 0 ≤ roundBits p emin q := by
  unfold roundBits
  simp only
  apply mul_nonneg
  · exact_mod_cast roundHalfEven_nonneg (mul_nonneg hq (le_of_lt (pow2_pos _)))
  · exact le_of_lt (pow2_pos _)

theorem roundBits_exact (p : ℕ) (emin : ℤ) (q : ℚ) (z : ℤ)
    (hz : q * pow2 (-(max (ilog2 q - ((p : ℤ) - 1)) emin)) = (z : ℚ)) :
    roundBits p emin q = q := by
  unfold roundBits
  simp only
  rw [hz, roundHalfEven_intCast, ← hz, mul_assoc, mul_comm (pow2 (-_)), pow2_mul_neg, mul_one]

theorem le_ilog2 {q : ℚ} (hq : 0 < q) {k : ℤ} (h : pow2 k ≤ q) : k ≤ ilog2 q := by
  by_contra hlt
  have h2 : pow2 (ilog2 q + 1) ≤ pow2 k := pow2_le_pow2 (by omega)
  have := (ilog2_spec hq).2
  linarith

theorem ilog2_lt {q : ℚ} (hq : 0 < q) {k : ℤ} (h : q < pow2 k) : ilog2 q < k := by
  by_contra hge
  have h2 : pow2 k ≤ pow2 (ilog2 q) := pow2_le_pow2 (by omega)
  have := (ilog2_spec hq).1
  linarith

/-- Rounding a positive rational in the normal binary64 range: the result is a finite
non-zero float within relative error `2^-53`. -/
theorem roundQ_normal {q : ℚ} (hq : 0 < q) (h1 : pow2 (-1022) ≤ q) (h2 : q ≤ pow2 1023) :
    ∃ r : ℚ, roundQ q = .num r ∧ q * (1 - pow2 (-53)) ≤ r ∧ r ≤ q * (1 + pow2 (-53)) := by
  have hl : -1022 ≤ ilog2 q := le_ilog2 hq h1
  have herr := roundBits_err 53 (-1074) q
  have hmax : max (ilog2 q - (((53 : ℕ) : ℤ) - 1)) (-1074) = ilog2 q - 52 := by
    rw [max_eq_left (by push_cast; omega)]; push_cast; ring
  rw [hmax] at herr
  have hpow : pow2 (ilog2 q - 52) / 2 ≤ q * pow2 (-53) := by
    have : pow2 (ilog2 q - 52) = pow2 (ilog2 q) * (2 * pow2 (-53)) := by
      rw [← pow2_succ, ← pow2_add]; congr 1
    rw [this]
    have := (ilog2_spec hq).1
    have h53 := pow2_pos (-53)
    nlinarith
  have herr2 := le_trans herr hpow
  rw [abs_le] at herr2
  obtain ⟨hlo, hhi⟩ := herr2
  have h53 : pow2 (-53) < 1 / 2 := by
    rw [pow2_eq]; norm_num
  have h53p := pow2_pos (-53)
  set r := roundBits 53 (-1074) q with hr
  have hrpos : 0 < r := by nlinarith
  have hrlt : r < pow2 1024 := by
    have : pow2 1024 = 2 * pow2 1023 := by
      rw [← pow2_succ, show (1023 : ℤ) + 1 = 1024 by norm_num]
    rw [this]
    have := pow2_pos 1023
    nlinarith
  refine ⟨r, ?_, by linarith, by linarith⟩
  unfold roundQ
  simp only [ne_of_gt hq, if_false, abs_of_pos hq, ← hr, not_le.mpr hrlt, ne_of_gt hrpos,
    not_lt.mpr (le_of_lt hq)]

/-- A positive rational that is a binary64 value rounds to itself. -/
theorem roundQ_exact {q : ℚ} (hq : 0 < q) (z : ℤ)
    (hz : q * pow2 (-(max (ilog2 q - 52) (-1074))) = (z : ℚ)) (hlt : q < pow2 1024) :
    roundQ q = .num q := by
  have hr : roundBits 53 (-1074) q = q := by
    apply roundBits_exact 53 (-1074) q z
    rw [← hz]; norm_num
  unfold roundQ
  simp only [ne_of_gt hq, if_false, abs_of_pos hq, hr, not_le.mpr hlt,
    not_lt.mpr (le_of_lt hq)]

theorem roundQ_neg_sign {q : ℚ} (hq : q < 0) :
    roundQ q = .inf true ∨ roundQ q = .zero true ∨ ∃ r : ℚ, r < 0 ∧ roundQ q = .num r := by
  have hnn := roundBits_nonneg 53 (-1074) (abs_nonneg q)
  unfold roundQ
  simp only [ne_of_lt hq, if_false, hq, decide_True, if_true]
  by_cases h1 : pow2 1024 ≤ roundBits 53 (-1074) |q|
  · left; rw [if_pos h1]
  · by_cases h2 : roundBits 53 (-1074) |q| = 0
    · right; left; rw [if_neg h1, if_pos h2]
    · right; right
      refine ⟨-roundBits 53 (-1074) |q|, ?_, by rw [if_neg h1, if_neg h2]⟩
      have : 0 < roundBits 53 (-1074) |q| := lt_of_le_of_ne hnn (Ne.symm h2)
      linarith

theorem ilog2_dyadic {N : ℕ} (hN : 0 < N) (k : ℤ) :
    ilog2 ((N : ℚ) * pow2 k) = (bitLen N : ℤ) - 1 + k := by
  have hNq : (0 : ℚ) < (N : ℚ) := by exact_mod_cast hN
  have hpos : 0 < (N : ℚ) * pow2 k := mul_pos hNq (pow2_pos k)
  have hb := bitLen_pos hN
  apply ilog2_unique hpos
  · rw [pow2_add, show ((bitLen N : ℤ) - 1) = ((bitLen N - 1 : ℕ) : ℤ) by omega, pow2_natCast]
    apply mul_le_mul_of_nonneg_right _ (le_of_lt (pow2_pos k))
    exact_mod_cast two_pow_bitLen_le hN
  · rw [show (bitLen N : ℤ) - 1 + k + 1 = (bitLen N : ℤ) + k by ring, pow2_add, pow2_natCast]
    apply mul_lt_mul_of_pos_right _ (pow2_pos k)
    exact_mod_cast lt_two_pow_bitLen N

theorem natCast_mul_pow2_int (N : ℕ) {j : ℤ} (hj : 0 ≤ j) :
    ∃ z : ℤ, (N : ℚ) * pow2 j = (z : ℚ) := by
  obtain ⟨n, rfl⟩ := Int.eq_ofNat_of_zero_le hj
  refine ⟨((N * 2 ^ n : ℕ) : ℤ), ?_⟩
  rw [pow2_natCast]; push_cast; ring

/-- Rounding to `p` bits keeps a dyadic number whose numerator has at most `p` bits. -/
theorem roundPrec_dyadic (p : ℕ) (N : ℕ) (k : ℤ) (h : bitLen N ≤ p) :
    roundPrec p ((N : ℚ) * pow2 k) = (N : ℚ) * pow2 k := by
  unfold roundPrec
  by_cases hN : N = 0
  · subst hN; simp
  · have hNpos : 0 < N := Nat.pos_of_ne_zero hN
    have hNq : (0 : ℚ) < (N : ℚ) := by exact_mod_cast hNpos
    have hpos : 0 < (N : ℚ) * pow2 k := mul_pos hNq (pow2_pos k)
    rw [if_neg (ne_of_gt hpos)]
    obtain ⟨z, hz⟩ := natCast_mul_pow2_int N (show (0 : ℤ) ≤ (p : ℤ) - (bitLen N : ℤ) by omega)
    apply roundBits_exact p _ _ z
    rw [max_self, ilog2_dyadic hNpos, mul_assoc, ← pow2_add, ← hz,
      show k + -((bitLen N : ℤ) - 1 + k - ((p : ℤ) - 1)) = (p : ℤ) - (bitLen N : ℤ) by ring]

/-- Rounding to binary64 keeps a dyadic number with at most 53 significant bits whose
last place is at least `2^-1074` and that is below `2^1024`. -/
theorem roundQ_dyadic {N : ℕ} (hN : 0 < N) (k : ℤ) (h : bitLen N ≤ 53) (hk : -1074 ≤ k)
    (hk2 : (bitLen N : ℤ) + k ≤ 1024) :
    roundQ ((N : ℚ) * pow2 k) = .num ((N : ℚ) * pow2 k) := by
  have hNq : (0 : ℚ) < (N : ℚ) := by exact_mod_cast hN
  have hpos : 0 < (N : ℚ) * pow2 k := mul_pos hNq (pow2_pos k)
  have hil := ilog2_dyadic hN k
  obtain ⟨z, hz⟩ := natCast_mul_pow2_int N
    (show (0 : ℤ) ≤ k + -(max (ilog2 ((N : ℚ) * pow2 k) - 52) (-1074)) by
      rw [hil]
      rcases max_cases ((bitLen N : ℤ) - 1 + k - 52) (-1074) with ⟨h1, _⟩ | ⟨h1, _⟩ <;>
        rw [h1] <;> omega)
  apply roundQ_exact hpos z
  · rw [mul_assoc, ← pow2_add]; exact hz
  · calc (N : ℚ) * pow2 k < pow2 (bitLen N : ℤ) * pow2 k := by
          apply mul_lt_mul_of_pos_right _ (pow2_pos k)
          rw [pow2_natCast]; exact_mod_cast lt_two_pow_bitLen N
      _ = pow2 ((bitLen N : ℤ) + k) := (pow2_add _ _).symm
      _ ≤ pow2 1024 := pow2_le_pow2 hk2

theorem roundQ_neg {q : ℚ} (hq : q ≠ 0) : roundQ (-q) = fneg (roundQ q) := by
  unfold roundQ
  have hnq : -q ≠ 0 := neg_ne_zero.mpr hq
  simp only [hq, hnq, if_false, abs_neg]
  by_cases h0 : q < 0
  · have h1 : ¬ (-q < 0) := by linarith
    simp only [h0, h1, decide_True, decide_False, if_true, if_false]
    split
    · rfl
    · split <;> simp [fneg]
  · have h1 : -q < 0 := by
      have : 0 < q := lt_of_le_of_ne (not_lt.mp h0) (Ne.symm hq)
      linarith
    simp only [h0, h1, decide_True, decide_False, if_true, if_false]
    split
    · rfl
    · split <;> simp [fneg]

theorem pow2_zero : pow2 0 = 1 := by simp [pow2]

theorem roundQ_natCast {n : ℕ} (hn : 0 < n) (h : n < 2 ^ 53) : roundQ (n : ℚ) = .num (n : ℚ) := by
  have hb : bitLen n ≤ 53 := bitLen_le_of_lt h
  have := roundQ_dyadic hn 0 hb (by norm_num) (by omega)
  rwa [pow2_zero, mul_one] at this

theorem ofNat_eq {n : ℕ} (h : n < 2 ^ 53) : F64.ofNat n = intF (n : ℤ) := by
  unfold F64.ofNat intF
  by_cases hn : n = 0
  · subst hn; simp [roundQ]
  · rw [roundQ_natCast (Nat.pos_of_ne_zero hn) h, if_neg (by exact_mod_cast hn)]
    simp

theorem roundQ_intCast {z : ℤ} (h : z.natAbs < 2 ^ 53) : roundQ (z : ℚ) = intF z := by
  unfold intF
  by_cases hz : z = 0
  · subst hz; simp [roundQ]
  · rw [if_neg hz]
    rcases le_or_lt 0 z with hpos | hneg
    · obtain ⟨n, rfl⟩ := Int.eq_ofNat_of_zero_le hpos
      have hn : 0 < n := by omega
      have := roundQ_natCast hn (by simpa using h)
      simpa using this
    · obtain ⟨n, hn⟩ := Int.eq_ofNat_of_zero_le (show 0 ≤ -z by omega)
      have hz2 : z = -(n : ℤ) := by omega
      subst hz2
      have hn0 : 0 < n := by omega
      have h1 := roundQ_natCast hn0 (by simpa using h)
      have h2 : ((n : ℕ) : ℚ) ≠ 0 := by exact_mod_cast (ne_of_gt hn0)
      have := roundQ_neg h2
      rw [h1] at this
      simpa [fneg] using this

/-- The exponent `float64(token0Decimals) - float64(token1Decimals)` of the scale is
the exact integer difference of the two `uint8` values. -/
theorem fsub_ofNat {a b : ℕ} (ha : a < 256) (hb : b < 256) :
    fsub (F64.ofNat a) (F64.ofNat b) = intF ((a : ℤ) - (b : ℤ)) := by
  rw [ofNat_eq (lt_trans ha (by norm_num)), ofNat_eq (lt_trans hb (by norm_num))]
  unfold fsub
  by_cases hb0 : b = 0
  · subst hb0
    by_cases ha0 : a = 0
    · subst ha0; simp [intF, fneg, fadd]
    · have : (a : ℤ) ≠ 0 := by exact_mod_cast ha0
      simp [intF, fneg, fadd, this]
  · have hbz : (b : ℤ) ≠ 0 := by exact_mod_cast hb0
    by_cases ha0 : a = 0
    · subst ha0
      simp [intF, fneg, fadd, hbz]
    · have haz : (a : ℤ) ≠ 0 := by exact_mod_cast ha0
      have hab : roundQ (((a : ℤ) - (b : ℤ) : ℤ) : ℚ) = intF ((a : ℤ) - (b : ℤ)) :=
        roundQ_intCast (by omega)
      have e1 : intF (a : ℤ) = .num ((a : ℤ) : ℚ) := by simp [intF, haz]
      have e2 : intF (b : ℤ) = .num ((b : ℤ) : ℚ) := by simp [intF, hbz]
      rw [e1, e2, ← hab]
      simp only [fneg, fadd]
      congr 1
      push_cast
      ring

/-! ## Closed forms of the two conversions -/

theorem bitLen_one_le : bitLen 1 ≤ 53 := bitLen_le_of_lt (by norm_num)

theorem pow2n_eq : BigFloat.SetMantExp (.fin 53 false 1) 96 = .fin 53 false (pow2 96) := by
  unfold BigFloat.SetMantExp
  simp only
  have := roundPrec_dyadic 53 1 96 bitLen_one_le
  simp only [Nat.cast_one, one_mul] at this
  rw [one_mul, this]

theorem setInt_eq (x : ℤ) :
    BigFloat.SetInt x = .fin (max (bitLen x.natAbs) 64) (decide (x < 0)) (x.natAbs : ℚ) := by
  unfold BigFloat.SetInt
  simp only
  have := roundPrec_dyadic (max (bitLen x.natAbs) 64) x.natAbs 0 (le_max_left _ _)
  rw [pow2_zero, mul_one] at this
  rw [this]

theorem quo_float64_eq (x : ℤ) :
    (BigFloat.Quo (BigFloat.SetInt x) (.fin 53 false (pow2 96))).map BigFloat.Float64
      = .ok (sqrtRatio x) := by
  rw [setInt_eq]
  have h96 : pow2 96 ≠ 0 := ne_of_gt (pow2_pos 96)
  unfold BigFloat.Quo
  simp only [h96, and_false, if_false, BigFloat.prec]
  have hx : (x.natAbs : ℚ) / pow2 96 = (x.natAbs : ℚ) * pow2 (-96) := by
    rw [pow2_neg, div_eq_mul_inv]
  have hr := roundPrec_dyadic (max (max (bitLen x.natAbs) 64) 53) x.natAbs (-96)
    (le_trans (le_max_left _ _) (le_max_left _ _))
  rw [hx, hr]
  simp only [Except.map, BigFloat.Float64, Bool.xor_false, sqrtRatio]
  have h96' := pow2_pos (-96)
  by_cases h0 : x = 0
  · subst h0; simp
  · have hna : (x.natAbs : ℚ) ≠ 0 := by
      have : x.natAbs ≠ 0 := Int.natAbs_ne_zero.mpr h0
      exact_mod_cast this
    have hm : (x.natAbs : ℚ) * pow2 (-96) ≠ 0 := mul_ne_zero hna (ne_of_gt h96')
    rw [if_neg hm, if_neg h0]
    congr 2
    by_cases hneg : x < 0
    · simp only [hneg, decide_True, if_true]
      rw [Nat.cast_natAbs, abs_of_neg hneg]; push_cast; ring
    · simp only [hneg, decide_False]
      rw [Nat.cast_natAbs, abs_of_nonneg (not_lt.mp hneg)]
      simp

theorem sqrtPriceX96ToFloat_eq (Exp Log : F64 → F64) (x : ℤ) (d0 d1 : ℕ) :
    sqrtPriceX96ToFloat Exp Log x d0 d1 =
      .ok (fmul (fmul (sqrtRatio x) (sqrtRatio x))
        (Pow Exp Log (.num 10) (fsub (F64.ofNat d0) (F64.ofNat d1)))) := by
  have h1 : BigFloat.NewFloat (.num 1) = .ok (.fin 53 false 1) := by
    simp [BigFloat.NewFloat, BigFloat.SetFloat64]
  have h2 := quo_float64_eq x
  unfold sqrtPriceX96ToFloat
  rw [h1]
  simp only [bind, Except.bind, pow2n_eq]
  cases hq : BigFloat.Quo (BigFloat.SetInt x) (.fin 53 false (pow2 96)) with
  | error e => rw [hq] at h2; simp [Except.map] at h2
  | ok v =>
    rw [hq] at h2
    simp only [Except.map, Except.ok.injEq] at h2
    simp only [pure, Except.pure, h2]

theorem modf_abs_int (k : ℤ) :
    (Modf (Abs (.num (k : ℚ)))).2 = .zero false := by
  obtain ⟨z, hz⟩ : ∃ z : ℤ, |(k : ℚ)| = (z : ℚ) := ⟨|k|, by push_cast; rfl⟩
  simp only [Abs, Modf]
  rw [hz]
  simp

/-- For an integral exponent `math.Pow` never reaches `math.Exp` and `math.Log`. -/
theorem Pow_intF (Exp Log : F64 → F64) (x : F64) (k : ℤ) :
    Pow Exp Log x (intF k) = Pow noExpLog noExpLog x (intF k) := by
  by_cases hk : k = 0
  · subst hk
    have : feq (intF 0) (.zero false) = true := by simp [intF, feq, F64.toRat]
    unfold Pow
    simp only [this, Bool.true_or, if_true]
  · have hi : intF k = .num (k : ℚ) := by simp [intF, hk]
    have hm := modf_abs_int k
    have hz : feq (.zero false) (.zero false) = true := by simp [feq, F64.toRat]
    rw [hi]
    unfold Pow
    simp only [hm, hz, Bool.not_true, Bool.false_and, Bool.false_eq_true, if_false]

theorem scale_eq (Exp Log : F64 → F64) {d0 d1 : ℕ} (h0 : d0 < 256) (h1 : d1 < 256) :
    Pow Exp Log (.num 10) (fsub (F64.ofNat d0) (F64.ofNat d1))
      = pow10 ((d0 : ℤ) - (d1 : ℤ)) := by
  rw [fsub_ofNat h0 h1, Pow_intF]
  rfl

/-! ## The scale `math.Pow(10, k)` for the exponents a pair of `uint8` decimals gives -/

set_option maxRecDepth 100000 in
theorem pow10_table :
    (List.range 511).all (fun i => pow10OK ((i : ℤ) - 255)) = true := by
  decide!

theorem ten_eq (k : ℤ) : ten k = (10 : ℚ) ^ k := by
  unfold ten
  by_cases hk : 0 ≤ k
  · rw [if_pos hk]
    obtain ⟨n, rfl⟩ := Int.eq_ofNat_of_zero_le hk
    simp
  · rw [if_neg hk]
    obtain ⟨n, hn⟩ := Int.eq_ofNat_of_zero_le (show 0 ≤ -k by omega)
    have hk2 : k = -(n : ℤ) := by omega
    subst hk2
    simp

theorem ten_pos (k : ℤ) : 0 < ten k := by
  rw [ten_eq]; positivity

theorem ten_succ (k : ℤ) : ten (k + 1) = 10 * ten k := by
  rw [ten_eq, ten_eq, zpow_add_one₀ (by norm_num), mul_comm]

theorem ten_le_ten {a b : ℤ} (h : a ≤ b) : ten a ≤ ten b := by
  rw [ten_eq, ten_eq]
  exact zpow_le_zpow_right₀ (by norm_num) h

/-- Every scale the program can compute: for `-255 ≤ k ≤ 255`, `math.Pow(10, k)` is a
positive finite float within relative error `2^-50` of `10^k`. -/
theorem pow10_spec {k : ℤ} (h1 : -255 ≤ k) (h2 : k ≤ 255) :
    ∃ p : ℚ, pow10 k = .num p ∧ ten k * (1 - pow2 (-50)) ≤ p ∧ p ≤ ten k * (1 + pow2 (-50)) := by
  have h := List.all_eq_true.mp pow10_table (k + 255).toNat
    (List.mem_range.mpr (by omega))
  rw [show (((k + 255).toNat : ℕ) : ℤ) - 255 = k by omega] at h
  unfold pow10OK at h
  cases hp : pow10 k with
  | nan => rw [hp] at h; simp at h
  | inf s => rw [hp] at h; simp at h
  | zero s => rw [hp] at h; simp at h
  | num p =>
    rw [hp] at h
    simp only [decide_eq_true_eq] at h
    exact ⟨p, rfl, h.1, h.2⟩

theorem pow2_neg50_lt : pow2 (-50) < 1 / 2 := by
  rw [pow2_eq]; norm_num

theorem pow10_pos {k : ℤ} (h1 : -255 ≤ k) (h2 : k ≤ 255) :
    ∃ p : ℚ, pow10 k = .num p ∧ 0 < p := by
  obtain ⟨p, hp, hlo, _⟩ := pow10_spec h1 h2
  refine ⟨p, hp, lt_of_lt_of_le ?_ hlo⟩
  have := ten_pos k
  have := pow2_neg50_lt
  nlinarith

/-! ## Claims about `computePoolAddress` -/

/-- C1 (canonicalization symmetry): for two distinct addresses and any `uint32` fee,
`computePoolAddress a b fee` and `computePoolAddress b a fee` both return, with the
same pool address, and exactly one of the two `inverted` flags is true. -/
theorem C1_canonicalization_symmetry (keccak : List Byte → Hash) (a b : Address)
    (fee : Nat) (hfee : fee < 2 ^ 32) (hab : a ≠ b) :
    ∃ (inv1 inv2 : Bool) (pool : Address),
      computePoolAddress keccak a b fee = .ok (inv1, pool) ∧
      computePoolAddress keccak b a fee = .ok (inv2, pool) ∧
      ((inv1 = true ∧ inv2 = false) ∨ (inv1 = false ∧ inv2 = true)) := by
  have h1 := computePoolAddress_eq keccak a b fee (uint32_lt_word hfee)
  have h2 := computePoolAddress_eq keccak b a fee (uint32_lt_word hfee)
  have hab1 := bytesCompare_pos_iff a.bytes b.bytes (by rw [a.len, b.len])
  have hba1 := bytesCompare_pos_iff b.bytes a.bytes (by rw [a.len, b.len])
  have hne := beNat_address_ne hab
  by_cases hc : bytesCompare a.bytes b.bytes > 0
  · have hc2 : ¬ bytesCompare b.bytes a.bytes > 0 := by
      rw [hba1]; have := hab1.mp hc; omega
    rw [if_pos hc] at h1
    rw [if_neg hc2] at h2
    exact ⟨true, false, _, h1, h2, Or.inl ⟨rfl, rfl⟩⟩
  · have hc2 : bytesCompare b.bytes a.bytes > 0 := by
      rw [hba1]
      have : ¬ beNat b.bytes < beNat a.bytes := fun h => hc (hab1.mpr h)
      omega
    rw [if_neg hc] at h1
    rw [if_pos hc2] at h2
    exact ⟨false, true, _, h1, h2, Or.inr ⟨rfl, rfl⟩⟩

/-- C1 at the program's own tokens: WETH and USDC are distinct, fee 10000. -/
theorem C1_canonicalization_symmetry_witness :
    ∃ (inv1 inv2 : Bool) (pool : Address),
      computePoolAddress toyHash WETH USDC 10000 = .ok (inv1, pool) ∧
      computePoolAddress toyHash USDC WETH 10000 = .ok (inv2, pool) ∧
      ((inv1 = true ∧ inv2 = false) ∨ (inv1 = false ∧ inv2 = true)) :=
  C1_canonicalization_symmetry toyHash WETH USDC 10000 (by decide) (by decide)

/-- C2 (ordering decides `inverted`): `computePoolAddress tokenA tokenB fee` returns
`inverted = true` exactly when `tokenA` is strictly greater than `tokenB`, both in
lexicographic unsigned-byte order and as big-endian unsigned integers; the pair
`(t0, t1)` whose key is hashed is the input pair put in ascending order; and for the
configured tokens `WETH`, `USDC` the flag is `true`. -/
theorem C2_inverted_iff_greater (keccak : List Byte → Hash) (tokenA tokenB : Address)
    (fee : Nat) (hfee : fee < 2 ^ 32) :
    (∃ (inverted : Bool) (pool t0 t1 : Address),
      computePoolAddress keccak tokenA tokenB fee = .ok (inverted, pool) ∧
      (inverted = true ↔ List.Lex (· < ·) tokenB.bytes tokenA.bytes) ∧
      (inverted = true ↔ beNat tokenB.bytes < beNat tokenA.bytes) ∧
      (t0, t1) = (if inverted then (tokenB, tokenA) else (tokenA, tokenB)) ∧
      beNat t0.bytes ≤ beNat t1.bytes ∧
      ¬ List.Lex (· < ·) t1.bytes t0.bytes ∧
      pool = poolAddressOf keccak t0 t1 fee) ∧
    (∃ pool, computePoolAddress keccak WETH USDC fee = .ok (true, pool)) := by
  have hw := uint32_lt_word hfee
  constructor
  · have h1 := computePoolAddress_eq keccak tokenA tokenB fee hw
    have hnat := bytesCompare_pos_iff tokenA.bytes tokenB.bytes (by rw [tokenA.len, tokenB.len])
    have hlex := bytesCompare_pos_iff_lex tokenA.bytes tokenB.bytes
    by_cases hc : bytesCompare tokenA.bytes tokenB.bytes > 0
    · rw [if_pos hc] at h1
      have hlt := hnat.mp hc
      refine ⟨true, _, tokenB, tokenA, h1, ?_, ?_, rfl, le_of_lt hlt, ?_, rfl⟩
      · simpa using hlex.mp hc
      · simpa using hlt
      · rw [← bytesCompare_pos_iff_lex,
          bytesCompare_pos_iff _ _ (by rw [tokenA.len, tokenB.len])]
        omega
    · rw [if_neg hc] at h1
      have hge : ¬ beNat tokenB.bytes < beNat tokenA.bytes := fun h => hc (hnat.mpr h)
      refine ⟨false, _, tokenA, tokenB, h1, ?_, ?_, rfl, not_lt.mp hge, ?_, rfl⟩
      · simpa using fun h => hc (hlex.mpr h)
      · simpa using not_lt.mp hge
      · exact fun h => hc (hlex.mpr h)
  · have h1 := computePoolAddress_eq keccak WETH USDC fee hw
    have hc : bytesCompare WETH.bytes USDC.bytes > 0 := by decide
    rw [if_pos hc] at h1
    exact ⟨_, h1⟩

/-- C2 at the program's configuration: tokenIn = WETH, tokenOut = USDC, fee 10000. -/
theorem C2_inverted_iff_greater_witness :
    (∃ (inverted : Bool) (pool t0 t1 : Address),
      computePoolAddress toyHash WETH USDC 10000 = .ok (inverted, pool) ∧
      (inverted = true ↔ List.Lex (· < ·) USDC.bytes WETH.bytes) ∧
      (inverted = true ↔ beNat USDC.bytes < beNat WETH.bytes) ∧
      (t0, t1) = (if inverted then (USDC, WETH) else (WETH, USDC)) ∧
      beNat t0.bytes ≤ beNat t1.bytes ∧
      ¬ List.Lex (· < ·) t1.bytes t0.bytes ∧
      pool = poolAddressOf toyHash t0 t1 10000) ∧
    (∃ pool, computePoolAddress toyHash WETH USDC 10000 = .ok (true, pool)) :=
  C2_inverted_iff_greater toyHash WETH USDC 10000 (by decide)

/-- C3 (two-stage hash): the pool address returned by `computePoolAddress` is the last
20 bytes of `keccak (0xFF ++ factory ++ keccak (pad32 t0 ++ pad32 t1 ++ feeWord) ++
initCodeHash)` where `(t0, t1)` is the input pair in ascending byte order, `pad32` of
an address is 12 zero bytes followed by its 20 bytes, `feeWord` is the 32-byte
big-endian encoding of the fee, the inner preimage has 96 bytes and the outer 85. -/
theorem C3_pool_address_formula (keccak : List Byte → Hash) (tokenA tokenB : Address)
    (fee : Nat) (hfee : fee < 2 ^ 32) :
    ∃ (t0 t1 : Address) (feeWord inner outer : List Byte) (inverted : Bool),
      ((t0 = tokenA ∧ t1 = tokenB) ∨ (t0 = tokenB ∧ t1 = tokenA)) ∧
      beNat t0.bytes ≤ beNat t1.bytes ∧
      feeWord.length = 32 ∧ beNat feeWord = fee ∧
      pad32 t0 = List.replicate 12 0 ++ t0.bytes ∧ (pad32 t0).length = 32 ∧
      pad32 t1 = List.replicate 12 0 ++ t1.bytes ∧ (pad32 t1).length = 32 ∧
      inner = pad32 t0 ++ pad32 t1 ++ feeWord ∧ inner.length = 96 ∧
      outer = [0xff] ++ uniswapFactory.bytes ++ (keccak inner).bytes
                ++ uniswapPoolInitHash.bytes ∧
      uniswapFactory.bytes.length = 20 ∧ uniswapPoolInitHash.bytes.length = 32 ∧
      outer.length = 85 ∧
      computePoolAddress keccak tokenA tokenB fee = .ok (inverted, last20 (keccak outer)) ∧
      (last20 (keccak outer)).bytes = (keccak outer).bytes.drop 12 := by
  have hw := uint32_lt_word hfee
  have h1 := computePoolAddress_eq keccak tokenA tokenB fee hw
  have hnat := bytesCompare_pos_iff tokenA.bytes tokenB.bytes (by rw [tokenA.len, tokenB.len])
  have hfw : beNat (beWord 32 fee) = fee := by
    rw [beNat_beWord, Nat.mod_eq_of_lt]; norm_num; exact hw
  have hpad : ∀ t : Address, (pad32 t).length = 32 := fun t => by simp [pad32, t.len]
  have hin : ∀ t0 t1 : Address, (pad32 t0 ++ pad32 t1 ++ beWord 32 fee).length = 96 :=
    fun t0 t1 => by simp [hpad, beWord_length]
  have hout : ∀ h : Hash, ([0xff] ++ uniswapFactory.bytes ++ h.bytes
      ++ uniswapPoolInitHash.bytes).length = 85 := fun h => by
    simp [h.len, uniswapFactory.len, uniswapPoolInitHash.len]
  by_cases hc : bytesCompare tokenA.bytes tokenB.bytes > 0
  · rw [if_pos hc] at h1
    exact ⟨tokenB, tokenA, beWord 32 fee, _, _, true, Or.inr ⟨rfl, rfl⟩,
      le_of_lt (hnat.mp hc), beWord_length 32 fee, hfw, rfl, hpad _, rfl, hpad _, rfl,
      hin _ _, rfl, uniswapFactory.len, uniswapPoolInitHash.len, hout _, h1, rfl⟩
  · rw [if_neg hc] at h1
    have hge : ¬ beNat tokenB.bytes < beNat tokenA.bytes := fun h => hc (hnat.mpr h)
    exact ⟨tokenA, tokenB, beWord 32 fee, _, _, false, Or.inl ⟨rfl, rfl⟩,
      not_lt.mp hge, beWord_length 32 fee, hfw, rfl, hpad _, rfl, hpad _, rfl,
      hin _ _, rfl, uniswapFactory.len, uniswapPoolInitHash.len, hout _, h1, rfl⟩

/-- C3 at the fee tier 3000 with USDC given first. -/
theorem C3_pool_address_formula_witness :
    ∃ (t0 t1 : Address) (feeWord inner outer : List Byte) (inverted : Bool),
      ((t0 = USDC ∧ t1 = WETH) ∨ (t0 = WETH ∧ t1 = USDC)) ∧
      beNat t0.bytes ≤ beNat t1.bytes ∧
      feeWord.length = 32 ∧ beNat feeWord = 3000 ∧
      pad32 t0 = List.replicate 12 0 ++ t0.bytes ∧ (pad32 t0).length = 32 ∧
      pad32 t1 = List.replicate 12 0 ++ t1.bytes ∧ (pad32 t1).length = 32 ∧
      inner = pad32 t0 ++ pad32 t1 ++ feeWord ∧ inner.length = 96 ∧
      outer = [0xff] ++ uniswapFactory.bytes ++ (toyHash inner).bytes
                ++ uniswapPoolInitHash.bytes ∧
      uniswapFactory.bytes.length = 20 ∧ uniswapPoolInitHash.bytes.length = 32 ∧
      outer.length = 85 ∧
      computePoolAddress toyHash USDC WETH 3000 = .ok (inverted, last20 (toyHash outer)) ∧
      (last20 (toyHash outer)).bytes = (toyHash outer).bytes.drop 12 :=
  C3_pool_address_formula toyHash USDC WETH 3000 (by decide)

/-- C10 (no error path): for any two addresses, equal ones included, and any `uint32`
fee, none of the `Must*` conversions inside `computePoolAddress` panics: both token
inputs have at most 32 bytes and convert, the fee is a non-negative integer below
`2^256` whose bytes fit and convert, the slice `[12:]` of any 32-byte hash has exactly
20 bytes and converts, and the call returns a 20-byte address. -/
theorem C10_no_error_path (keccak : List Byte → Hash) (tokenA tokenB : Address)
    (fee : Nat) (hfee : fee < 2 ^ 32) :
    (tokenA.bytes.length ≤ 32 ∧ ∃ h, MustHashFromBytes tokenA.bytes .PadLeft = .ok h) ∧
    (tokenB.bytes.length ≤ 32 ∧ ∃ h, MustHashFromBytes tokenB.bytes .PadLeft = .ok h) ∧
    (0 ≤ Int.ofNat fee ∧ Int.ofNat fee < 2 ^ 256 ∧
      (bigBytes (Int.ofNat fee)).length ≤ 32 ∧
      ∃ h, MustHashFromBigInt (Int.ofNat fee) = .ok h) ∧
    (∀ bs : List Byte, ((keccak bs).bytes.drop 12).length = 20 ∧
      ∃ p, MustAddressFromBytes ((keccak bs).bytes.drop 12) = .ok p) ∧
    (∃ (inverted : Bool) (pool : Address),
      computePoolAddress keccak tokenA tokenB fee = .ok (inverted, pool) ∧
      pool.bytes.length = 20) := by
  have hw := uint32_lt_word hfee
  refine ⟨⟨by rw [tokenA.len]; decide, _, MustHashFromBytes_address tokenA⟩,
    ⟨by rw [tokenB.len]; decide, _, MustHashFromBytes_address tokenB⟩,
    ⟨Int.ofNat_nonneg fee, ?_, bigBytes_length fee 32 (by norm_num; exact hw),
      _, MustHashFromBigInt_fee fee hw⟩,
    fun bs => ⟨by rw [List.length_drop, (keccak bs).len], _, MustAddressFromBytes_hash _⟩,
    ?_⟩
  · have : (fee : Int) < 2 ^ 256 := by exact_mod_cast hw
    exact this
  · have h1 := computePoolAddress_eq keccak tokenA tokenB fee hw
    by_cases hc : bytesCompare tokenA.bytes tokenB.bytes > 0
    · rw [if_pos hc] at h1
      exact ⟨_, _, h1, (poolAddressOf keccak tokenB tokenA fee).len⟩
    · rw [if_neg hc] at h1
      exact ⟨_, _, h1, (poolAddressOf keccak tokenA tokenB fee).len⟩

/-- C10 at equal tokens and the largest `uint32` fee. -/
theorem C10_no_error_path_witness :
    (WETH.bytes.length ≤ 32 ∧ ∃ h, MustHashFromBytes WETH.bytes .PadLeft = .ok h) ∧
    (WETH.bytes.length ≤ 32 ∧ ∃ h, MustHashFromBytes WETH.bytes .PadLeft = .ok h) ∧
    (0 ≤ Int.ofNat 4294967295 ∧ Int.ofNat 4294967295 < 2 ^ 256 ∧
      (bigBytes (Int.ofNat 4294967295)).length ≤ 32 ∧
      ∃ h, MustHashFromBigInt (Int.ofNat 4294967295) = .ok h) ∧
    (∀ bs : List Byte, ((toyHash bs).bytes.drop 12).length = 20 ∧
      ∃ p, MustAddressFromBytes ((toyHash bs).bytes.drop 12) = .ok p) ∧
    (∃ (inverted : Bool) (pool : Address),
      computePoolAddress toyHash WETH WETH 4294967295 = .ok (inverted, pool) ∧
      pool.bytes.length = 20) :=
  C10_no_error_path toyHash WETH WETH 4294967295 (by decide)

/-! ## Claims about the price conversion -/

theorem newFloat_one : BigFloat.NewFloat (.num 1) = .ok (.fin 53 false 1) := by
  simp [BigFloat.NewFloat, BigFloat.SetFloat64]

theorem sqrtPriceX96ToFloat_zero (Exp Log : F64 → F64) (d0 d1 : ℕ)
    (h0 : d0 < 256) (h1 : d1 < 256) :
    sqrtPriceX96ToFloat Exp Log 0 d0 d1 = .ok (.zero false) := by
  obtain ⟨p, hp, hpos⟩ := pow10_pos (k := (d0 : ℤ) - (d1 : ℤ)) (by omega) (by omega)
  rw [sqrtPriceX96ToFloat_eq, scale_eq Exp Log h0 h1, hp]
  simp [sqrtRatio, fmul, not_lt.mpr (le_of_lt hpos)]

/-- C7 (zero handling, not inverted): for all `uint8` decimals,
`sqrtPriceX96ToFloat(0, decimals0, decimals1)` returns exactly `+0`. -/
theorem C7_zero_price (Exp Log : F64 → F64) (decimals0 decimals1 : ℕ)
    (h0 : decimals0 < 256) (h1 : decimals1 < 256) :
    sqrtPriceX96ToFloat Exp Log 0 decimals0 decimals1 = .ok (.zero false) :=
  sqrtPriceX96ToFloat_zero Exp Log decimals0 decimals1 h0 h1

/-- C7 at the decimals of an 18-decimal and a 6-decimal token. -/
theorem C7_zero_price_witness :
    sqrtPriceX96ToFloat noExpLog noExpLog 0 18 6 = .ok (.zero false) :=
  C7_zero_price noExpLog noExpLog 18 6 (by decide) (by decide)

/-- C8, refuted as stated: with `sqrtPriceX96 = 0` and `inverted = true` the price step
of `main` signals no error; it returns the float `+Inf`. -/
theorem C8_counterexample :
    currentPrice noExpLog noExpLog true 0 18 6 = .ok (.inf false) := by
  decide!

/-- C8 as amended: with `sqrtPriceX96 = 0` and `inverted = true` the price step of
`main` returns `+Inf` (the float quotient `1 / 0`) for all `uint8` decimals; no
error is signalled. -/
theorem C8_zero_inverted_is_inf (Exp Log : F64 → F64) (decimalsIn decimalsOut : ℕ)
    (h0 : decimalsIn < 256) (h1 : decimalsOut < 256) :
    currentPrice Exp Log true 0 decimalsIn decimalsOut = .ok (.inf false) := by
  unfold currentPrice
  rw [if_pos rfl, sqrtPriceX96ToFloat_zero Exp Log decimalsOut decimalsIn h1 h0]
  rfl

/-- C8 as amended, at the largest `uint8` decimals. -/
theorem C8_zero_inverted_is_inf_witness :
    currentPrice noExpLog noExpLog true 0 255 255 = .ok (.inf false) :=
  C8_zero_inverted_is_inf noExpLog noExpLog 255 255 (by decide) (by decide)

theorem roundPrec_zero (p : ℕ) : roundPrec p 0 = 0 := by simp [roundPrec]

theorem floatToSqrtPriceX96_eq (Exp Log : F64 → F64) (y : F64) (d0 d1 : ℕ) :
    floatToSqrtPriceX96 Exp Log y d0 d1 =
      (BigFloat.SetFloat64 (Sqrt (fdiv y
        (Pow Exp Log (.num 10) (fsub (F64.ofNat d0) (F64.ofNat d1)))))).bind
        (fun f => (BigFloat.Mul f (.fin 53 false (pow2 96))).bind
          (fun x => .ok x.Int)) := by
  unfold floatToSqrtPriceX96
  rw [newFloat_one]
  simp only [bind, Except.bind, pow2n_eq, pure, Except.pure]

/-- C9, refuted as stated: for the negative price `-1` the function panics (no error
value is returned), and for the smallest negative float with decimals `(1, 0)` it
returns the integer `0`. -/
theorem C9_counterexample :
    floatToSqrtPriceX96 noExpLog noExpLog (.num (-1)) 0 0
        = .error "big.ErrNaN: Float.SetFloat64(NaN)" ∧
    floatToSqrtPriceX96 noExpLog noExpLog (.num (-(1 / 2 ^ 1074))) 1 0 = .ok (some 0) := by
  decide!

/-- C9 as amended: for a negative price (a negative finite float or `-Inf`) and all
`uint8` decimals, `floatToSqrtPriceX96` panics with `big.ErrNaN`, raised by
`SetFloat64` on the NaN that `math.Sqrt` returns; only when the quotient
`price / Pow(10, decimals0 - decimals1)` underflows to `-0` does it return, with the
integer `0`. -/
theorem C9_negative_price_panics (Exp Log : F64 → F64) (y : F64) (decimals0 decimals1 : ℕ)
    (h0 : decimals0 < 256) (h1 : decimals1 < 256) (hy : flt y (.zero false) = true) :
    floatToSqrtPriceX96 Exp Log y decimals0 decimals1 =
      if fdiv y (Pow Exp Log (.num 10) (fsub (F64.ofNat decimals0) (F64.ofNat decimals1)))
          = .zero true
      then .ok (some 0)
      else .error "big.ErrNaN: Float.SetFloat64(NaN)" := by
  obtain ⟨p, hp, hpos⟩ := pow10_pos (k := (decimals0 : ℤ) - (decimals1 : ℤ))
    (by omega) (by omega)
  rw [floatToSqrtPriceX96_eq, scale_eq Exp Log h0 h1, hp]
  have hp0 : ¬ p < 0 := not_lt.mpr (le_of_lt hpos)
  cases y with
  | nan => simp [flt] at hy
  | zero s => simp [flt, F64.toRat] at hy
  | inf s =>
    have hs : s = true := by simpa [flt] using hy
    subst hs
    simp [fdiv, hp0, Sqrt, BigFloat.SetFloat64, Except.bind]
  | num q =>
    have hq : q < 0 := by simpa [flt, F64.toRat] using hy
    have hqp : q / p < 0 := div_neg_of_neg_of_pos hq hpos
    simp only [fdiv]
    rcases roundQ_neg_sign hqp with h | h | ⟨r, hr, h⟩
    · simp [h, Sqrt, BigFloat.SetFloat64, Except.bind]
    · simp [h, Sqrt, BigFloat.SetFloat64, Except.bind, BigFloat.Mul, BigFloat.Int,
        roundPrec_zero]
    · simp [h, Sqrt, hr, BigFloat.SetFloat64, Except.bind]

/-- C9 as amended, at the price `-1` with decimals `(0, 0)`. -/
theorem C9_negative_price_panics_witness :
    floatToSqrtPriceX96 noExpLog noExpLog (.num (-1)) 0 0 =
      if fdiv (.num (-1)) (Pow noExpLog noExpLog (.num 10) (fsub (F64.ofNat 0) (F64.ofNat 0)))
          = .zero true
      then .ok (some 0)
      else .error "big.ErrNaN: Float.SetFloat64(NaN)" :=
  C9_negative_price_panics noExpLog noExpLog (.num (-1)) 0 0 (by decide) (by decide)
    (by decide!)

/-! ## Relative error bookkeeping -/

theorem near_mono {c c' x a : ℚ} (hx : 0 ≤ x) (hc : c ≤ c') (h : Near c x a) : Near c' x a := by
  obtain ⟨h1, h2⟩ := h
  constructor
  · nlinarith
  · nlinarith

theorem near_refl {c x : ℚ} (hx : 0 ≤ x) (hc : 0 ≤ c) : Near c x x := by
  constructor <;> nlinarith

theorem near_nonneg {c x a : ℚ} (hx : 0 ≤ x) (hc : c ≤ 1) (h : Near c x a) : 0 ≤ a := by
  obtain ⟨h1, _⟩ := h
  nlinarith

theorem near_pos {c x a : ℚ} (hx : 0 < x) (hc : c < 1) (h : Near c x a) : 0 < a := by
  obtain ⟨h1, _⟩ := h
  nlinarith

theorem near_trans {c1 c2 x a b : ℚ} (hx : 0 ≤ x) (h1 : 0 ≤ c1) (h1' : c1 ≤ 1)
    (h2 : 0 ≤ c2) (h2' : c2 ≤ 1) (ha : Near c1 x a) (hb : Near c2 a b) :
    Near (c1 + c2 + c1 * c2) x b := by
  have ha0 := near_nonneg hx h1' ha
  obtain ⟨ha1, ha2⟩ := ha
  obtain ⟨hb1, hb2⟩ := hb
  constructor
  · have e1 : x * (1 - c1) * (1 - c2) ≤ a * (1 - c2) :=
      mul_le_mul_of_nonneg_right ha1 (by linarith)
    have e2 : x * (1 - (c1 + c2 + c1 * c2)) ≤ x * (1 - c1) * (1 - c2) := by
      have : 0 ≤ x * (c1 * c2) := mul_nonneg hx (mul_nonneg h1 h2)
      nlinarith
    linarith
  · have e1 : a * (1 + c2) ≤ x * (1 + c1) * (1 + c2) :=
      mul_le_mul_of_nonneg_right ha2 (by linarith)
    have e2 : x * (1 + c1) * (1 + c2) = x * (1 + (c1 + c2 + c1 * c2)) := by ring
    linarith

theorem near_mul {c1 c2 x y a b : ℚ} (hx : 0 ≤ x) (hy : 0 ≤ y) (h1 : 0 ≤ c1) (h1' : c1 ≤ 1)
    (h2 : 0 ≤ c2) (h2' : c2 ≤ 1) (ha : Near c1 x a) (hb : Near c2 y b) :
    Near (c1 + c2 + c1 * c2) (x * y) (a * b) := by
  have ha0 := near_nonneg hx h1' ha
  have hb0 := near_nonneg hy h2' hb
  obtain ⟨ha1, ha2⟩ := ha
  obtain ⟨hb1, hb2⟩ := hb
  constructor
  · have e1 : (x * (1 - c1)) * (y * (1 - c2)) ≤ a * b :=
      mul_le_mul ha1 hb1 (mul_nonneg hy (by linarith)) ha0
    have e2 : x * y * (1 - (c1 + c2 + c1 * c2)) ≤ (x * (1 - c1)) * (y * (1 - c2)) := by
      have : 0 ≤ x * y * (c1 * c2) := mul_nonneg (mul_nonneg hx hy) (mul_nonneg h1 h2)
      nlinarith
    linarith
  · have e1 : a * b ≤ (x * (1 + c1)) * (y * (1 + c2)) :=
      mul_le_mul ha2 hb2 hb0 (mul_nonneg hx (by linarith))
    have e2 : (x * (1 + c1)) * (y * (1 + c2)) = x * y * (1 + (c1 + c2 + c1 * c2)) := by ring
    linarith

theorem near_scale {c x a t : ℚ} (ht : 0 ≤ t) (h : Near c x a) : Near c (x * t) (a * t) := by
  obtain ⟨h1, h2⟩ := h
  constructor
  · have := mul_le_mul_of_nonneg_right h1 ht
    linarith [this, show x * (1 - c) * t = x * t * (1 - c) by ring]
  · have := mul_le_mul_of_nonneg_right h2 ht
    linarith [this, show x * (1 + c) * t = x * t * (1 + c) by ring]

theorem near_half {c x a : ℚ} (hx : 0 ≤ x) (hc : c ≤ 1 / 2) (h : Near c x a) :
    x / 2 ≤ a ∧ a ≤ 2 * x := by
  obtain ⟨h1, h2⟩ := h
  constructor <;> nlinarith

theorem pow2_neg53 : pow2 (-53) = 1 / 2 ^ 53 := by
  rw [pow2_eq]; norm_num

/-- The rounding lemma in relative-error form: a positive rational between `2^-1022`
and `2^1023` rounds to a finite non-zero float within `2^-53`. -/
theorem roundQ_near {q : ℚ} (h1 : pow2 (-1022) ≤ q) (h2 : q ≤ pow2 1023) :
    ∃ r : ℚ, roundQ q = .num r ∧ Near (1 / 2 ^ 53) q r := by
  have hq : 0 < q := lt_of_lt_of_le (pow2_pos _) h1
  obtain ⟨r, hr, hlo, hhi⟩ := roundQ_normal hq h1 h2
  rw [pow2_neg53] at hlo hhi
  exact ⟨r, hr, hlo, hhi⟩

theorem fmul_num (a b : ℚ) : fmul (.num a) (.num b) = roundQ (a * b) := rfl

theorem fdiv_num (a b : ℚ) : fdiv (.num a) (.num b) = roundQ (a / b) := rfl

/-! ## Accuracy of `sqrtPriceX96ToFloat` -/

theorem ten_255_le : ten 255 ≤ pow2 848 := by
  rw [ten_eq, pow2_eq]; norm_num

theorem pow2_160 : pow2 160 = (2 : ℚ) ^ 160 := by
  rw [pow2_eq]; norm_cast

theorem mul_pow2_bounds {L U : ℚ} {a b c d : ℤ} (hL0 : 0 ≤ L)
    (h1 : pow2 a ≤ L) (h2 : L ≤ pow2 b) (h3 : pow2 c ≤ U) (h4 : U ≤ pow2 d) :
    pow2 (a + c) ≤ L * U ∧ L * U ≤ pow2 (b + d) := by
  have hU0 : 0 ≤ U := le_trans (le_of_lt (pow2_pos c)) h3
  constructor
  · rw [pow2_add]
    exact mul_le_mul h1 h3 (le_of_lt (pow2_pos c)) hL0
  · rw [pow2_add]
    exact mul_le_mul h2 h4 hU0 (le_of_lt (pow2_pos b))

theorem half_pow2 (a : ℤ) : pow2 a / 2 = pow2 (a - 1) := by
  have := pow2_succ (a - 1)
  rw [show a - 1 + 1 = a by ring] at this
  rw [this]; ring

theorem two_mul_pow2 (a : ℤ) : 2 * pow2 a = pow2 (a + 1) := (pow2_succ a).symm

/-- The `sqrt` of `sqrtPriceX96ToFloat`, for a `uint160` argument different from zero. -/
theorem sqrtRatio_near {x : ℤ} (hx : 0 < x) (hx2 : x < 2 ^ 160) :
    ∃ r : ℚ, sqrtRatio x = .num r ∧ Near (1 / 2 ^ 53) ((x : ℚ) * pow2 (-96)) r ∧
      pow2 (-96) ≤ (x : ℚ) * pow2 (-96) ∧ (x : ℚ) * pow2 (-96) ≤ pow2 64 := by
  have hx1 : (1 : ℚ) ≤ (x : ℚ) := by exact_mod_cast hx
  have hx3 : (x : ℚ) ≤ pow2 160 := by
    rw [pow2_160]; exact_mod_cast le_of_lt hx2
  have h96 := pow2_pos (-96)
  have hlo : pow2 (-96) ≤ (x : ℚ) * pow2 (-96) := by nlinarith
  have hhi : (x : ℚ) * pow2 (-96) ≤ pow2 64 := by
    have : pow2 64 = pow2 160 * pow2 (-96) := by rw [← pow2_add]; norm_num
    rw [this]
    exact mul_le_mul_of_nonneg_right hx3 (le_of_lt h96)
  obtain ⟨r, hr, hn⟩ := roundQ_near (le_trans (pow2_le_pow2 (by norm_num)) hlo)
    (le_trans hhi (pow2_le_pow2 (by norm_num)))
  refine ⟨r, ?_, hn, hlo, hhi⟩
  unfold sqrtRatio
  rw [if_neg (by omega), hr]

/-- The squared ratio `sqrt * sqrt` of `sqrtPriceX96ToFloat`. -/
theorem ratio_sq_near {x : ℤ} (hx : 0 < x) (hx2 : x < 2 ^ 160) :
    ∃ a : ℚ, fmul (sqrtRatio x) (sqrtRatio x) = .num a ∧
      Near (1 / 2 ^ 51) (((x : ℚ) * pow2 (-96)) ^ 2) a ∧
      pow2 (-195) ≤ a ∧ a ≤ pow2 131 := by
  obtain ⟨r, hr, hn, hlo, hhi⟩ := sqrtRatio_near hx hx2
  set q := (x : ℚ) * pow2 (-96) with hq
  have hq0 : 0 ≤ q := le_trans (le_of_lt (pow2_pos _)) hlo
  have hr' := near_half hq0 (by norm_num) hn
  have hrlo : pow2 (-97) ≤ r := by
    have := half_pow2 (-96)
    norm_num at this
    linarith [hr'.1]
  have hrhi : r ≤ pow2 65 := by
    have := two_mul_pow2 64
    norm_num at this
    linarith [hr'.2]
  have hr0 : 0 ≤ r := le_trans (le_of_lt (pow2_pos _)) hrlo
  obtain ⟨hsl, hsh⟩ := mul_pow2_bounds hr0 hrlo hrhi hrlo hrhi
  norm_num at hsl hsh
  obtain ⟨a, ha, han⟩ := roundQ_near (le_trans (pow2_le_pow2 (by norm_num)) hsl)
    (le_trans hsh (pow2_le_pow2 (by norm_num)))
  have hsq := near_mul hq0 hq0 (by norm_num) (by norm_num) (by norm_num) (by norm_num) hn hn
  have hq2 : 0 ≤ q * q := mul_nonneg hq0 hq0
  have hall := near_trans hq2 (by norm_num) (by norm_num) (by norm_num) (by norm_num) hsq han
  have ha' := near_half (mul_nonneg hr0 hr0) (by norm_num) han
  refine ⟨a, ?_, ?_, ?_, ?_⟩
  · rw [hr, fmul_num, ha]
  · rw [pow_two]
    exact near_mono hq2 (by norm_num) hall
  · have := half_pow2 (-194)
    norm_num at this
    linarith [ha'.1]
  · have := two_mul_pow2 130
    norm_num at this
    linarith [ha'.2]

/-- The product of the squared ratio with a float scale `p` that approximates `P > 0`
within `2^-50`, when the exact product with `P` is at least `2^-1021`: a finite
non-zero float within `2^-49` of the exact product with `P` and within `2^-50` of the
exact product with `p`. -/
theorem price_near_scale {x : ℤ} (hx : 0 < x) (hx2 : x < 2 ^ 160) {p P : ℚ} (hP : 0 < P)
    (hpP : Near (1 / 2 ^ 50) P p) (hPhi : P ≤ pow2 848)
    (hlo : pow2 (-1021) ≤ ((x : ℚ) * pow2 (-96)) ^ 2 * P) :
    ∃ t : ℚ, fmul (fmul (sqrtRatio x) (sqrtRatio x)) (.num p) = .num t ∧
      Near (1 / 2 ^ 49) (((x : ℚ) * pow2 (-96)) ^ 2 * P) t ∧
      Near (1 / 2 ^ 50) (((x : ℚ) * pow2 (-96)) ^ 2 * p) t := by
  obtain ⟨a, ha, han, halo, hahi⟩ := ratio_sq_near hx hx2
  set X := ((x : ℚ) * pow2 (-96)) ^ 2 with hX
  have hX0 : 0 ≤ X := sq_nonneg _
  have hp : 0 < p := near_pos hP (by norm_num) hpP
  have hp2 := near_half (le_of_lt hP) (by norm_num) hpP
  have hphi : p ≤ pow2 849 := by
    have := two_mul_pow2 848
    norm_num at this
    linarith [hp2.2]
  have hXP : 0 ≤ X * P := mul_nonneg hX0 (le_of_lt hP)
  have hXp : 0 ≤ X * p := mul_nonneg hX0 (le_of_lt hp)
  have hapP := near_mul hX0 (le_of_lt hP) (by norm_num) (by norm_num) (by norm_num)
    (by norm_num) han hpP
  have hap := near_scale (le_of_lt hp) han
  have hapP' := near_half hXP (by norm_num) hapP
  have h1 : pow2 (-1022) ≤ a * p := by
    have := half_pow2 (-1021)
    norm_num at this
    linarith [hapP'.1]
  have h2 : a * p ≤ pow2 1023 := by
    have e1 : a * p ≤ pow2 131 * pow2 849 :=
      mul_le_mul hahi hphi (le_of_lt hp) (le_of_lt (pow2_pos 131))
    rw [← pow2_add] at e1
    exact le_trans e1 (pow2_le_pow2 (by norm_num))
  obtain ⟨t, ht, htn⟩ := roundQ_near h1 h2
  have hallP := near_trans hXP (by norm_num) (by norm_num) (by norm_num) (by norm_num)
    hapP htn
  have hall := near_trans hXp (by norm_num) (by norm_num) (by norm_num) (by norm_num) hap htn
  refine ⟨t, ?_, near_mono hXP (by norm_num) hallP, near_mono hXp (by norm_num) hall⟩
  rw [ha, fmul_num, ht]

theorem pow10_near {k : ℤ} (h1 : -255 ≤ k) (h2 : k ≤ 255) :
    ∃ p : ℚ, pow10 k = .num p ∧ Near (1 / 2 ^ 50) (ten k) p := by
  obtain ⟨p, hp, hlo, hhi⟩ := pow10_spec h1 h2
  have : pow2 (-50) = 1 / 2 ^ 50 := by rw [pow2_eq]; norm_num
  rw [this] at hlo hhi
  exact ⟨p, hp, hlo, hhi⟩

theorem ten_le_pow2_848 {k : ℤ} (h : k ≤ 255) : ten k ≤ pow2 848 :=
  le_trans (ten_le_ten h) ten_255_le

/-- Accuracy of `sqrtPriceX96ToFloat` on the exponent `k = decimals0 - decimals1`: for a
non-zero `uint160` argument whose exact price `(x / 2^96)^2 × 10^k` is at least
`2^-1021`, the result is a finite non-zero float within `2^-49` of the exact price. -/
theorem price_near_ten {x : ℤ} (hx : 0 < x) (hx2 : x < 2 ^ 160) {k : ℤ} (h1 : -255 ≤ k)
    (h2 : k ≤ 255) (hlo : pow2 (-1021) ≤ ((x : ℚ) * pow2 (-96)) ^ 2 * ten k) :
    ∃ t : ℚ, fmul (fmul (sqrtRatio x) (sqrtRatio x)) (pow10 k) = .num t ∧
      Near (1 / 2 ^ 49) (((x : ℚ) * pow2 (-96)) ^ 2 * ten k) t := by
  obtain ⟨p, hp, hnp⟩ := pow10_near h1 h2
  obtain ⟨t, ht, htn, _⟩ := price_near_scale hx hx2 (ten_pos k) hnp (ten_le_pow2_848 h2) hlo
  exact ⟨t, by rw [hp, ht], htn⟩

theorem exact_price_eq (x : ℤ) (k : ℤ) :
    ((x : ℚ) / 2 ^ 96) ^ 2 * (10 : ℚ) ^ k = ((x : ℚ) * pow2 (-96)) ^ 2 * ten k := by
  have h : pow2 (-96) = ((2 : ℚ) ^ 96)⁻¹ := by
    rw [pow2_eq, zpow_neg]; norm_cast
  rw [ten_eq, h, div_eq_mul_inv]

/-! ## Scaling by the decimals and the price of `main` -/

theorem ofNat_ten : F64.ofNat 10 = .num 10 := by
  rw [ofNat_eq (by norm_num)]
  simp [intF]

theorem near_abs_sub {c1 c2 Y a b : ℚ} (ha : Near c1 Y a) (hb : Near c2 Y b) :
    |a - b| ≤ (c1 + c2) * Y := by
  obtain ⟨ha1, ha2⟩ := ha
  obtain ⟨hb1, hb2⟩ := hb
  rw [abs_le]
  constructor <;> nlinarith

/-- C4, refuted as stated: for `sqrtPriceX96 = 2^96` and decimals `(0, 0)` the price is
`1`, while the price for decimals `(1, 0)` is `10`, which multiplied by 10 is `100`. -/
theorem C4_counterexample :
    sqrtPriceX96ToFloat noExpLog noExpLog (2 ^ 96) 0 0 = .ok (.num 1) ∧
    sqrtPriceX96ToFloat noExpLog noExpLog (2 ^ 96) (0 + 1) 0 = .ok (.num 10) ∧
    fmul (.num 10) (F64.ofNat 10) = .num 100 ∧
    (F64.num 1) ≠ (F64.num 100) := by
  decide!

/-- C4 as amended (the factor 10 is on the other side): for a `uint160` value
`sqrtPriceX96`, `decimals0 < 255` and a `uint8` `decimals1`, when `sqrtPriceX96` is zero
or the exact price `(sqrtPriceX96 / 2^96)^2 × 10^(decimals0 - decimals1)` is at least
`2^-1021`, both `sqrtPriceX96ToFloat(sqrtPriceX96, decimals0 + 1, decimals1)` and
`sqrtPriceX96ToFloat(sqrtPriceX96, decimals0, decimals1) * 10` are finite floats and
they differ by at most the relative rounding error `2^-47`. -/
theorem C4_scaling_by_ten (Exp Log : F64 → F64) (sqrtPriceX96 : ℤ) (decimals0 decimals1 : ℕ)
    (hs0 : 0 ≤ sqrtPriceX96) (hs : sqrtPriceX96 < 2 ^ 160)
    (h0 : decimals0 < 255) (h1 : decimals1 < 256)
    (hnorm : sqrtPriceX96 = 0 ∨ (2 : ℚ) ^ (-1021 : ℤ)
      ≤ ((sqrtPriceX96 : ℚ) / 2 ^ 96) ^ 2 * (10 : ℚ) ^ ((decimals0 : ℤ) - (decimals1 : ℤ))) :
    ∃ hi lo : F64,
      sqrtPriceX96ToFloat Exp Log sqrtPriceX96 (decimals0 + 1) decimals1 = .ok hi ∧
      sqrtPriceX96ToFloat Exp Log sqrtPriceX96 decimals0 decimals1 = .ok lo ∧
      hi.isFinite = true ∧ (fmul lo (F64.ofNat 10)).isFinite = true ∧
      |hi.toRat - (fmul lo (F64.ofNat 10)).toRat| ≤ 1 / 2 ^ 47 * hi.toRat := by
  by_cases hz : sqrtPriceX96 = 0
  · subst hz
    refine ⟨.zero false, .zero false, sqrtPriceX96ToFloat_zero Exp Log _ _ (by omega) h1,
      sqrtPriceX96ToFloat_zero Exp Log _ _ (by omega) h1, rfl, ?_, ?_⟩
    · rw [ofNat_ten]; rfl
    · rw [ofNat_ten]; simp [fmul, F64.toRat]
  · have hpos : 0 < sqrtPriceX96 := lt_of_le_of_ne hs0 (Ne.symm hz)
    have hn : pow2 (-1021) ≤ ((sqrtPriceX96 : ℚ) * pow2 (-96)) ^ 2
        * ten ((decimals0 : ℤ) - (decimals1 : ℤ)) := by
      rcases hnorm with h | h
      · exact absurd h hz
      · rw [← exact_price_eq, pow2_eq]; exact h
    set k : ℤ := (decimals0 : ℤ) - (decimals1 : ℤ) with hk
    set X := ((sqrtPriceX96 : ℚ) * pow2 (-96)) ^ 2 * ten k with hX
    have hX0 : 0 ≤ X := le_trans (le_of_lt (pow2_pos _)) hn
    have hX10 : ((sqrtPriceX96 : ℚ) * pow2 (-96)) ^ 2 * ten (k + 1) = 10 * X := by
      rw [ten_succ, hX]; ring
    obtain ⟨t0, ht0, hn0⟩ := price_near_ten hpos hs (k := k) (by omega) (by omega) hn
    obtain ⟨t1, ht1, hn1⟩ := price_near_ten hpos hs (k := k + 1) (by omega) (by omega)
      (by rw [hX10]; linarith)
    rw [hX10] at hn1
    -- the product with 10
    have hh0 := near_half hX0 (by norm_num) hn0
    have hXhi : X ≤ pow2 976 := by
      obtain ⟨_, _, _, hqlo, hqhi⟩ := sqrtRatio_near hpos hs
      have hq0 : 0 ≤ (sqrtPriceX96 : ℚ) * pow2 (-96) :=
        le_trans (le_of_lt (pow2_pos _)) hqlo
      have e1 : ((sqrtPriceX96 : ℚ) * pow2 (-96)) ^ 2 ≤ pow2 128 := by
        rw [pow_two, show (128 : ℤ) = 64 + 64 by norm_num, pow2_add]
        exact mul_le_mul hqhi hqhi hq0 (le_of_lt (pow2_pos 64))
      have e2 := ten_le_pow2_848 (show k ≤ 255 by omega)
      have e3 : X ≤ pow2 128 * pow2 848 :=
        mul_le_mul e1 e2 (le_of_lt (ten_pos k)) (le_of_lt (pow2_pos 128))
      rw [← pow2_add] at e3
      exact e3
    have h10lo : pow2 (-1022) ≤ t0 * 10 := by
      have := half_pow2 (-1021)
      norm_num at this
      linarith [hh0.1, pow2_pos (-1022)]
    have h10hi : t0 * 10 ≤ pow2 1023 := by
      have e1 : t0 * 10 ≤ pow2 5 * pow2 976 := by
        have : pow2 5 = 32 := by rw [pow2_eq]; norm_num
        rw [this]
        linarith [hh0.2]
      rw [← pow2_add] at e1
      exact le_trans e1 (pow2_le_pow2 (by norm_num))
    obtain ⟨t2, ht2, hn2⟩ := roundQ_near h10lo h10hi
    have hn0' : Near (1 / 2 ^ 49) (10 * X) (t0 * 10) := by
      have := near_scale (show (0 : ℚ) ≤ 10 by norm_num) hn0
      rwa [mul_comm X 10] at this
    have h10X : 0 ≤ 10 * X := by linarith
    have hn2' := near_trans h10X (by norm_num) (by norm_num) (by norm_num) (by norm_num)
      hn0' hn2
    have hdiff := near_abs_sub hn1 hn2'
    refine ⟨.num t1, .num t0, ?_, ?_, rfl, ?_, ?_⟩
    · have hk1 : ((decimals0 + 1 : ℕ) : ℤ) - (decimals1 : ℤ) = k + 1 := by
        push_cast; ring
      rw [sqrtPriceX96ToFloat_eq, scale_eq Exp Log (by omega) h1, hk1, ← ht1]
    · rw [sqrtPriceX96ToFloat_eq, scale_eq Exp Log (by omega) h1, ← ht0]
    · rw [ofNat_ten, fmul_num, ht2]; rfl
    · rw [ofNat_ten, fmul_num, ht2]
      simp only [F64.toRat]
      have ht1lo := hn1.1
      calc |t1 - t2| ≤ (1 / 2 ^ 49 + (1 / 2 ^ 49 + 1 / 2 ^ 53 + 1 / 2 ^ 49 * (1 / 2 ^ 53)))
            * (10 * X) := hdiff
        _ ≤ 1 / 2 ^ 47 * (10 * X * (1 - 1 / 2 ^ 49)) := by
            have : (0 : ℚ) ≤ 10 * X := h10X
            nlinarith
        _ ≤ 1 / 2 ^ 47 * t1 := by
            apply mul_le_mul_of_nonneg_left ht1lo (by norm_num)

/-- C4 as amended, at `sqrtPriceX96 = 2^96` with decimals `(0, 0)`. -/
theorem C4_scaling_by_ten_witness :
    ∃ hi lo : F64,
      sqrtPriceX96ToFloat noExpLog noExpLog (2 ^ 96) (0 + 1) 0 = .ok hi ∧
      sqrtPriceX96ToFloat noExpLog noExpLog (2 ^ 96) 0 0 = .ok lo ∧
      hi.isFinite = true ∧ (fmul lo (F64.ofNat 10)).isFinite = true ∧
      |hi.toRat - (fmul lo (F64.ofNat 10)).toRat| ≤ 1 / 2 ^ 47 * hi.toRat :=
  C4_scaling_by_ten noExpLog noExpLog (2 ^ 96) 0 0 (by norm_num) (by norm_num) (by norm_num)
    (by norm_num) (Or.inr (by norm_num))

theorem near_abs {c x a : ℚ} (h : Near c x a) : |a - x| ≤ c * x := by
  obtain ⟨h1, h2⟩ := h
  rw [abs_le]
  constructor <;> nlinarith

theorem sqrtPriceX96ToFloat_accuracy (Exp Log : F64 → F64) {x : ℤ} {d0 d1 : ℕ}
    (h0 : d0 < 256) (h1 : d1 < 256) (hx : 0 < x) (hx2 : x < 2 ^ 160)
    (hn : (2 : ℚ) ^ (-1021 : ℤ) ≤ ((x : ℚ) / 2 ^ 96) ^ 2 * (10 : ℚ) ^ ((d0 : ℤ) - (d1 : ℤ))) :
    ∃ r : ℚ, sqrtPriceX96ToFloat Exp Log x d0 d1 = .ok (.num r) ∧
      |r - ((x : ℚ) / 2 ^ 96) ^ 2 * (10 : ℚ) ^ ((d0 : ℤ) - (d1 : ℤ))|
        ≤ 1 / 2 ^ 49 * (((x : ℚ) / 2 ^ 96) ^ 2 * (10 : ℚ) ^ ((d0 : ℤ) - (d1 : ℤ))) := by
  rw [exact_price_eq] at hn ⊢
  rw [← pow2_eq] at hn
  obtain ⟨t, ht, htn⟩ := price_near_ten hx hx2 (k := (d0 : ℤ) - (d1 : ℤ)) (by omega)
    (by omega) hn
  exact ⟨t, by rw [sqrtPriceX96ToFloat_eq, scale_eq Exp Log h0 h1, ht], near_abs htn⟩

/-- C5 (price of `main`): with `(t0, t1)` the canonically lower and higher of
`(tokenIn, tokenOut)`, `main` evaluates `sqrtPriceX96ToFloat` on the decimals of `t0`
and `t1` (those of `tokenOut` and `tokenIn` exactly when `inverted` is true), returns
that value when `inverted` is false and its float reciprocal when `inverted` is true;
the value is the float evaluation of `(sqrtPriceX96 / 2^96)^2 × 10^(decimals0 -
decimals1)`, and for a non-zero `uint160` `sqrtPriceX96` whose exact price is at least
`2^-1021` it is within relative error `2^-49` of the exact price. -/
theorem C5_price_formula (keccak : List Byte → Hash) (Exp Log : F64 → F64)
    (tokenIn tokenOut : Address) (decimals : Address → ℕ) (slot0 : Address → ℤ)
    (hdec : ∀ a, decimals a < 256) :
    ∃ (inverted : Bool) (pool t0 t1 : Address) (ratio : F64),
      computePoolAddress keccak tokenIn tokenOut 10000 = .ok (inverted, pool) ∧
      (t0, t1) = (if inverted then (tokenOut, tokenIn) else (tokenIn, tokenOut)) ∧
      beNat t0.bytes ≤ beNat t1.bytes ∧
      sqrtPriceX96ToFloat Exp Log (slot0 pool) (decimals t0) (decimals t1) = .ok ratio ∧
      ratio = fmul (fmul (sqrtRatio (slot0 pool)) (sqrtRatio (slot0 pool)))
        (Pow Exp Log (.num 10) (fsub (F64.ofNat (decimals t0)) (F64.ofNat (decimals t1)))) ∧
      sqrtRatio (slot0 pool) = (if slot0 pool = 0 then .zero false
        else roundQ ((slot0 pool : ℚ) * pow2 (-96))) ∧
      mainPrice keccak Exp Log tokenIn tokenOut decimals slot0
        = .ok (if inverted then fdiv (.num 1) ratio else ratio) ∧
      (0 < slot0 pool → slot0 pool < 2 ^ 160 →
        (2 : ℚ) ^ (-1021 : ℤ) ≤ ((slot0 pool : ℚ) / 2 ^ 96) ^ 2
          * (10 : ℚ) ^ ((decimals t0 : ℤ) - (decimals t1 : ℤ)) →
        ∃ r : ℚ, ratio = .num r ∧
          |r - ((slot0 pool : ℚ) / 2 ^ 96) ^ 2
              * (10 : ℚ) ^ ((decimals t0 : ℤ) - (decimals t1 : ℤ))|
            ≤ 1 / 2 ^ 49 * (((slot0 pool : ℚ) / 2 ^ 96) ^ 2
              * (10 : ℚ) ^ ((decimals t0 : ℤ) - (decimals t1 : ℤ)))) := by
  have h1 := computePoolAddress_eq keccak tokenIn tokenOut 10000 (by norm_num)
  have hnat := bytesCompare_pos_iff tokenIn.bytes tokenOut.bytes
    (by rw [tokenIn.len, tokenOut.len])
  have hacc : ∀ (x : ℤ) (a b : Address), 0 < x → x < 2 ^ 160 →
      (2 : ℚ) ^ (-1021 : ℤ) ≤ ((x : ℚ) / 2 ^ 96) ^ 2
          * (10 : ℚ) ^ ((decimals a : ℤ) - (decimals b : ℤ)) →
      ∃ r : ℚ, fmul (fmul (sqrtRatio x) (sqrtRatio x))
        (Pow Exp Log (.num 10) (fsub (F64.ofNat (decimals a)) (F64.ofNat (decimals b))))
          = .num r ∧
        |r - ((x : ℚ) / 2 ^ 96) ^ 2 * (10 : ℚ) ^ ((decimals a : ℤ) - (decimals b : ℤ))|
          ≤ 1 / 2 ^ 49 * (((x : ℚ) / 2 ^ 96) ^ 2
            * (10 : ℚ) ^ ((decimals a : ℤ) - (decimals b : ℤ))) := by
    intro x a b hx hx2 hn
    obtain ⟨r, hr, hb⟩ := sqrtPriceX96ToFloat_accuracy Exp Log (hdec a) (hdec b) hx hx2 hn
    rw [sqrtPriceX96ToFloat_eq] at hr
    exact ⟨r, Except.ok.inj hr, hb⟩
  by_cases hc : bytesCompare tokenIn.bytes tokenOut.bytes > 0
  · rw [if_pos hc] at h1
    refine ⟨true, _, tokenOut, tokenIn, _, h1, rfl, le_of_lt (hnat.mp hc),
      sqrtPriceX96ToFloat_eq _ _ _ _ _, rfl, rfl, ?_, hacc _ _ _⟩
    simp only [mainPrice, h1, bind, Except.bind, currentPrice, if_true,
      sqrtPriceX96ToFloat_eq, pure, Except.pure]
  · rw [if_neg hc] at h1
    have hge : ¬ beNat tokenOut.bytes < beNat tokenIn.bytes := fun h => hc (hnat.mpr h)
    refine ⟨false, _, tokenIn, tokenOut, _, h1, rfl, not_lt.mp hge,
      sqrtPriceX96ToFloat_eq _ _ _ _ _, rfl, rfl, ?_, hacc _ _ _⟩
    simp only [mainPrice, h1, bind, Except.bind, currentPrice, Bool.false_eq_true, if_false,
      sqrtPriceX96ToFloat_eq]

/-- C5 at the configured tokens (tokenIn = WETH with 18 decimals, tokenOut = USDC with
6 decimals) and a pool reporting `sqrtPriceX96 = 2^96`. -/
theorem C5_price_formula_witness :
    ∃ (inverted : Bool) (pool t0 t1 : Address) (ratio : F64),
      computePoolAddress toyHash WETH USDC 10000 = .ok (inverted, pool) ∧
      (t0, t1) = (if inverted then (USDC, WETH) else (WETH, USDC)) ∧
      beNat t0.bytes ≤ beNat t1.bytes ∧
      sqrtPriceX96ToFloat noExpLog noExpLog ((fun _ => 2 ^ 96) pool)
        ((fun a => if a = WETH then 18 else 6) t0)
        ((fun a => if a = WETH then 18 else 6) t1) = .ok ratio ∧
      ratio = fmul (fmul (sqrtRatio ((fun _ => 2 ^ 96) pool))
          (sqrtRatio ((fun _ => 2 ^ 96) pool)))
        (Pow noExpLog noExpLog (.num 10)
          (fsub (F64.ofNat ((fun a => if a = WETH then 18 else 6) t0))
            (F64.ofNat ((fun a => if a = WETH then 18 else 6) t1)))) ∧
      sqrtRatio ((fun _ => 2 ^ 96) pool) = (if (fun _ => (2 : ℤ) ^ 96) pool = 0 then .zero false
        else roundQ ((((fun _ => 2 ^ 96) pool : ℤ) : ℚ) * pow2 (-96))) ∧
      mainPrice toyHash noExpLog noExpLog WETH USDC (fun a => if a = WETH then 18 else 6)
          (fun _ => 2 ^ 96)
        = .ok (if inverted then fdiv (.num 1) ratio else ratio) ∧
      (0 < (fun _ => (2 : ℤ) ^ 96) pool → (fun _ => (2 : ℤ) ^ 96) pool < 2 ^ 160 →
        (2 : ℚ) ^ (-1021 : ℤ) ≤ ((((fun _ => 2 ^ 96) pool : ℤ) : ℚ) / 2 ^ 96) ^ 2
          * (10 : ℚ) ^ ((((fun a => if a = WETH then 18 else 6) t0 : ℕ) : ℤ)
              - (((fun a => if a = WETH then 18 else 6) t1 : ℕ) : ℤ)) →
        ∃ r : ℚ, ratio = .num r ∧
          |r - ((((fun _ => 2 ^ 96) pool : ℤ) : ℚ) / 2 ^ 96) ^ 2
              * (10 : ℚ) ^ ((((fun a => if a = WETH then 18 else 6) t0 : ℕ) : ℤ)
                - (((fun a => if a = WETH then 18 else 6) t1 : ℕ) : ℤ))|
            ≤ 1 / 2 ^ 49 * (((((fun _ => 2 ^ 96) pool : ℤ) : ℚ) / 2 ^ 96) ^ 2
              * (10 : ℚ) ^ ((((fun a => if a = WETH then 18 else 6) t0 : ℕ) : ℤ)
                - (((fun a => if a = WETH then 18 else 6) t1 : ℕ) : ℤ)))) :=
  C5_price_formula toyHash noExpLog noExpLog WETH USDC (fun a => if a = WETH then 18 else 6)
    (fun _ => 2 ^ 96)
    (fun a => by show (if a = WETH then 18 else 6) < 256; split <;> decide)

/-! ## Square root -/

theorem isqrtAux_spec (n : ℕ) : ∀ (k r : ℕ), r ^ 2 ≤ n → n < (r + 2 ^ k) ^ 2 →
    (isqrtAux n k r) ^ 2 ≤ n ∧ n < (isqrtAux n k r + 1) ^ 2
  | 0, r, h1, h2 => by
    simpa [isqrtAux] using And.intro h1 h2
  | k + 1, r, h1, h2 => by
    unfold isqrtAux
    by_cases hc : (r + 2 ^ k) ^ 2 ≤ n
    · rw [if_pos hc]
      apply isqrtAux_spec n k (r + 2 ^ k) hc
      rw [pow_succ] at h2
      rw [show r + 2 ^ k + 2 ^ k = r + 2 ^ k * 2 by ring]
      exact h2
    · rw [if_neg hc]
      exact isqrtAux_spec n k r h1 (not_le.mp hc)

theorem isqrt_spec (n : ℕ) : (isqrt n) ^ 2 ≤ n ∧ n < (isqrt n + 1) ^ 2 := by
  unfold isqrt
  apply isqrtAux_spec n _ 0 (by simp)
  have h1 := lt_two_pow_bitLen n
  have h2 : 2 ^ bitLen n ≤ (0 + 2 ^ (bitLen n / 2 + 1)) ^ 2 := by
    rw [zero_add, ← pow_mul]
    apply Nat.pow_le_pow_right (by norm_num)
    omega
  omega

theorem rat_floor_le (q : ℚ) : ((q.num / (q.den : ℤ) : ℤ) : ℚ) ≤ q := by
  rw [← Rat.floor_def']
  exact Int.floor_le q

theorem rat_lt_floor_add_one (q : ℚ) : q < ((q.num / (q.den : ℤ) : ℤ) : ℚ) + 1 := by
  rw [← Rat.floor_def']
  exact Int.lt_floor_add_one q

theorem rat_floor_nonneg {q : ℚ} (hq : 0 ≤ q) : 0 ≤ q.num / (q.den : ℤ) := by
  rw [← Rat.floor_def']
  exact Int.floor_nonneg.mpr hq

theorem sq_near_of_isqrt {s w μ : ℚ} (hs : (2 : ℚ) ^ 64 ≤ s) (h1 : s ≤ w) (h2 : w ≤ s + 1)
    (h3 : s ^ 2 ≤ μ) (h4 : μ ≤ (s + 1) ^ 2) : Near (1 / 2 ^ 62) μ (w ^ 2) := by
  have hs0 : (0 : ℚ) < s := lt_of_lt_of_le (by norm_num) hs
  have hw2lo : s ^ 2 ≤ w ^ 2 := by nlinarith
  have hw2hi : w ^ 2 ≤ (s + 1) ^ 2 := by nlinarith
  have hss : (2 : ℚ) ^ 64 * s ≤ s ^ 2 := by nlinarith
  have hkey : 2 * s + 1 ≤ 1 / 2 ^ 62 * s ^ 2 := by
    have : (1 : ℚ) / 2 ^ 62 * ((2 : ℚ) ^ 64 * s) = 4 * s := by ring
    have h5 : 1 / 2 ^ 62 * ((2 : ℚ) ^ 64 * s) ≤ 1 / 2 ^ 62 * s ^ 2 :=
      mul_le_mul_of_nonneg_left hss (by norm_num)
    have : (1 : ℚ) ≤ s := le_trans (by norm_num) hs
    linarith
  constructor
  · -- μ (1 - c) ≤ (s+1)^2 (1 - c) ≤ s^2 ≤ w^2
    have e1 : μ * (1 - 1 / 2 ^ 62) ≤ (s + 1) ^ 2 * (1 - 1 / 2 ^ 62) :=
      mul_le_mul_of_nonneg_right h4 (by norm_num)
    have e2 : (s + 1) ^ 2 * (1 - 1 / 2 ^ 62) ≤ s ^ 2 := by
      have : (1 : ℚ) / 2 ^ 62 * s ^ 2 ≤ 1 / 2 ^ 62 * (s + 1) ^ 2 := by
        apply mul_le_mul_of_nonneg_left _ (by norm_num)
        nlinarith
      nlinarith
    linarith
  · have e1 : (s + 1) ^ 2 ≤ s ^ 2 * (1 + 1 / 2 ^ 62) := by nlinarith
    have e2 : s ^ 2 * (1 + 1 / 2 ^ 62) ≤ μ * (1 + 1 / 2 ^ 62) :=
      mul_le_mul_of_nonneg_right h3 (by norm_num)
    linarith

theorem pow2_two_mul (h : ℤ) : pow2 (2 * h) = pow2 h * pow2 h := by
  rw [← pow2_add]; congr 1; ring

theorem pow2_ofNat (n : ℕ) : pow2 (n : ℤ) = (2 : ℚ) ^ n := by
  rw [pow2_natCast]; push_cast; rfl

/-- The correctly rounded square root in relative-error form: for `q` between `2^-1000`
and `2^1000` the result is a positive finite float whose square is within `2^-51`
of `q`. -/
theorem sqrtPos_near {q : ℚ} (h1 : pow2 (-1000) ≤ q) (h2 : q ≤ pow2 1000) :
    ∃ ρ : ℚ, sqrtPos q = .num ρ ∧ 0 < ρ ∧ Near (1 / 2 ^ 51) q (ρ ^ 2) := by
  have hq : 0 < q := lt_of_lt_of_le (pow2_pos _) h1
  have he1 : -1000 ≤ ilog2 q := le_ilog2 hq h1
  have he2 : ilog2 q < 1001 :=
    ilog2_lt hq (lt_of_le_of_lt h2 (pow2_lt_pow2 (by norm_num)))
  obtain ⟨hsp1, hsp2⟩ := ilog2_spec hq
  unfold sqrtPos
  simp only []
  set e := ilog2 q with he
  set h : ℤ := (e - 128) / 2 with hh
  have hh1 : 2 * h ≤ e - 128 := by omega
  have hh2 : e - 128 ≤ 2 * h + 1 := by omega
  set μ := q * pow2 (-(2 * h)) with hμ
  have hp2h := pow2_pos (-(2 * h))
  have hμlo : pow2 128 ≤ μ := by
    calc pow2 128 ≤ pow2 (e + -(2 * h)) := pow2_le_pow2 (by omega)
      _ = pow2 e * pow2 (-(2 * h)) := pow2_add _ _
      _ ≤ μ := mul_le_mul_of_nonneg_right hsp1 (le_of_lt hp2h)
  have hμhi : μ < pow2 130 := by
    calc μ < pow2 (e + 1) * pow2 (-(2 * h)) := mul_lt_mul_of_pos_right hsp2 hp2h
      _ = pow2 (e + 1 + -(2 * h)) := (pow2_add _ _).symm
      _ ≤ pow2 130 := pow2_le_pow2 (by omega)
  have hμ0 : 0 ≤ μ := le_trans (le_of_lt (pow2_pos _)) hμlo
  have hfl0 := rat_floor_nonneg hμ0
  have hfl1 := rat_floor_le μ
  have hfl2 := rat_lt_floor_add_one μ
  set fl : ℤ := μ.num / (μ.den : ℤ) with hfl
  set n : ℕ := fl.toNat with hn
  have hnfl : ((n : ℕ) : ℤ) = fl := Int.toNat_of_nonneg hfl0
  have hnq : (n : ℚ) = (fl : ℚ) := by
    rw [← hnfl]; simp
  have h128 : pow2 128 = (2 : ℚ) ^ 128 := by
    have := pow2_ofNat 128; simpa using this
  have h130 : pow2 130 = (2 : ℚ) ^ 130 := by
    have := pow2_ofNat 130; simpa using this
  have hn128 : 2 ^ 128 ≤ n := by
    have hμlo' : (2 : ℚ) ^ 128 ≤ μ := h128 ▸ hμlo
    have : ((2 ^ 128 : ℕ) : ℚ) < (n : ℚ) + 1 := by
      rw [hnq]; push_cast
      norm_num at hμlo' ⊢
      linarith
    have : (2 ^ 128 : ℕ) < n + 1 := by exact_mod_cast this
    omega
  obtain ⟨hs1, hs2⟩ := isqrt_spec n
  set s := isqrt n with hs
  have hs64 : 2 ^ 64 ≤ s := by
    by_contra hlt
    have : s + 1 ≤ 2 ^ 64 := by omega
    have : (s + 1) ^ 2 ≤ (2 ^ 64) ^ 2 := Nat.pow_le_pow_left this 2
    norm_num at this
    omega
  have hS64 : (2 : ℚ) ^ 64 ≤ (s : ℚ) := by exact_mod_cast hs64
  have hS0 : (0 : ℚ) < (s : ℚ) := lt_of_lt_of_le (by norm_num) hS64
  have hSμ : (s : ℚ) ^ 2 ≤ μ := by
    have : ((s ^ 2 : ℕ) : ℚ) ≤ (n : ℚ) := by exact_mod_cast hs1
    push_cast at this
    rw [hnq] at this
    linarith
  have hμS : μ ≤ ((s : ℚ) + 1) ^ 2 := by
    have : n + 1 ≤ (s + 1) ^ 2 := hs2
    have : ((n + 1 : ℕ) : ℚ) ≤ (((s + 1) ^ 2 : ℕ) : ℚ) := by exact_mod_cast this
    push_cast at this
    rw [hnq] at this
    linarith
  have hS65 : (s : ℚ) ≤ (2 : ℚ) ^ 65 := by
    by_contra hgt
    have hgt' : (2 : ℚ) ^ 65 < (s : ℚ) := not_le.mp hgt
    have : ((2 : ℚ) ^ 65) ^ 2 < (s : ℚ) ^ 2 :=
      pow_lt_pow_left₀ hgt' (by norm_num) (by norm_num)
    have h3 : (s : ℚ) ^ 2 < (2 : ℚ) ^ 130 := by rw [← h130]; linarith
    norm_num at this h3
    linarith
  have hq2h : μ * pow2 (2 * h) = q := by
    rw [hμ, mul_assoc, mul_comm (pow2 (-(2 * h))), pow2_mul_neg, mul_one]
  have main : ∀ w : ℚ, (s : ℚ) ≤ w → w ≤ (s : ℚ) + 1 →
      ∃ ρ : ℚ, roundQ (w * pow2 h) = .num ρ ∧ 0 < ρ ∧ Near (1 / 2 ^ 51) q (ρ ^ 2) := by
    intro w hw1 hw2
    have hnear := sq_near_of_isqrt hS64 hw1 hw2 hSμ hμS
    have hnear2 := near_scale (le_of_lt (pow2_pos (2 * h))) hnear
    rw [hq2h] at hnear2
    have hw0 : 0 < w := lt_of_lt_of_le hS0 hw1
    have hph := pow2_pos h
    have hwlo : pow2 64 ≤ w := by
      have := pow2_ofNat 64
      norm_num at this
      rw [this]; linarith
    have hwhi : w ≤ pow2 66 := by
      have := pow2_ofNat 66
      norm_num at this
      rw [this]
      have : (s : ℚ) + 1 ≤ 2 * (2 : ℚ) ^ 65 := by
        have : (1 : ℚ) ≤ (2 : ℚ) ^ 65 := by norm_num
        linarith
      norm_num at this ⊢
      linarith
    have hb := mul_pow2_bounds (le_of_lt hw0) hwlo hwhi (le_refl (pow2 h)) (le_refl (pow2 h))
    obtain ⟨ρ, hρ, hρn⟩ := roundQ_near
      (le_trans (pow2_le_pow2 (by omega)) hb.1) (le_trans hb.2 (pow2_le_pow2 (by omega)))
    have hwh0 : 0 ≤ w * pow2 h := le_of_lt (mul_pos hw0 hph)
    have hρ0 : 0 < ρ := near_pos (mul_pos hw0 hph) (by norm_num) hρn
    have hsq := near_mul hwh0 hwh0 (by norm_num) (by norm_num) (by norm_num) (by norm_num)
      hρn hρn
    have hww : w * pow2 h * (w * pow2 h) = w ^ 2 * pow2 (2 * h) := by
      rw [pow2_two_mul]; ring
    rw [hww] at hsq
    have hall := near_trans (le_of_lt hq) (by norm_num) (by norm_num) (by norm_num)
      (by norm_num) hnear2 hsq
    refine ⟨ρ, hρ, hρ0, ?_⟩
    rw [pow_two]
    exact near_mono (le_of_lt hq) (by norm_num) hall
  split
  · exact main (s : ℚ) (le_refl _) (by linarith)
  · have : (((2 * s + 1 : ℕ) : ℚ)) / 2 * pow2 h = ((s : ℚ) + 1 / 2) * pow2 h := by
      push_cast; ring
    rw [this]
    exact main ((s : ℚ) + 1 / 2) (by linarith) (by linarith)

theorem Sqrt_num_near {q : ℚ} (h1 : pow2 (-1000) ≤ q) (h2 : q ≤ pow2 1000) :
    ∃ ρ : ℚ, Sqrt (.num q) = .num ρ ∧ 0 < ρ ∧ Near (1 / 2 ^ 51) q (ρ ^ 2) := by
  have hq : 0 < q := lt_of_lt_of_le (pow2_pos _) h1
  obtain ⟨ρ, h, hp, hn⟩ := sqrtPos_near h1 h2
  exact ⟨ρ, by simp [Sqrt, not_lt.mpr (le_of_lt hq), h], hp, hn⟩

/-- Rounding a positive rational to 53 bits with unbounded exponent. -/
theorem roundPrec_near {q : ℚ} (hq : 0 < q) : Near (1 / 2 ^ 53) q (roundPrec 53 q) := by
  unfold roundPrec
  rw [if_neg (ne_of_gt hq)]
  have herr := roundBits_err 53 (ilog2 q - (((53 : ℕ) : ℤ) - 1)) q
  rw [max_self] at herr
  have hpow : pow2 (ilog2 q - (((53 : ℕ) : ℤ) - 1)) / 2 ≤ q * (1 / 2 ^ 53) := by
    have : pow2 (ilog2 q - (((53 : ℕ) : ℤ) - 1)) = pow2 (ilog2 q) * (2 * pow2 (-53)) := by
      rw [← pow2_succ, ← pow2_add]
      rw [show ilog2 q - (((53 : ℕ) : ℤ) - 1) = ilog2 q + (-53 + 1) by push_cast; ring]
    rw [this, pow2_neg53]
    have := (ilog2_spec hq).1
    nlinarith
  have h := le_trans herr hpow
  rw [abs_le] at h
  constructor <;> linarith [h.1, h.2]

/-! ## Round trip of the price codec -/

theorem ten_255_scaled_le : ten 255 * (1 + 1 / 2 ^ 50) ≤ pow2 848 := by
  rw [ten_eq, pow2_eq]; norm_num

theorem pow2_le_ten_neg255 : pow2 (-848) ≤ ten (-255) := by
  rw [ten_eq, pow2_eq]; norm_num

theorem le_of_sq_le_sq {a b : ℚ} (hb : 0 < b) (h : a ^ 2 ≤ b ^ 2) : a ≤ b := by
  by_contra hlt
  have hlt' : b < a := not_le.mp hlt
  have : b ^ 2 < a ^ 2 := pow_lt_pow_left₀ hlt' (le_of_lt hb) (by norm_num)
  linarith

theorem floatToSqrtPriceX96_num (Exp Log : F64 → F64) {y p A ρ : ℚ} {d0 d1 : ℕ}
    (h0 : d0 < 256) (h1 : d1 < 256) (hp : pow10 ((d0 : ℤ) - (d1 : ℤ)) = .num p)
    (hA : roundQ (y / p) = .num A) (hρ : Sqrt (.num A) = .num ρ) (hρ0 : 0 < ρ) :
    floatToSqrtPriceX96 Exp Log (.num y) d0 d1 =
      .ok (some ((roundPrec 53 (ρ * pow2 96)).num / ((roundPrec 53 (ρ * pow2 96)).den : ℤ))) := by
  rw [floatToSqrtPriceX96_eq, scale_eq Exp Log h0 h1, hp, fdiv_num, hA, hρ]
  simp [BigFloat.SetFloat64, not_lt.mpr (le_of_lt hρ0), abs_of_pos hρ0, Except.bind,
    BigFloat.Mul, BigFloat.prec, BigFloat.Int]

set_option maxHeartbeats 4000000 in
/-- Round trip for every pair of `uint8` decimals: when the unscaled ratio
`price / 10^(decimals0 - decimals1)` lies between `2^-128` and `2^127`,
`floatToSqrtPriceX96` returns a positive integer below `2^160`, and
`sqrtPriceX96ToFloat` maps it back to the price within relative error `10^-9`. -/
theorem round_trip (Exp Log : F64 → F64) (y : ℚ) (d0 d1 : ℕ) (h0 : d0 < 256) (h1 : d1 < 256)
    (hlo : pow2 (-128) * ten ((d0 : ℤ) - (d1 : ℤ)) ≤ y)
    (hhi : y ≤ pow2 127 * ten ((d0 : ℤ) - (d1 : ℤ))) :
    ∃ (x : ℤ) (r : ℚ), floatToSqrtPriceX96 Exp Log (.num y) d0 d1 = .ok (some x) ∧
      0 < x ∧ x < 2 ^ 160 ∧
      sqrtPriceX96ToFloat Exp Log x d0 d1 = .ok (.num r) ∧
      |r - y| ≤ 1 / 10 ^ 9 * y := by
  set k : ℤ := (d0 : ℤ) - (d1 : ℤ) with hk
  have hk1 : -255 ≤ k := by omega
  have hk2 : k ≤ 255 := by omega
  set T := ten k with hT
  have hT0 : 0 < T := ten_pos k
  obtain ⟨p, hp, hpn⟩ := pow10_near hk1 hk2
  have hp0 : 0 < p := near_pos hT0 (by norm_num) hpn
  have hy0 : 0 < y := lt_of_lt_of_le (mul_pos (pow2_pos _) hT0) hlo
  obtain ⟨hpn1, hpn2⟩ := hpn
  have h128 := pow2_pos (-128)
  have h127 := pow2_pos 127
  -- the quotient
  set Q := y / p with hQ
  have hQp : Q * p = y := by rw [hQ]; field_simp
  have hQ0 : 0 < Q := div_pos hy0 hp0
  have hQlo : pow2 (-128) * (1 - 1 / 2 ^ 50) ≤ Q := by
    rw [hQ, le_div_iff₀ hp0]
    have e1 : pow2 (-128) * (1 - 1 / 2 ^ 50) * p
        ≤ pow2 (-128) * (1 - 1 / 2 ^ 50) * (T * (1 + 1 / 2 ^ 50)) :=
      mul_le_mul_of_nonneg_left hpn2 (mul_nonneg (le_of_lt h128) (by norm_num))
    have e2 : pow2 (-128) * (1 - 1 / 2 ^ 50) * (T * (1 + 1 / 2 ^ 50))
        = pow2 (-128) * T * (1 - (1 / 2 ^ 50) ^ 2) := by ring
    have e3 : pow2 (-128) * T * (1 - (1 / 2 ^ 50) ^ 2) ≤ pow2 (-128) * T := by
      have : 0 ≤ pow2 (-128) * T := le_of_lt (mul_pos h128 hT0)
      nlinarith
    linarith
  have hQhi : Q ≤ pow2 127 * (1 + 1 / 2 ^ 49) := by
    rw [hQ, div_le_iff₀ hp0]
    have e1 : pow2 127 * (1 + 1 / 2 ^ 49) * (T * (1 - 1 / 2 ^ 50))
        ≤ pow2 127 * (1 + 1 / 2 ^ 49) * p :=
      mul_le_mul_of_nonneg_left hpn1 (mul_nonneg (le_of_lt h127) (by norm_num))
    have e2 : pow2 127 * T ≤ pow2 127 * (1 + 1 / 2 ^ 49) * (T * (1 - 1 / 2 ^ 50)) := by
      have : 0 ≤ pow2 127 * T := le_of_lt (mul_pos h127 hT0)
      have e : pow2 127 * (1 + 1 / 2 ^ 49) * (T * (1 - 1 / 2 ^ 50))
          = pow2 127 * T * ((1 + 1 / 2 ^ 49) * (1 - 1 / 2 ^ 50)) := by ring
      rw [e]
      have : (1 : ℚ) ≤ (1 + 1 / 2 ^ 49) * (1 - 1 / 2 ^ 50) := by norm_num
      nlinarith
    linarith
  have hQlo' : pow2 (-129) ≤ Q := by
    have := half_pow2 (-128)
    norm_num at this
    have e : pow2 (-128) / 2 ≤ pow2 (-128) * (1 - 1 / 2 ^ 50) := by
      have : (1 : ℚ) / 2 ≤ 1 - 1 / 2 ^ 50 := by norm_num
      nlinarith
    linarith
  have hQhi' : Q ≤ pow2 128 := by
    have := two_mul_pow2 127
    norm_num at this
    have e : pow2 127 * (1 + 1 / 2 ^ 49) ≤ 2 * pow2 127 := by
      have : (1 : ℚ) + 1 / 2 ^ 49 ≤ 2 := by norm_num
      nlinarith
    linarith
  obtain ⟨A, hA, hAn⟩ := roundQ_near (le_trans (pow2_le_pow2 (by norm_num)) hQlo')
    (le_trans hQhi' (pow2_le_pow2 (by norm_num)))
  have hAh := near_half (le_of_lt hQ0) (by norm_num) hAn
  have hA0 : 0 < A := near_pos hQ0 (by norm_num) hAn
  have hAlo : pow2 (-1000) ≤ A := by
    have := half_pow2 (-129)
    norm_num at this
    have := pow2_le_pow2 (show (-1000 : ℤ) ≤ -130 by norm_num)
    linarith [hAh.1]
  have hAhi : A ≤ pow2 1000 := by
    have := two_mul_pow2 128
    norm_num at this
    have := pow2_le_pow2 (show (129 : ℤ) ≤ 1000 by norm_num)
    linarith [hAh.2]
  obtain ⟨ρ, hρ, hρ0, hρn⟩ := Sqrt_num_near hAlo hAhi
  -- ρ^2 against Q
  have hρQ := near_trans (le_of_lt hQ0) (by norm_num) (by norm_num) (by norm_num)
    (by norm_num) hAn hρn
  have hρ2lo : pow2 (-128) * (1 - 1 / 2 ^ 48) ≤ ρ ^ 2 := by
    have e1 := hρQ.1
    have e2 : pow2 (-128) * (1 - 1 / 2 ^ 50) * (1 - (1 / 2 ^ 53 + 1 / 2 ^ 51
        + 1 / 2 ^ 53 * (1 / 2 ^ 51))) ≤ Q * (1 - (1 / 2 ^ 53 + 1 / 2 ^ 51
        + 1 / 2 ^ 53 * (1 / 2 ^ 51))) :=
      mul_le_mul_of_nonneg_right hQlo (by norm_num)
    have e3 : pow2 (-128) * (1 - 1 / 2 ^ 48) ≤ pow2 (-128) * (1 - 1 / 2 ^ 50)
        * (1 - (1 / 2 ^ 53 + 1 / 2 ^ 51 + 1 / 2 ^ 53 * (1 / 2 ^ 51))) := by
      rw [mul_assoc]
      apply mul_le_mul_of_nonneg_left _ (le_of_lt h128)
      norm_num
    linarith
  have hρ2hi : ρ ^ 2 ≤ pow2 127 * (1 + 1 / 2 ^ 47) := by
    have e1 := hρQ.2
    have e2 : Q * (1 + (1 / 2 ^ 53 + 1 / 2 ^ 51 + 1 / 2 ^ 53 * (1 / 2 ^ 51)))
        ≤ pow2 127 * (1 + 1 / 2 ^ 49) * (1 + (1 / 2 ^ 53 + 1 / 2 ^ 51
        + 1 / 2 ^ 53 * (1 / 2 ^ 51))) :=
      mul_le_mul_of_nonneg_right hQhi (by norm_num)
    have e3 : pow2 127 * (1 + 1 / 2 ^ 49) * (1 + (1 / 2 ^ 53 + 1 / 2 ^ 51
        + 1 / 2 ^ 53 * (1 / 2 ^ 51))) ≤ pow2 127 * (1 + 1 / 2 ^ 47) := by
      rw [mul_assoc]
      apply mul_le_mul_of_nonneg_left _ (le_of_lt h127)
      norm_num
    linarith
  -- z = ρ 2^96
  set z := ρ * pow2 96 with hz
  have h96 := pow2_pos 96
  have hz0 : 0 < z := mul_pos hρ0 h96
  have hp96 : pow2 96 = (2 : ℚ) ^ 96 := by
    have := pow2_ofNat 96; simpa using this
  have hpm128 : pow2 (-128) = 1 / (2 : ℚ) ^ 128 := by rw [pow2_eq]; norm_num
  have hp127 : pow2 127 = (2 : ℚ) ^ 127 := by
    have := pow2_ofNat 127; simpa using this
  have hz2 : z ^ 2 = ρ ^ 2 * (2 : ℚ) ^ 192 := by rw [hz, hp96]; ring
  have hzlo : (2 : ℚ) ^ 32 * (1 - 1 / 2 ^ 48) ≤ z := by
    apply le_of_sq_le_sq hz0
    rw [hz2]
    have e1 : pow2 (-128) * (1 - 1 / 2 ^ 48) * (2 : ℚ) ^ 192 ≤ ρ ^ 2 * (2 : ℚ) ^ 192 :=
      mul_le_mul_of_nonneg_right hρ2lo (by norm_num)
    rw [hpm128] at e1
    have e2 : ((2 : ℚ) ^ 32 * (1 - 1 / 2 ^ 48)) ^ 2
        ≤ 1 / (2 : ℚ) ^ 128 * (1 - 1 / 2 ^ 48) * (2 : ℚ) ^ 192 := by norm_num
    linarith
  have hzhi : z ≤ 3 / 4 * (2 : ℚ) ^ 160 := by
    apply le_of_sq_le_sq (by norm_num)
    rw [hz2]
    have e1 : ρ ^ 2 * (2 : ℚ) ^ 192 ≤ pow2 127 * (1 + 1 / 2 ^ 47) * (2 : ℚ) ^ 192 :=
      mul_le_mul_of_nonneg_right hρ2hi (by norm_num)
    rw [hp127] at e1
    have e2 : (2 : ℚ) ^ 127 * (1 + 1 / 2 ^ 47) * (2 : ℚ) ^ 192
        ≤ (3 / 4 * (2 : ℚ) ^ 160) ^ 2 := by norm_num
    linarith
  -- B and x
  have hBn := roundPrec_near hz0
  set B := roundPrec 53 z with hB
  have hfl1 := rat_floor_le B
  have hfl2 := rat_lt_floor_add_one B
  set x : ℤ := B.num / (B.den : ℤ) with hx
  obtain ⟨hB1, hB2⟩ := hBn
  have hxlo : z * (1 - 1 / 2 ^ 53) - 1 < (x : ℚ) := by linarith
  have hxhi : (x : ℚ) ≤ z * (1 + 1 / 2 ^ 53) := by linarith
  have hxpos : 0 < x := by
    have : (0 : ℚ) < (x : ℚ) := by
      have e : (2 : ℚ) ^ 32 * (1 - 1 / 2 ^ 48) * (1 - 1 / 2 ^ 53) ≤ z * (1 - 1 / 2 ^ 53) :=
        mul_le_mul_of_nonneg_right hzlo (by norm_num)
      have : (1 : ℚ) < (2 : ℚ) ^ 32 * (1 - 1 / 2 ^ 48) * (1 - 1 / 2 ^ 53) := by norm_num
      linarith
    exact_mod_cast this
  have hx160 : x < 2 ^ 160 := by
    have : (x : ℚ) < (2 : ℚ) ^ 160 := by
      have e : z * (1 + 1 / 2 ^ 53) ≤ 3 / 4 * (2 : ℚ) ^ 160 * (1 + 1 / 2 ^ 53) :=
        mul_le_mul_of_nonneg_right hzhi (by norm_num)
      have : 3 / 4 * (2 : ℚ) ^ 160 * (1 + 1 / 2 ^ 53) < (2 : ℚ) ^ 160 := by norm_num
      linarith
    exact_mod_cast this
  -- ξ = x / 2^96 against ρ
  have hm96 := pow2_pos (-96)
  have hzρ : z * pow2 (-96) = ρ := by
    rw [hz, mul_assoc, pow2_mul_neg, mul_one]
  have hone : pow2 (-96) ≤ ρ * (1 / 2 ^ 32 + 1 / 2 ^ 79) := by
    have e1 : (1 : ℚ) ≤ z * (1 / 2 ^ 32 + 1 / 2 ^ 79) := by
      have e : (2 : ℚ) ^ 32 * (1 - 1 / 2 ^ 48) * (1 / 2 ^ 32 + 1 / 2 ^ 79)
          ≤ z * (1 / 2 ^ 32 + 1 / 2 ^ 79) :=
        mul_le_mul_of_nonneg_right hzlo (by norm_num)
      have : (1 : ℚ) ≤ (2 : ℚ) ^ 32 * (1 - 1 / 2 ^ 48) * (1 / 2 ^ 32 + 1 / 2 ^ 79) := by
        norm_num
      linarith
    have e2 := mul_le_mul_of_nonneg_left e1 (le_of_lt hm96)
    have e3 : pow2 (-96) * (z * (1 / 2 ^ 32 + 1 / 2 ^ 79))
        = ρ * (1 / 2 ^ 32 + 1 / 2 ^ 79) := by
      rw [← hzρ]; ring
    linarith
  have hξn : Near (1 / 2 ^ 53 + 1 / 2 ^ 32 + 1 / 2 ^ 79) ρ ((x : ℚ) * pow2 (-96)) := by
    constructor
    · have e1 : (z * (1 - 1 / 2 ^ 53) - 1) * pow2 (-96) ≤ (x : ℚ) * pow2 (-96) :=
        mul_le_mul_of_nonneg_right (le_of_lt hxlo) (le_of_lt hm96)
      have e2 : (z * (1 - 1 / 2 ^ 53) - 1) * pow2 (-96)
          = ρ * (1 - 1 / 2 ^ 53) - pow2 (-96) := by
        rw [← hzρ]; ring
      linarith
    · have e1 : (x : ℚ) * pow2 (-96) ≤ z * (1 + 1 / 2 ^ 53) * pow2 (-96) :=
        mul_le_mul_of_nonneg_right hxhi (le_of_lt hm96)
      have e2 : z * (1 + 1 / 2 ^ 53) * pow2 (-96) = ρ * (1 + 1 / 2 ^ 53) := by
        rw [← hzρ]; ring
      have : 0 ≤ ρ * (1 / 2 ^ 32 + 1 / 2 ^ 79) := mul_nonneg (le_of_lt hρ0) (by norm_num)
      linarith
  -- chain of relative errors from y to ξ^2 p
  set ξ := (x : ℚ) * pow2 (-96) with hξ
  have hξ2 : Near (1 / 2 ^ 31 + 1 / 2 ^ 51) (ρ ^ 2) (ξ ^ 2) := by
    have h := near_mul (le_of_lt hρ0) (le_of_lt hρ0) (by norm_num) (by norm_num)
      (by norm_num) (by norm_num) hξn hξn
    rw [pow_two, pow_two]
    exact near_mono (mul_nonneg (le_of_lt hρ0) (le_of_lt hρ0)) (by norm_num) h
  have hAξ := near_trans (le_of_lt hA0) (by norm_num) (by norm_num) (by norm_num)
    (by norm_num) hρn hξ2
  have hQξ := near_trans (le_of_lt hQ0) (by norm_num) (by norm_num) (by norm_num)
    (by norm_num) hAn hAξ
  have hyξ := near_scale (le_of_lt hp0) hQξ
  rw [hQp] at hyξ
  have hyξh := near_half (le_of_lt hy0) (by norm_num) hyξ
  -- back through sqrtPriceX96ToFloat
  have hphi : p ≤ pow2 848 := by
    have e1 : T * (1 + 1 / 2 ^ 50) ≤ ten 255 * (1 + 1 / 2 ^ 50) :=
      mul_le_mul_of_nonneg_right (ten_le_ten hk2) (by norm_num)
    linarith [ten_255_scaled_le]
  have hnorm : pow2 (-1021) ≤ ξ ^ 2 * p := by
    have e1 : pow2 (-128) * ten (-255) ≤ pow2 (-128) * T :=
      mul_le_mul_of_nonneg_left (ten_le_ten hk1) (le_of_lt h128)
    have e2 : pow2 (-128) * pow2 (-848) ≤ pow2 (-128) * ten (-255) :=
      mul_le_mul_of_nonneg_left pow2_le_ten_neg255 (le_of_lt h128)
    rw [← pow2_add, show (-128 : ℤ) + -848 = -976 by norm_num] at e2
    have e3 : pow2 (-976) / 2 = pow2 (-977) := by
      rw [half_pow2, show (-976 : ℤ) - 1 = -977 by norm_num]
    have e4 := pow2_le_pow2 (show (-1021 : ℤ) ≤ -977 by norm_num)
    have e5 := hyξh.1
    linarith only [e1, e2, e3, e4, e5, hlo]
  obtain ⟨t, ht, _, htn⟩ := price_near_scale hxpos hx160 hp0
    (near_refl (le_of_lt hp0) (by norm_num)) hphi hnorm
  have hyt := near_trans (le_of_lt hy0) (by norm_num) (by norm_num) (by norm_num)
    (by norm_num) hyξ htn
  refine ⟨x, t, ?_, hxpos, hx160, ?_, ?_⟩
  · exact floatToSqrtPriceX96_num Exp Log h0 h1 hp hA hρ hρ0
  · rw [sqrtPriceX96ToFloat_eq, scale_eq Exp Log h0 h1, hp, ht]
  · exact near_abs (near_mono (le_of_lt hy0) (by norm_num) hyt)

theorem ratio_bounds_iff (y : ℚ) (k : ℤ) :
    ((2 : ℚ) ^ (-128 : ℤ) ≤ y / (10 : ℚ) ^ k ∧ y / (10 : ℚ) ^ k ≤ (2 : ℚ) ^ (127 : ℤ)) →
    (pow2 (-128) * ten k ≤ y ∧ y ≤ pow2 127 * ten k) := by
  have hT : (0 : ℚ) < (10 : ℚ) ^ k := by positivity
  rw [pow2_eq, pow2_eq, ten_eq]
  intro ⟨h1, h2⟩
  exact ⟨(le_div_iff₀ hT).mp h1, (div_le_iff₀ hT).mp h2⟩

/-- C6 (round trip of the price codec): for decimals in `[0, 18]` and a positive price
in the representable range, here the prices whose unscaled ratio
`price / 10^(decimals0 - decimals1)` lies between `2^-128` and `2^127` (so that
`sqrtPriceX96` is a `uint160` of at least 32 significant bits), `floatToSqrtPriceX96`
returns a positive integer `x < 2^160` and `sqrtPriceX96ToFloat(x, decimals0,
decimals1)` is a finite float equal to `price` within relative error `10^-9`. -/
theorem C6_round_trip (Exp Log : F64 → F64) (price : ℚ) (decimals0 decimals1 : ℕ)
    (h0 : decimals0 ≤ 18) (h1 : decimals1 ≤ 18)
    (hlo : (2 : ℚ) ^ (-128 : ℤ) ≤ price / (10 : ℚ) ^ ((decimals0 : ℤ) - (decimals1 : ℤ)))
    (hhi : price / (10 : ℚ) ^ ((decimals0 : ℤ) - (decimals1 : ℤ)) ≤ (2 : ℚ) ^ (127 : ℤ)) :
    ∃ (x : ℤ) (back : ℚ),
      floatToSqrtPriceX96 Exp Log (.num price) decimals0 decimals1 = .ok (some x) ∧
      0 < x ∧ x < 2 ^ 160 ∧
      sqrtPriceX96ToFloat Exp Log x decimals0 decimals1 = .ok (.num back) ∧
      |back - price| ≤ 1 / 10 ^ 9 * price := by
  obtain ⟨h2, h3⟩ := ratio_bounds_iff price _ ⟨hlo, hhi⟩
  exact round_trip Exp Log price decimals0 decimals1 (by omega) (by omega) h2 h3

/-- C6 at the price 2000 with decimals `(18, 6)`. -/
theorem C6_round_trip_witness :
    ∃ (x : ℤ) (back : ℚ),
      floatToSqrtPriceX96 noExpLog noExpLog (.num 2000) 18 6 = .ok (some x) ∧
      0 < x ∧ x < 2 ^ 160 ∧
      sqrtPriceX96ToFloat noExpLog noExpLog x 18 6 = .ok (.num back) ∧
      |back - 2000| ≤ 1 / 10 ^ 9 * 2000 :=
  C6_round_trip noExpLog noExpLog 2000 18 6 (by norm_num) (by norm_num) (by norm_num)
    (by norm_num)

/-- Below the range of `C6_round_trip` the round trip can lose the price altogether:
the price `2^-200` with decimals `(0, 0)` is encoded as `0` and decoded as `+0`. -/
theorem round_trip_below_range :
    floatToSqrtPriceX96 noExpLog noExpLog (.num (1 / 2 ^ 200)) 0 0 = .ok (some 0) ∧
    sqrtPriceX96ToFloat noExpLog noExpLog 0 0 0 = .ok (.zero false) := by
  decide!

/-! ## Keccak-256 and the known vector of the pool address -/

theorem forceNat_eq {α : Type} (n : Nat) (k : Nat → α) : forceNat n k = k n := by
  cases n <;> rfl

theorem forceList_eq {α : Type} (l : List Nat) (k : List Nat → α) : forceList l k = k l := by
  induction l generalizing k with
  | nil => rfl
  | cons x xs ih => simp only [forceList, forceNat_eq, ih]

/-- The standard test vector of Keccak-256 at the empty string,
c5d2460186f7233c927e7db2dcc703c0e500b653ca82273b7bfad8045d85a470. -/
theorem Keccak256_empty :
    (Keccak256 []).bytes =
      [0xc5, 0xd2, 0x46, 0x01, 0x86, 0xf7, 0x23, 0x3c, 0x92, 0x7e, 0x7d, 0xb2, 0xdc, 0xc7,
       0x03, 0xc0, 0xe5, 0x00, 0xb6, 0x53, 0xca, 0x82, 0x27, 0x3b, 0x7b, 0xfa, 0xd8, 0x04,
       0x5d, 0x85, 0xa4, 0x70] := by
  decide!

/-- The standard test vector of Keccak-256 at the three bytes "abc",
4e03657aea45a94fc7d47ba826c8d667c0d1e6e33a64a036ec44f58fa12d6c45. -/
theorem Keccak256_abc :
    (Keccak256 [0x61, 0x62, 0x63]).bytes =
      [0x4e, 0x03, 0x65, 0x7a, 0xea, 0x45, 0xa9, 0x4f, 0xc7, 0xd4, 0x7b, 0xa8, 0x26, 0xc8,
       0xd6, 0x67, 0xc0, 0xd1, 0xe6, 0xe3, 0x3a, 0x64, 0xa0, 0x36, 0xec, 0x44, 0xf5, 0x8f,
       0xa1, 0x2d, 0x6c, 0x45] := by
  decide!

theorem poolAddressOf_vector :
    poolAddressOf Keccak256 vectorUSDC mainnetWETH 3000 = vectorPool := by
  decide!

theorem poolAddressOf_mainnet :
    poolAddressOf Keccak256 mainnetUSDC mainnetWETH 3000 = poolUSDCWETH3000 := by
  decide!

/-- C11, the known vector as written: for the address
0xA0b86991c6218b36c1d19D4a5e3EB0cE3606eB48 given as USDC, mainnet WETH and fee 3000,
`computePoolAddress` over Keccak-256 returns `inverted = false` and the pool
0xab7bd3655dff7d2d54612cbb9069fa3176d2d96e, not the deployed pool
0x8ad599c3A0ff1De082011EFDDc58f1908eb6e6D8. -/
theorem C11_counterexample :
    computePoolAddress Keccak256 vectorUSDC mainnetWETH 3000 = .ok (false, vectorPool) ∧
    computePoolAddress Keccak256 vectorUSDC mainnetWETH 3000
      ≠ .ok (false, poolUSDCWETH3000) := by
  have h := computePoolAddress_eq Keccak256 vectorUSDC mainnetWETH 3000 (by decide)
  have hc : ¬ bytesCompare vectorUSDC.bytes mainnetWETH.bytes > 0 := by decide
  rw [if_neg hc, poolAddressOf_vector] at h
  refine ⟨h, ?_⟩
  rw [h]
  decide

/-- C11 (known vector): with the factory and init-code hash of the source and Keccak-256
as the hash, for mainnet USDC 0xA0b86991c6218b36c1d19D4a2e9Eb0cE3606eB48, mainnet WETH
0xC02aaA39b223FE8D0A0e5C4F27eAD9083C756Cc2 and fee 3000, `computePoolAddress` returns
`inverted = false` and the deployed pool 0x8ad599c3A0ff1De082011EFDDc58f1908eb6e6D8; with
the two tokens exchanged it returns `inverted = true` and the same pool. -/
theorem C11_known_vector :
    computePoolAddress Keccak256 mainnetUSDC mainnetWETH 3000
      = .ok (false, poolUSDCWETH3000) ∧
    computePoolAddress Keccak256 mainnetWETH mainnetUSDC 3000
      = .ok (true, poolUSDCWETH3000) := by
  have h1 := computePoolAddress_eq Keccak256 mainnetUSDC mainnetWETH 3000 (by decide)
  have h2 := computePoolAddress_eq Keccak256 mainnetWETH mainnetUSDC 3000 (by decide)
  have hc1 : ¬ bytesCompare mainnetUSDC.bytes mainnetWETH.bytes > 0 := by decide
  have hc2 : bytesCompare mainnetWETH.bytes mainnetUSDC.bytes > 0 := by decide
  rw [if_neg hc1, poolAddressOf_mainnet] at h1
  rw [if_pos hc2, poolAddressOf_mainnet] at h2
  exact ⟨h1, h2⟩

/-! ## Claims about the swap and about equal tokens -/

theorem bytesCompare_self (a : List Byte) : ¬ bytesCompare a a > 0 := by
  rw [bytesCompare_pos_iff a a rfl]
  exact lt_irrefl _

theorem computePoolAddress_self (keccak : List Byte → Hash) (a : Address) (fee : Nat)
    (hfee : fee < 2 ^ 32) :
    computePoolAddress keccak a a fee = .ok (false, poolAddressOf keccak a a fee) := by
  rw [computePoolAddress_eq keccak a a fee (uint32_lt_word hfee),
    if_neg (bytesCompare_self a.bytes)]

theorem sendUniswapSwap_ok (client : SwapTx → Except String Hash) (inverted : Bool)
    (pool rcpt : Address) (amt : Int) (hlo : minInt256 ≤ amt) (hhi : amt ≤ maxInt256) :
    sendUniswapSwap client inverted pool rcpt amt =
      client ⟨SwapContract, ⟨pool, rcpt, !inverted, amt,
        if inverted then 1461446703485210103287273052203988822378723970341
        else 4295128740⟩⟩ := by
  have h1 : ¬ (amt < minInt256 ∨ maxInt256 < amt) := by omega
  cases inverted
  · have h2 : ¬ (minTickSqrtRatio < 0 ∨ maxUint160 < minTickSqrtRatio) := by decide
    simp only [sendUniswapSwap, EncodeArgs, Bool.false_eq_true, if_false, h1, h2]
    rfl
  · have h2 : ¬ (maxTickSqrtRatio < 0 ∨ maxUint160 < maxTickSqrtRatio) := by decide
    simp only [sendUniswapSwap, EncodeArgs, if_true, if_false, h1, h2]
    rfl

theorem sendUniswapSwap_error (client : SwapTx → Except String Hash) (inverted : Bool)
    (pool rcpt : Address) (amt : Int) (h : amt < minInt256 ∨ maxInt256 < amt) :
    sendUniswapSwap client inverted pool rcpt amt =
      .error "abi: amountSpecified does not fit int256" := by
  simp only [sendUniswapSwap, EncodeArgs, if_pos h]

/-- C12, the claim as written fails in two ways. An amount inside the `int256` range
(here 1) is sent with `zeroForOne = true` and the limit 4295128740, but the valid
current price 4295128739 (`MIN_SQRT_RATIO`) is not above that limit; and at the amount
`2^255` nothing is encoded: `sendUniswapSwap` returns the encoder's error whatever the
client. -/
theorem C12_counterexample :
    (∀ client : SwapTx → Except String Hash,
      sendUniswapSwap client false poolUSDCWETH3000 WETH 1 =
        client ⟨SwapContract, ⟨poolUSDCWETH3000, WETH, true, 1, 4295128740⟩⟩) ∧
    validSqrtPrice 4295128739 ∧
    ¬ ((4295128740 : Int) < 4295128739) ∧
    (∀ client : SwapTx → Except String Hash,
      sendUniswapSwap client false poolUSDCWETH3000 WETH
          57896044618658097711785492504343953926634992332820282019728792003956564819968 =
        .error "abi: amountSpecified does not fit int256") := by
  refine ⟨fun client => ?_, ?_, by decide, fun client => ?_⟩
  · exact sendUniswapSwap_ok client false poolUSDCWETH3000 WETH 1 (by decide) (by decide)
  · exact ⟨by decide, by decide⟩
  · exact sendUniswapSwap_error client false poolUSDCWETH3000 WETH _ (Or.inr (by decide))

/-- C12 (swap direction and price limit, amended): for every flag, pool and recipient and
every amount in the `int256` range, `sendUniswapSwap` hands `client.SendTransaction` the
transaction to `SwapContract` with `zeroForOne = !inverted` and `sqrtPriceLimitX96 =
4295128740` when `inverted` is false, `1461446703485210103287273052203988822378723970341`
when it is true, the two being `MIN_SQRT_RATIO + 1` and `MAX_SQRT_RATIO - 1`, and returns
what the client returns; for an amount outside the `int256` range (`-2^255 .. 2^255 - 1`)
it returns the encoder's error and sends nothing. In `main` the flag is the one
`computePoolAddress tokenIn tokenOut 10000` returns, an error is a panic, `zeroForOne` is
true exactly when `tokenIn` is not above `tokenOut` as a big-endian integer, and then
`tokenIn` is token0 of the pool key, otherwise `tokenOut` is. For a valid current price
`p` (`MIN_SQRT_RATIO ≤ p < MAX_SQRT_RATIO`) the lower limit is strictly below `p` except
at `p = MIN_SQRT_RATIO` and `p = MIN_SQRT_RATIO + 1`, the upper limit is strictly above
`p` except at `p = MAX_SQRT_RATIO - 1`; each limit is inside the tick-ratio range, and at
every price at which the pool accepts some limit for the direction it accepts this one,
which is the extreme of the accepted limits. -/
theorem C12_swap_direction_and_limit (keccak : List Byte → Hash)
    (tokenIn tokenOut recipient : Address) (amount : Int) :
    (∀ (client : SwapTx → Except String Hash) (inverted : Bool) (pool rcpt : Address)
        (amt : Int), minInt256 ≤ amt ∧ amt ≤ maxInt256 →
      sendUniswapSwap client inverted pool rcpt amt =
        client ⟨SwapContract, ⟨pool, rcpt, !inverted, amt,
          if inverted then 1461446703485210103287273052203988822378723970341
          else 4295128740⟩⟩) ∧
    (∀ (inverted : Bool) (pool rcpt : Address) (amt : Int),
      amt < minInt256 ∨ maxInt256 < amt →
      ∃ msg, ∀ client : SwapTx → Except String Hash,
        sendUniswapSwap client inverted pool rcpt amt = .error msg) ∧
    (minInt256 = -(2 : Int) ^ 255 ∧ maxInt256 = (2 : Int) ^ 255 - 1) ∧
    (4295128740 : Int) = MIN_SQRT_RATIO + 1 ∧
    (1461446703485210103287273052203988822378723970341 : Int) = MAX_SQRT_RATIO - 1 ∧
    (∃ (inverted : Bool) (pool : Address),
      computePoolAddress keccak tokenIn tokenOut 10000 = .ok (inverted, pool) ∧
      (∀ client : SwapTx → Except String Hash,
        mainSwap keccak client tokenIn tokenOut recipient amount =
          sendUniswapSwap client inverted pool recipient amount) ∧
      ((!inverted) = true ↔ beNat tokenIn.bytes ≤ beNat tokenOut.bytes) ∧
      ((!inverted) = true → pool = poolAddressOf keccak tokenIn tokenOut 10000) ∧
      ((!inverted) = false → pool = poolAddressOf keccak tokenOut tokenIn 10000)) ∧
    (∀ p : Int, validSqrtPrice p →
      ((4295128740 : Int) > MIN_SQRT_RATIO ∧
        ((4295128740 : Int) < p ↔ p ≠ MIN_SQRT_RATIO ∧ p ≠ MIN_SQRT_RATIO + 1) ∧
        ∀ l, limitAccepted true l p → limitAccepted true 4295128740 p ∧ 4295128740 ≤ l) ∧
      ((1461446703485210103287273052203988822378723970341 : Int) < MAX_SQRT_RATIO ∧
        (p < (1461446703485210103287273052203988822378723970341 : Int) ↔
          p ≠ MAX_SQRT_RATIO - 1) ∧
        ∀ l, limitAccepted false l p →
          limitAccepted false 1461446703485210103287273052203988822378723970341 p ∧
          l ≤ 1461446703485210103287273052203988822378723970341)) := by
  refine ⟨fun client inverted pool rcpt amt h =>
      sendUniswapSwap_ok client inverted pool rcpt amt h.1 h.2,
    fun inverted pool rcpt amt h =>
      ⟨_, fun client => sendUniswapSwap_error client inverted pool rcpt amt h⟩,
    ⟨by norm_num [minInt256], by norm_num [maxInt256]⟩, by decide, by decide, ?_, ?_⟩
  · have h := computePoolAddress_eq keccak tokenIn tokenOut 10000 (by decide)
    have hnat := bytesCompare_pos_iff tokenIn.bytes tokenOut.bytes
      (by rw [tokenIn.len, tokenOut.len])
    by_cases hc : bytesCompare tokenIn.bytes tokenOut.bytes > 0
    · rw [if_pos hc] at h
      have hlt := hnat.mp hc
      refine ⟨true, _, h, fun client => ?_, ?_, ?_, ?_⟩
      · simp only [mainSwap, h, bind, Except.bind, if_true]
      · simp only [Bool.not_true, Bool.false_eq_true, false_iff]
        omega
      · intro hz
        simp at hz
      · intro _
        rfl
    · rw [if_neg hc] at h
      have hge : ¬ beNat tokenOut.bytes < beNat tokenIn.bytes := fun hl => hc (hnat.mpr hl)
      refine ⟨false, _, h, fun client => ?_, ?_, ?_, ?_⟩
      · simp only [mainSwap, h, bind, Except.bind, Bool.false_eq_true, if_false]
      · simp only [Bool.not_false, true_iff]
        omega
      · intro _
        rfl
      · intro hz
        simp at hz
  · intro p hp
    simp only [validSqrtPrice, MIN_SQRT_RATIO, MAX_SQRT_RATIO] at hp
    simp only [limitAccepted, MIN_SQRT_RATIO, MAX_SQRT_RATIO, Bool.false_eq_true, if_false,
      if_true]
    refine ⟨⟨by decide, by omega, fun l hl => by omega⟩,
      ⟨by decide, by omega, fun l hl => by omega⟩⟩

/-- C13 (equal tokens are not rejected): for every address `a` and every `uint32` fee,
`computePoolAddress a a fee` returns `inverted = false` and the pool address of the key
`(a, a, fee)`, the last 20 bytes of `keccak (0xFF ++ factory ++ keccak (pad32 a ++
pad32 a ++ feeWord) ++ initCodeHash)`; it returns no error. -/
theorem C13_equal_tokens_not_rejected (keccak : List Byte → Hash) (a : Address)
    (fee : Nat) (hfee : fee < 2 ^ 32) :
    computePoolAddress keccak a a fee = .ok (false, poolAddressOf keccak a a fee) ∧
    (∀ msg, computePoolAddress keccak a a fee ≠ .error msg) ∧
    poolAddressOf keccak a a fee =
      last20 (keccak ([0xff] ++ uniswapFactory.bytes
        ++ (keccak (pad32 a ++ pad32 a ++ beWord 32 fee)).bytes
        ++ uniswapPoolInitHash.bytes)) := by
  have h := computePoolAddress_self keccak a fee hfee
  refine ⟨h, fun msg hm => ?_, rfl⟩
  rw [h] at hm
  cases hm

/-- C13 at the program's token USDC paired with itself, fee 500, over Keccak-256. -/
theorem C13_equal_tokens_not_rejected_witness :
    computePoolAddress Keccak256 USDC USDC 500
      = .ok (false, poolAddressOf Keccak256 USDC USDC 500) ∧
    (∀ msg, computePoolAddress Keccak256 USDC USDC 500 ≠ .error msg) ∧
    poolAddressOf Keccak256 USDC USDC 500 =
      last20 (Keccak256 ([0xff] ++ uniswapFactory.bytes
        ++ (Keccak256 (pad32 USDC ++ pad32 USDC ++ beWord 32 500)).bytes
        ++ uniswapPoolInitHash.bytes)) :=
  C13_equal_tokens_not_rejected Keccak256 USDC 500 (by decide)

end EthWarsaw
